import Mathlib

/-!
# Service-payment settlement of the ledger

A shallow embedding of `ledger/execution/tx_service_payment.go` (the functions
`sanityCheck`, `splitPayment` and `process`), of `ledger/state/storeview.go` (accounts,
split rules, staging buffers, and the VM state: balance, code, storage slots, suicide,
snapshot and revert), of `ledger/types/split_rule.go`, and of the validator set of
`core/validator.go`.

Conventions of the embedding.

* Go pointers to accounts (`*types.Account`) are indices into an explicit heap
  of account objects.  Every call that decodes an account from the store
  (`GetAccount` builds `&types.Account{}`) or makes a new one allocates a new
  object, so two calls for the same address give two different pointers.
* Go maps keyed by account pointer (`map[*types.Account]types.Coins`) are
  association lists in insertion order with insert-or-overwrite semantics.
* `*big.Int` is `Int`; `uint64` and `uint` are `Nat` (wrap-around is written
  out where the source increments).
* The order in which Go ranges over a map is not fixed by the language; it is
  a parameter of the embedding (`Env.rangeOrder`).
* A Go `panic` is `Except.error`.
* The store of a view holds decoded records (`TreeStore`); the bytes under them, with
  the encoding as a parameter, are a layer of their own (`ByteView`), and the canonical
  encoding of the specification is written out (`canonicalEncoding`).
* The database under the tree store (committed storage sub-trees and committed states
  of the main tree, by root) is passed explicitly next to the view (`Database`); hash
  functions, the RLP of a byte string and Go's library sort are parameters.
-/

namespace Theta

/-! ## Basic types -/

/-- A 20-byte account address (`common.Address`), kept abstract. -/
abbrev Address := Nat

/-- A 32-byte hash (`common.Hash`); `0` stands for the zero hash `common.Hash{}`. -/
abbrev Hash := Nat

/-- A public key (`crypto.PublicKey`), kept abstract. -/
abbrev PubKey := Nat

/-- A signature (`crypto.Signature`), kept abstract. -/
abbrev Signature := Nat

/-- A pointer to an account object: its index in the heap. -/
abbrev Ptr := Nat

/-- A byte string (`common.Bytes`): the list of its bytes. -/
abbrev Bytes := List Nat

/-- Modelled from the spec: `ledger/types/coins.go` is not under src.  The spec's
data model: "Coins: a pair (ThetaWei, GammaWei) of arbitrary-precision integers.
Arithmetic is componentwise." -/
@[ext]
structure Coins where
  ThetaWei : Int
  GammaWei : Int
deriving DecidableEq, Repr

namespace Coins

/-- The coins value with the given components (`types.NewCoins`). -/
def NewCoins (theta gamma : Int) : Coins := { ThetaWei := theta, GammaWei := gamma }

/-- Componentwise sum. -/
def Plus (a b : Coins) : Coins :=
  { ThetaWei := a.ThetaWei + b.ThetaWei, GammaWei := a.GammaWei + b.GammaWei }

/-- Componentwise difference; the result may be negative. -/
def Minus (a b : Coins) : Coins :=
  { ThetaWei := a.ThetaWei - b.ThetaWei, GammaWei := a.GammaWei - b.GammaWei }

/-- Spec: "a coins value is nonneg iff both components are ≥ 0". -/
def IsNonnegative (a : Coins) : Bool :=
  decide (0 ≤ a.ThetaWei) && decide (0 ≤ a.GammaWei)

/-- Componentwise greater-or-equal. -/
def IsGTE (a b : Coins) : Bool :=
  decide (b.ThetaWei ≤ a.ThetaWei) && decide (b.GammaWei ≤ a.GammaWei)

/-- The test `IsZero` that `Empty` applies to a balance; the spec's "balance=0": both
components are zero. -/
def IsZero (a : Coins) : Bool :=
  decide (a.ThetaWei = 0) && decide (a.GammaWei = 0)

/-- Spec: "splitAmount = fullAmount · percentage / 100 using integer division on
each coin component".  The division is the one of `big.Int.Div` (rounds towards
minus infinity for the positive divisor 100), which is `/` on `Int`. -/
def CalculatePercentage (c : Coins) (percentage : Nat) : Coins :=
  { ThetaWei := c.ThetaWei * (percentage : Int) / 100,
    GammaWei := c.GammaWei * (percentage : Int) / 100 }

end Coins

/-! ## Maps -/

/-- Lookup in a map (`m[k]`, `store.Get(k)`): the value of the first entry with key `k`. -/
def mapGet {κ ν : Type} [DecidableEq κ] : List (κ × ν) → κ → Option ν
  | [], _ => none
  | (k1, v1) :: rest, k => if k1 = k then some v1 else mapGet rest k

/-- Insert-or-overwrite (`m[k] = v`, `store.Set(k, v)`): an existing key keeps its
place, a new key goes to the end. -/
def mapSet {κ ν : Type} [DecidableEq κ] : List (κ × ν) → κ → ν → List (κ × ν)
  | [], k, v => [(k, v)]
  | (k1, v1) :: rest, k, v =>
    if k1 = k then (k, v) :: rest else (k1, v1) :: mapSet rest k v

/-- Removal of a key (`store.Delete(k)`). -/
def mapDelete {κ ν : Type} [DecidableEq κ] : List (κ × ν) → κ → List (κ × ν)
  | [], _ => []
  | (k1, v1) :: rest, k =>
    if k1 = k then mapDelete rest k else (k1, v1) :: mapDelete rest k

/-- The keys of a map, in order. -/
def mapKeys {κ ν : Type} (m : List (κ × ν)) : List κ := m.map Prod.fst

/-! ## Split rules (`ledger/types/split_rule.go`) -/

/-- The struct `Split`: a participating address and the percentage of the payment it
gets.  `Percentage` is a Go `uint`. -/
structure Split where
  Address : Address
  Percentage : Nat
deriving DecidableEq, Repr

/-- The struct `SplitRule`. -/
structure SplitRule where
  InitiatorAddress : Address
  ResourceID : String
  Splits : List Split
  EndBlockHeight : Nat
deriving DecidableEq, Repr

/-! ## Transactions and accounts -/

/-- Modelled from the spec: `ledger/types/tx.go` is not under src.  Spec: "Each
TxInput carries { address, coins, sequence, pubKey?, signature }". -/
structure TxInput where
  Address : Address
  Coins : Coins
  Sequence : Nat
  Signature : Signature
  PubKey : Option PubKey
deriving DecidableEq, Repr

/-- Modelled from the spec: `ledger/types/tx.go` is not under src.  Spec:
"ServicePaymentTx: { fee, source, target, resourceID, paymentSequence,
reserveSequence }"; the field names are those `process` and
`createServicePaymentTx` use. -/
structure ServicePaymentTx where
  Fee : Coins
  Source : TxInput
  Target : TxInput
  PaymentSequence : Nat
  ReserveSequence : Nat
  ResourceID : String
deriving DecidableEq, Repr

/-- Modelled from the spec: "TransferRecord: { servicePaymentTx, transferAmount }". -/
structure TransferRecord where
  servicePaymentTx : ServicePaymentTx
  transferAmount : Coins
deriving DecidableEq, Repr

/-- Modelled from the spec: "ReservedPool: { collateral, fund, resourceIDs,
endBlockHeight, reserveSequence, transferRecords }". -/
structure ReservedPool where
  collateral : Coins
  fund : Coins
  resourceIDs : List String
  endBlockHeight : Nat
  reserveSequence : Nat
  transferRecords : List TransferRecord
deriving DecidableEq, Repr

/-- Modelled from the spec: "SlashIntent: { address, reserveSequence, proof }"; the
proof is the list of transfer records it cites. -/
structure SlashIntent where
  address : Address
  reserveSequence : Nat
  proof : List TransferRecord
deriving DecidableEq, Repr

/-- Modelled from the spec: `ledger/types/account.go` is not under src.  Spec:
"Account: { sequence, balance, reservedFunds, codeHash, storageRoot }"; `PubKey` is
the field `sanityCheck` reads.  Field names are those the source uses
(`Sequence`, `Balance`, `CodeHash`, `Root`, `PubKey`). -/
structure Account where
  PubKey : Option PubKey
  Sequence : Nat
  Balance : Coins
  ReservedFunds : List ReservedPool
  Root : Hash
  CodeHash : Hash
deriving DecidableEq, Repr

/-- The code hash of an account without code (`types.EmptyCodeHash`), kept abstract. -/
def EmptyCodeHash : Hash := 1

/-- Modelled from the spec: the "transient empty account" that `NewAccount` makes:
sequence 0, zero balance, no reserved funds, no code. -/
def NewAccount : Account :=
  { PubKey := none, Sequence := 0, Balance := Coins.NewCoins 0 0, ReservedFunds := [],
    Root := 0, CodeHash := EmptyCodeHash }

/-- The struct `core.Validator` (`core/validator.go`). -/
structure Validator where
  PubKey : PubKey
  Stake : Nat
deriving DecidableEq, Repr

/-! ## The heap of account objects -/

/-- The account objects allocated so far; a pointer is an index. -/
abbrev Heap := List Account

/-- A new object holding `a`: its pointer is different from every pointer handed out before. -/
def allocAccount (heap : Heap) (a : Account) : Ptr × Heap := (heap.length, heap ++ [a])

/-- The object a pointer points to. -/
def readAccount (heap : Heap) (p : Ptr) : Account := heap.getD p NewAccount

/-- An in-place update of the object a pointer points to. -/
def modifyAccount (heap : Heap) (p : Ptr) (f : Account → Account) : Heap :=
  heap.set p (f (readAccount heap p))

/-! ## StoreView (`ledger/state/storeview.go`) -/

/-- The tree store behind a view.  `store/treestore` and the key functions
(`AccountKey`, `SplitRuleKey`, `CodeKey`) are not under src; the spec says "Keys are
typed by prefix: accounts, contract code, split rules", so the one byte store is
three maps with disjoint key spaces.  A stored value is the record its bytes decode
to (`types.ToBytes` / `types.FromBytes` are not under src). -/
structure TreeStore where
  accounts : List (Address × Account)
  splitRules : List (String × SplitRule)
  code : List (Hash × List Nat)
deriving DecidableEq, Repr

/-- The struct `StoreView`. -/
structure StoreView where
  height : Nat
  store : TreeStore
  coinbaseTransactinProcessed : Bool
  slashIntents : List SlashIntent
  validatorsDiff : List Validator
  refund : Nat
deriving DecidableEq, Repr

namespace StoreView

/-- `Height` returns the block height of the view. -/
def Height (sv : StoreView) : Nat := sv.height

/-- `AddSlashIntent`: `sv.slashIntents = append(sv.slashIntents, slashIntent)`. -/
def AddSlashIntent (sv : StoreView) (slashIntent : SlashIntent) : StoreView :=
  { sv with slashIntents := sv.slashIntents ++ [slashIntent] }

/-- `GetSlashIntents` retrieves all the staged slash intents. -/
def GetSlashIntents (sv : StoreView) : List SlashIntent := sv.slashIntents

/-- `ClearSlashIntents` clears the staged slash intents. -/
def ClearSlashIntents (sv : StoreView) : StoreView := { sv with slashIntents := [] }

/-- `GetAccount`: the account stored under `AccountKey(addr)`, `none` for Go's nil. -/
def GetAccount (sv : StoreView) (addr : Address) : Option Account :=
  mapGet sv.store.accounts addr

/-- `SetAccount`: `sv.Set(AccountKey(addr), accBytes)`, the write of an account that
encodes.  The panic of lines 159-163, for an account that `types.ToBytes` refuses, is
in `SetAccountOrPanic` and, on the bytes of the store, in `ByteView.SetAccount`. -/
def SetAccount (sv : StoreView) (addr : Address) (acc : Account) : StoreView :=
  { sv with store := { sv.store with accounts := mapSet sv.store.accounts addr acc } }

/-- `DeleteAccount`: `sv.Delete(AccountKey(addr))`. -/
def DeleteAccount (sv : StoreView) (addr : Address) : StoreView :=
  { sv with store := { sv.store with accounts := mapDelete sv.store.accounts addr } }

/-- `GetSplitRule`: the rule stored under `SplitRuleKey(resourceID)`, `none` for nil. -/
def GetSplitRule (sv : StoreView) (resourceID : String) : Option SplitRule :=
  mapGet sv.store.splitRules resourceID

/-- `SetSplitRule`: `sv.Set(SplitRuleKey(resourceID), splitRuleBytes)`. -/
def SetSplitRule (sv : StoreView) (resourceID : String) (splitRule : SplitRule) : StoreView :=
  { sv with store := { sv.store with splitRules := mapSet sv.store.splitRules resourceID splitRule } }

/-- `DeleteSplitRule`: `sv.store.Delete(key)`; the boolean says whether a rule was there. -/
def DeleteSplitRule (sv : StoreView) (resourceID : String) : Bool × StoreView :=
  ((mapGet sv.store.splitRules resourceID).isSome,
   { sv with store := { sv.store with splitRules := mapDelete sv.store.splitRules resourceID } })

/-- `GetOrCreateAccount`: the stored account, or `types.NewAccount()` without writing it. -/
def GetOrCreateAccount (sv : StoreView) (addr : Address) : Account :=
  match sv.GetAccount addr with
  | some account => account
  | none => NewAccount

/-- The call `sv.GetOrCreateAccount(addr)` as a step on the view (lines 272-278): the
account it returns and the view it leaves.  The function has no statement that writes. -/
def GetOrCreateAccountOn (sv : StoreView) (addr : Address) : Account × StoreView :=
  match sv.GetAccount addr with
  | some account => (account, sv)
  | none => (NewAccount, sv)

/-- `SplitRuleExists`: `sv.GetSplitRule(resourceID) != nil`. -/
def SplitRuleExists (sv : StoreView) (resourceID : String) : Bool :=
  (sv.GetSplitRule resourceID).isSome

/-- `AddSplitRule` (lines 177-185): the returned boolean and the view it leaves. -/
def AddSplitRule (sv : StoreView) (splitRule : SplitRule) : Bool × StoreView :=
  if sv.SplitRuleExists splitRule.ResourceID then
    (false, sv)
  else
    (true, sv.SetSplitRule splitRule.ResourceID splitRule)

/-- `UpdateSplitRule` (lines 187-195): the returned boolean and the view it leaves. -/
def UpdateSplitRule (sv : StoreView) (splitRule : SplitRule) : Bool × StoreView :=
  if !sv.SplitRuleExists splitRule.ResourceID then
    (false, sv)
  else
    (true, sv.SetSplitRule splitRule.ResourceID splitRule)

/-- The traversal of `DeleteExpiredSplitRules` (lines 233-246): the keys under the
split-rule prefix whose rule has `EndBlockHeight < currentBlockHeight`, in the order the
traversal visits them. -/
def expiredKeys (sv : StoreView) (currentBlockHeight : Nat) : List String :=
  (sv.store.splitRules.filter
    (fun e => decide (e.2.EndBlockHeight < currentBlockHeight))).map Prod.fst

/-- The deletion loop of `DeleteExpiredSplitRules` (lines 248-254): it stops with
`false` at the first key whose deletion reports `false`. -/
def deleteKeys : List String → StoreView → Bool × StoreView
  | [], sv => (true, sv)
  | key :: rest, sv =>
    let deleted := sv.DeleteSplitRule key
    if !deleted.1 then (false, deleted.2) else deleteKeys rest deleted.2

/-- `DeleteExpiredSplitRules` (lines 229-257): the returned boolean and the view it
leaves. -/
def DeleteExpiredSplitRules (sv : StoreView) (currentBlockHeight : Nat) : Bool × StoreView :=
  deleteKeys (sv.expiredKeys currentBlockHeight) sv

/-- A store holds one value per key: no key occurs twice in a map of the view. -/
def WF (sv : StoreView) : Prop :=
  (mapKeys sv.store.accounts).Nodup ∧ (mapKeys sv.store.splitRules).Nodup ∧
    (mapKeys sv.store.code).Nodup

end StoreView

/-! ## Results (`common/result`) -/

/-- The error codes the executor uses.  `common/result` is not under src. -/
inductive ErrorCode where
  | CodeOK
  | CodeGenericError
  | CodeInvalidFee
  | CodeCheckTransferReservedFundFailed
deriving DecidableEq, Repr

/-- A `result.Result`: a code and a message. -/
structure Result where
  code : ErrorCode
  message : String
deriving DecidableEq, Repr

namespace Result

/-- The value `result.OK`. -/
def OK : Result := { code := ErrorCode.CodeOK, message := "" }

/-- The constructor `result.Error(msg)`. -/
def Error (msg : String) : Result := { code := ErrorCode.CodeGenericError, message := msg }

/-- `IsError` as the source calls it. -/
def IsError (r : Result) : Bool := decide (r.code ≠ ErrorCode.CodeOK)

/-- `IsOK` as the source calls it. -/
def IsOK (r : Result) : Bool := decide (r.code = ErrorCode.CodeOK)

/-- `WithErrorCode` as the source calls it: the same message under another code. -/
def WithErrorCode (r : Result) (code : ErrorCode) : Result := { r with code := code }

end Result

/-! ## What the executor takes from outside the files at hand -/

/-- The collaborators of the executor that are not under src, as parameters.

* `stateHeight` is `exec.state.Height()`, the height of the ledger state the
  executor was built with (`ledger/state/state.go` is not under src).
* `TxID` is `types.TxID(chainID, tx)`.
* `inputPubKeyOK` is the public-key validity rule that `getInput` and
  `getOrMakeInput` apply to an account's known key and a transaction input.
* `rangeOrder` is the order in which `for account := range coinsMap` visits the
  entries of the map; Go leaves it unspecified, so it is any rearrangement.
* `ValidateBasic` is `TxInput.ValidateBasic()`, the structural validation of an input.
* `SourceSignBytes` and `TargetSignBytes` are the bytes the source and the target sign.
* `VerifySignature` is `PublicKey.VerifySignature(msg, sig)` on the key of an account.
* `MinimumTransactionFeeGammaWei` is the protocol constant of that name.
* `CheckTransferReservedFund` is `Account.CheckTransferReservedFund` on the source
  account, with the target account, the amount, the payment sequence, the block height
  and the reserve sequence; `none` is Go's nil error. -/
structure Env where
  stateHeight : Nat
  TxID : String → ServicePaymentTx → Hash
  inputPubKeyOK : Option PubKey → TxInput → Bool
  rangeOrder : List (Ptr × Coins) → List (Ptr × Coins)
  ValidateBasic : TxInput → Result
  SourceSignBytes : String → ServicePaymentTx → Bytes
  TargetSignBytes : String → ServicePaymentTx → Bytes
  VerifySignature : Option PubKey → Bytes → Signature → Bool
  MinimumTransactionFeeGammaWei : Nat
  CheckTransferReservedFund : Account → Account → Coins → Nat → Nat → Nat → Option String

/-! ## Helpers of the executor (`ledger/execution/utils.go`, `ledger/types/account.go`) -/

/-- The account object of an input: it takes the input's public key when it has none. -/
def withInputPubKey (acc : Account) (input : TxInput) : Account :=
  match acc.PubKey with
  | some _ => acc
  | none => { acc with PubKey := input.PubKey }

/-- Modelled from the spec: `getInput` is not under src.  Spec: "Source account
exists": the stored account of the input's address, decoded into a new object, and
an error when there is none or when the input's public key is not acceptable (the
spec's input-validation errors: "malformed addresses, missing public keys"). -/
def getInput (env : Env) (view : StoreView) (heap : Heap) (input : TxInput) :
    Except Result (Ptr × Heap) :=
  match view.GetAccount input.Address with
  | none => Except.error (Result.Error "Unknown address")
  | some acc =>
    if env.inputPubKeyOK acc.PubKey input then
      Except.ok (allocAccount heap (withInputPubKey acc input))
    else Except.error (Result.Error "Invalid input public key")

/-- Modelled from the spec: `getOrMakeInput` is not under src.  Spec: "target
account exists or is created fresh via getOrMakeInput", and "getOrMakeInput may
implicitly create the target account without persisting it". -/
def getOrMakeInput (env : Env) (view : StoreView) (heap : Heap) (input : TxInput) :
    Except Result (Ptr × Heap) :=
  let acc := view.GetOrCreateAccount input.Address
  if env.inputPubKeyOK acc.PubKey input then
    Except.ok (allocAccount heap (withInputPubKey acc input))
  else Except.error (Result.Error "Invalid input public key")

/-- Modelled from the spec: `getOrMakeAccount` is not under src.  Spec:
"getOrCreateAccount returns a transient empty account without writing"; the account
is a new object on every call. -/
def getOrMakeAccount (view : StoreView) (heap : Heap) (address : Address) : Ptr × Heap :=
  allocAccount heap (view.GetOrCreateAccount address)

/-- Modelled from the spec: `chargeFee` is not under src.  Spec: "Charge tx.fee from
the targetAccount's balance; if targetAccount cannot pay the fee, the whole
transaction fails". -/
def chargeFee (heap : Heap) (account : Ptr) (fee : Coins) : Bool × Heap :=
  if (readAccount heap account).Balance.IsGTE fee then
    (true, modifyAccount heap account (fun a => { a with Balance := a.Balance.Minus fee }))
  else (false, heap)

/-- The sum of the amounts of a coins map (the distributed total). -/
def totalCoins (coinsMap : List (Ptr × Coins)) : Coins :=
  coinsMap.foldl (fun total e => total.Plus e.2) (Coins.NewCoins 0 0)

/-- Every account of the coins map is credited with its amount. -/
def creditAccounts (heap : Heap) (coinsMap : List (Ptr × Coins)) : Heap :=
  coinsMap.foldl
    (fun h e => modifyAccount h e.1 (fun a => { a with Balance := a.Balance.Plus e.2 })) heap

/-- Each distributed amount is subtracted from the fund of the pool. -/
def drainPool (pool : ReservedPool) (coinsMap : List (Ptr × Coins)) : ReservedPool :=
  coinsMap.foldl (fun p e => { p with fund := p.fund.Minus e.2 }) pool

/-- The first pool with the given reserve sequence, with its position. -/
def locatePool : List ReservedPool → Nat → Option (Nat × ReservedPool)
  | [], _ => none
  | pool :: rest, reserveSequence =>
    if pool.reserveSequence = reserveSequence then some (0, pool)
    else (locatePool rest reserveSequence).map (fun r => (r.1 + 1, r.2))

/-- What `TransferReservedFund` returns, with the heap it leaves. -/
structure TransferOut where
  shouldSlash : Bool
  slashIntent : SlashIntent
  heap : Heap

/-- The zero value `SlashIntent{}`. -/
def emptySlashIntent : SlashIntent := { address := 0, reserveSequence := 0, proof := [] }

/-- Modelled from the spec: `Account.TransferReservedFund` (`ledger/types/account.go`)
is not under src.  Spec: "Locates the pool; if the paymentSeq was already used with
inconsistent parameters, returns shouldSlash=true with a slash intent citing the
conflicting records and the pool is not further drained.  Otherwise subtracts each
distributed amount from pool.fund, appends one TransferRecord summarizing the draw,
and returns shouldSlash=false."  Inconsistent parameters are "a different target or
amount"; a draw that would leave the fund negative is a slash too ("negative results
signal ... a slash condition (process path)", and the comment in `sanityCheck`: "If
the source account does not have sufficient reserved fund, the source account will
be slashed by the process() function").  The accounts of the coins map are credited
here: `process` itself never adds to a balance, it only writes the objects of the
coins map back, and the spec's step 3 speaks of "what the function already did".
When no pool has the reserve sequence nothing is changed. -/
def TransferReservedFund (heap : Heap) (acc : Ptr) (coinsMap : List (Ptr × Coins))
    (_currentBlockHeight : Nat) (reserveSequence : Nat) (tx : ServicePaymentTx) : TransferOut :=
  let account := readAccount heap acc
  match locatePool account.ReservedFunds reserveSequence with
  | none => { shouldSlash := false, slashIntent := emptySlashIntent, heap := heap }
  | some (idx, pool) =>
    let total := totalCoins coinsMap
    let conflicting := pool.transferRecords.filter (fun r =>
      decide (r.servicePaymentTx.PaymentSequence = tx.PaymentSequence) &&
      (decide (r.servicePaymentTx.Target.Address ≠ tx.Target.Address) ||
        decide (r.transferAmount ≠ total)))
    if !conflicting.isEmpty || !(pool.fund.Minus total).IsNonnegative then
      { shouldSlash := true,
        slashIntent :=
          { address := tx.Source.Address, reserveSequence := reserveSequence,
            proof := conflicting },
        heap := heap }
    else
      let drained := drainPool pool coinsMap
      let recorded : ReservedPool :=
        { drained with
          transferRecords := pool.transferRecords ++
            [{ servicePaymentTx := tx, transferAmount := total }] }
      let heap1 := modifyAccount heap acc
        (fun a => { a with ReservedFunds := a.ReservedFunds.set idx recorded })
      { shouldSlash := false, slashIntent := emptySlashIntent,
        heap := creditAccounts heap1 coinsMap }

/-! ## The executor (`ledger/execution/tx_service_payment.go`) -/

/-- The variables the loop of `splitPayment` updates. -/
structure SplitLoop where
  heap : Heap
  coinsMap : List (Ptr × Coins)
  accountAddressMap : List (Ptr × Address)
  remainingAmount : Coins

/-- One pass of `for _, split := range splitRule.Splits` (lines 174-186). -/
def splitLoopBody (view : StoreView) (fullAmount : Coins) (st : SplitLoop) (split : Split) :
    SplitLoop :=
  let splitAddress := split.Address
  let made := getOrMakeAccount view st.heap splitAddress
  let splitAccount := made.1
  let percentage := split.Percentage
  if percentage > 100 ∨ percentage < 0 then
    { st with heap := made.2 }
  else
    let splitAmount := fullAmount.CalculatePercentage percentage
    { heap := made.2,
      coinsMap := mapSet st.coinsMap splitAccount splitAmount,
      accountAddressMap := mapSet st.accountAddressMap splitAccount splitAddress,
      remainingAmount := st.remainingAmount.Minus splitAmount }

/-- What `splitPayment` returns (success flag and the two maps), with the view and
the heap it leaves. -/
structure SplitOut where
  success : Bool
  coinsMap : List (Ptr × Coins)
  accountAddressMap : List (Ptr × Address)
  view : StoreView
  heap : Heap

/-- The function `splitPayment` (lines 152-195). -/
def splitPayment (env : Env) (view : StoreView) (heap : Heap) (splitRule : Option SplitRule)
    (resourceID : String) (targetAddress : Address) (targetAccount : Ptr)
    (fullAmount : Coins) : SplitOut :=
  match splitRule with
  | none =>
    { success := true,
      coinsMap := mapSet [] targetAccount fullAmount,
      accountAddressMap := mapSet [] targetAccount targetAddress,
      view := view, heap := heap }
  | some splitRule =>
    if env.stateHeight > splitRule.EndBlockHeight then
      { success := true,
        coinsMap := mapSet [] targetAccount fullAmount,
        accountAddressMap := mapSet [] targetAccount targetAddress,
        view := (view.DeleteSplitRule resourceID).2, heap := heap }
    else
      let st := splitRule.Splits.foldl (splitLoopBody view fullAmount)
        { heap := heap, coinsMap := [], accountAddressMap := [], remainingAmount := fullAmount }
      if !st.remainingAmount.IsNonnegative then
        { success := false, coinsMap := st.coinsMap,
          accountAddressMap := st.accountAddressMap, view := view, heap := st.heap }
      else
        { success := true,
          coinsMap := mapSet st.coinsMap targetAccount st.remainingAmount,
          accountAddressMap := mapSet st.accountAddressMap targetAccount targetAddress,
          view := view, heap := st.heap }

/-- The loop `for account := range coinsMap` of `process` (lines 140-146), over the
entries in the order the range visits them. -/
def persistAccounts : List (Ptr × Coins) → List (Ptr × Address) → Heap → StoreView →
    Except String StoreView
  | [], _, _, view => Except.ok view
  | (account, _) :: rest, accountAddressMap, heap, view =>
    match mapGet accountAddressMap account with
    | none => Except.error "Cannot find address for account"
    | some address =>
      persistAccounts rest accountAddressMap heap
        (view.SetAccount address (readAccount heap account))

/-- What `process` returns (hash and result), with the view it leaves. -/
structure ProcessOut where
  hash : Hash
  res : Result
  view : StoreView
deriving DecidableEq, Repr

/-- The function `process` (lines 103-150).  The objects it works on live in a heap
of its own, empty at entry. -/
def process (env : Env) (chainID : String) (view : StoreView) (tx : ServicePaymentTx) :
    Except String ProcessOut :=
  let sourceAddress := tx.Source.Address
  let targetAddress := tx.Target.Address
  match getInput env view [] tx.Source with
  | Except.error res => Except.ok { hash := 0, res := res, view := view }
  | Except.ok (sourceAccount, heap1) =>
    match getOrMakeInput env view heap1 tx.Target with
    | Except.error res => Except.ok { hash := 0, res := res, view := view }
    | Except.ok (targetAccount, heap2) =>
      let resourceID := tx.ResourceID
      let splitRule := view.GetSplitRule resourceID
      let fullTransferAmount := tx.Source.Coins
      let sp := splitPayment env view heap2 splitRule resourceID targetAddress targetAccount
        fullTransferAmount
      if !sp.success then
        Except.ok { hash := 0, res := Result.Error "Failed to split payment", view := sp.view }
      else
        let currentBlockHeight := sp.view.Height
        let reserveSequence := tx.ReserveSequence
        let tr := TransferReservedFund sp.heap sourceAccount sp.coinsMap currentBlockHeight
          reserveSequence tx
        let view1 := if tr.shouldSlash then sp.view.AddSlashIntent tr.slashIntent else sp.view
        let charged := chargeFee tr.heap targetAccount tx.Fee
        if !charged.1 then
          Except.ok
            { hash := 0, res := Result.Error "failed to charge transaction fee", view := view1 }
        else
          let heap3 := modifyAccount charged.2 targetAccount
            (fun a => { a with Sequence := (a.Sequence + 1) % 2 ^ 64 })
          let view2 := view1.SetAccount sourceAddress (readAccount heap3 sourceAccount)
          match persistAccounts (env.rangeOrder sp.coinsMap) sp.accountAddressMap heap3 view2 with
          | Except.error msg => Except.error msg
          | Except.ok view3 =>
            Except.ok { hash := env.TxID chainID tx, res := Result.OK, view := view3 }

/-- Modelled from the spec: `sanityCheckForFee` is not under src.  Spec:
"tx.fee.gamma ≥ MinimumTransactionFeeGammaWei, paid in gamma". -/
def sanityCheckForFee (env : Env) (fee : Coins) : Bool :=
  decide (fee.ThetaWei = 0) &&
    decide ((env.MinimumTransactionFeeGammaWei : Int) ≤ fee.GammaWei)

/-- What `sanityCheck` returns, with the view it leaves. -/
structure SanityOut where
  res : Result
  view : StoreView
deriving DecidableEq, Repr

/-- The function `sanityCheck` (lines 30-101).  The account objects live in a heap of
its own, empty at entry; the messages that the source formats with values are fixed
strings. -/
def sanityCheck (env : Env) (chainID : String) (view : StoreView) (tx : ServicePaymentTx) :
    SanityOut :=
  if (env.ValidateBasic tx.Source).IsError then
    { res := env.ValidateBasic tx.Source, view := view }
  else if (env.ValidateBasic tx.Target).IsError then
    { res := env.ValidateBasic tx.Target, view := view }
  else
    match getInput env view [] tx.Source with
    | Except.error res => { res := res, view := view }
    | Except.ok (sourceAccount, heap1) =>
      match getOrMakeInput env view heap1 tx.Target with
      | Except.error res => { res := res, view := view }
      | Except.ok (targetAccount, heap2) =>
        if tx.Source.Coins.ThetaWei ≠ 0 then
          { res := Result.Error "Cannot send ThetaWei as service payment!", view := view }
        else
          let sourceSignBytes := env.SourceSignBytes chainID tx
          if !env.VerifySignature (readAccount heap2 sourceAccount).PubKey sourceSignBytes
              tx.Source.Signature then
            { res := Result.Error
                "sanityCheckForServicePaymentTx failed on source signature",
              view := view }
          else if ((readAccount heap2 targetAccount).Sequence + 1) % 2 ^ 64
              ≠ tx.Target.Sequence then
            { res := Result.Error "Got a target sequence other than the expected one",
              view := view }
          else
            let targetSignBytes := env.TargetSignBytes chainID tx
            if !env.VerifySignature (readAccount heap2 targetAccount).PubKey targetSignBytes
                tx.Target.Signature then
              { res := Result.Error
                  "sanityCheckForServicePaymentTx failed on target signature",
                view := view }
            else if !sanityCheckForFee env tx.Fee then
              { res := (Result.Error "Insufficient fee").WithErrorCode
                  ErrorCode.CodeInvalidFee,
                view := view }
            else
              let transferAmount := tx.Source.Coins
              let currentBlockHeight := view.Height
              let reserveSequence := tx.ReserveSequence
              let paymentSequence := tx.PaymentSequence
              match env.CheckTransferReservedFund (readAccount heap2 sourceAccount)
                  (readAccount heap2 targetAccount) transferAmount paymentSequence
                  currentBlockHeight reserveSequence with
              | some err =>
                { res := (Result.Error err).WithErrorCode
                    ErrorCode.CodeCheckTransferReservedFundFailed,
                  view := view }
              | none => { res := Result.OK, view := view }

/-- The sum of the balances of all accounts stored in the view. -/
def totalBalance (view : StoreView) : Coins :=
  view.store.accounts.foldl (fun total e => total.Plus e.2.Balance) (Coins.NewCoins 0 0)

/-! ## Vocabulary of the statements -/

/-- The entries of a rule that the loop of `splitPayment` does not skip: those whose
percentage is in the range 0 to 100. -/
def validSplits (splits : List Split) : List Split :=
  splits.filter (fun s => decide (¬ (s.Percentage > 100 ∨ s.Percentage < 0)))

/-- The sum of a list of amounts. -/
def sumCoins (amounts : List Coins) : Coins :=
  amounts.foldl Coins.Plus (Coins.NewCoins 0 0)

/-- What is left of `fullAmount` after the amounts of the valid entries of a rule. -/
def remainderOf (fullAmount : Coins) (splits : List Split) : Coins :=
  fullAmount.Minus
    (sumCoins ((validSplits splits).map (fun s => fullAmount.CalculatePercentage s.Percentage)))

/-- The distribution a loop state stands for: for every entry of the coins map, in
insertion order, the address the address map gives its account, the account object,
and the amount. -/
def SplitLoop.distribution (st : SplitLoop) : List (Option Address × Account × Coins) :=
  st.coinsMap.map
    (fun e => (mapGet st.accountAddressMap e.1, readAccount st.heap e.1, e.2))

/-- The distribution `splitPayment` returns, read off its two maps. -/
def SplitOut.distribution (out : SplitOut) : List (Option Address × Account × Coins) :=
  out.coinsMap.map
    (fun e => (mapGet out.accountAddressMap e.1, readAccount out.heap e.1, e.2))

/-- The invariant of the loop of `splitPayment` for the target pointer `t`: every
key of the coins map is an allocated object other than the target, and the two maps
have the same keys. -/
def SplitLoop.Inv (t : Ptr) (st : SplitLoop) : Prop :=
  t < st.heap.length ∧
  (∀ p ∈ mapKeys st.coinsMap, t < p ∧ p < st.heap.length) ∧
  mapKeys st.coinsMap = mapKeys st.accountAddressMap

/-- The amount and account the loop gives a split entry. -/
def splitShare (view : StoreView) (fullAmount : Coins) (s : Split) :
    Option Address × Account × Coins :=
  (some s.Address, view.GetOrCreateAccount s.Address, fullAmount.CalculatePercentage s.Percentage)

/-- Whether `splitPayment` treats the rule it is given as expired (line 165):
`exec.state.Height() > splitRule.EndBlockHeight`; no rule is not an expired rule. -/
def expiredRule (env : Env) (splitRule : Option SplitRule) : Bool :=
  match splitRule with
  | none => false
  | some rule => decide (env.stateHeight > rule.EndBlockHeight)

/-- The expiry test in the words of the specification: a rule is expired at a height
when "endBlockHeight < currentHeight". -/
def SplitRule.expiredAt (rule : SplitRule) (currentHeight : Nat) : Bool :=
  decide (rule.EndBlockHeight < currentHeight)

/-- The sum of the percentages of the entries the loop does not skip. -/
def percentSum (splits : List Split) : Nat :=
  ((validSplits splits).map (fun s => s.Percentage)).sum

/-- The result of the call of `splitPayment` in `process` (line 123), for the target
pointer and heap that input resolution left. -/
def processSplit (env : Env) (view : StoreView) (tx : ServicePaymentTx) (targetAccount : Ptr)
    (heap : Heap) : SplitOut :=
  splitPayment env view heap (view.GetSplitRule tx.ResourceID) tx.ResourceID tx.Target.Address
    targetAccount tx.Source.Coins

/-- The result of the call of `TransferReservedFund` in `process` (line 130). -/
def processTransfer (env : Env) (view : StoreView) (tx : ServicePaymentTx)
    (sourceAccount targetAccount : Ptr) (heap : Heap) : TransferOut :=
  TransferReservedFund (processSplit env view tx targetAccount heap).heap sourceAccount
    (processSplit env view tx targetAccount heap).coinsMap
    (processSplit env view tx targetAccount heap).view.Height tx.ReserveSequence tx

/-- The view of `process` after line 133: the slash intent is staged when
`TransferReservedFund` asked for a slash. -/
def processStaged (env : Env) (view : StoreView) (tx : ServicePaymentTx)
    (sourceAccount targetAccount : Ptr) (heap : Heap) : StoreView :=
  if (processTransfer env view tx sourceAccount targetAccount heap).shouldSlash then
    (processSplit env view tx targetAccount heap).view.AddSlashIntent
      (processTransfer env view tx sourceAccount targetAccount heap).slashIntent
  else (processSplit env view tx targetAccount heap).view

/-- A view with its stored accounts replaced and everything else kept. -/
def StoreView.withAccounts (view : StoreView) (accounts : List (Address × Account)) :
    StoreView :=
  { view with store := { view.store with accounts := accounts } }

/-- The heap of `process` when it writes the accounts back: the fee is charged and the
sequence of the target is incremented (after line 137). -/
def processFinalHeap (env : Env) (view : StoreView) (tx : ServicePaymentTx)
    (sourceAccount targetAccount : Ptr) (heap : Heap) : Heap :=
  modifyAccount
    (chargeFee (processTransfer env view tx sourceAccount targetAccount heap).heap
      targetAccount tx.Fee).2 targetAccount
    (fun a => { a with Sequence := (a.Sequence + 1) % 2 ^ 64 })

/-- The `SetAccount` calls the loop of lines 140-146 issues for the entries it visits,
in that order: the address and the account object written. -/
def writesOf (entries : List (Ptr × Coins)) (accountAddressMap : List (Ptr × Address))
    (heap : Heap) : List (Address × Account) :=
  entries.filterMap
    (fun e => (mapGet accountAddressMap e.1).map (fun address => (address, readAccount heap e.1)))

/-- The `SetAccount` calls of `process` (lines 139-146) in the order it issues them:
the source account first, then the accounts of the coins map in the order the range
visits them. -/
def processWrites (env : Env) (view : StoreView) (tx : ServicePaymentTx)
    (sourceAccount targetAccount : Ptr) (heap : Heap) : List (Address × Account) :=
  (tx.Source.Address,
      readAccount (processFinalHeap env view tx sourceAccount targetAccount heap) sourceAccount)
    :: writesOf (env.rangeOrder (processSplit env view tx targetAccount heap).coinsMap)
        (processSplit env view tx targetAccount heap).accountAddressMap
        (processFinalHeap env view tx sourceAccount targetAccount heap)

/-- The writes of `process` in the order the specification names: the source account,
then the accounts of the coins map in insertion order (the valid split entries in rule
order, then the target). -/
def declaredWrites (env : Env) (view : StoreView) (tx : ServicePaymentTx)
    (sourceAccount targetAccount : Ptr) (heap : Heap) : List (Address × Account) :=
  (tx.Source.Address,
      readAccount (processFinalHeap env view tx sourceAccount targetAccount heap) sourceAccount)
    :: writesOf (processSplit env view tx targetAccount heap).coinsMap
        (processSplit env view tx targetAccount heap).accountAddressMap
        (processFinalHeap env view tx sourceAccount targetAccount heap)

/-- A view after a sequence of `SetAccount` calls. -/
def applyWrites (view : StoreView) (writes : List (Address × Account)) : StoreView :=
  writes.foldl (fun v w => v.SetAccount w.1 w.2) view

/-- The addresses `splitPayment` pays: the address of every entry of the coins map,
in insertion order. -/
def SplitOut.paidAddresses (out : SplitOut) : List Address :=
  out.coinsMap.filterMap (fun e => mapGet out.accountAddressMap e.1)

/-! ## The byte level of the store -/

/-- Modelled from the spec: the key functions (`AccountKey`, `SplitRuleKey`) and the
encoding (`types.ToBytes`, `types.FromBytes`) are not under src.  Spec: "Account:
ACCOUNT_PREFIX ‖ address", "Split rule: SPLITRULE_PREFIX ‖ resourceID", and "all
persisted records use a canonical length-prefixed recursive binary encoding".  They
are parameters; `none` is an encoding or decoding error. -/
structure Encoding where
  AccountKey : Address → Bytes
  SplitRuleKey : String → Bytes
  AccountToBytes : Account → Option Bytes
  AccountFromBytes : Bytes → Option Account
  SplitRuleToBytes : SplitRule → Option Bytes
  SplitRuleFromBytes : Bytes → Option SplitRule

/-- The store of a view as the source sees it: a map from byte keys to byte values. -/
structure ByteView where
  store : List (Bytes × Bytes)
deriving DecidableEq, Repr

namespace ByteView

/-- `Get` (lines 90-93): the value under the key, empty (Go's nil) when there is none. -/
def Get (sv : ByteView) (key : Bytes) : Bytes := (mapGet sv.store key).getD []

/-- `Set` (lines 101-103). -/
def Set (sv : ByteView) (key value : Bytes) : ByteView := { store := mapSet sv.store key value }

/-- `GetAccount` (lines 143-155) on bytes: no account when the data is nil or empty, a
panic when it does not decode. -/
def GetAccount (enc : Encoding) (sv : ByteView) (addr : Address) :
    Except String (Option Account) :=
  let data := sv.Get (enc.AccountKey addr)
  if data.length = 0 then Except.ok none
  else
    match enc.AccountFromBytes data with
    | none => Except.error "Error reading account"
    | some acc => Except.ok (some acc)

/-- `SetAccount` (lines 158-165) on bytes: a panic when the account does not encode. -/
def SetAccount (enc : Encoding) (sv : ByteView) (addr : Address) (acc : Account) :
    Except String ByteView :=
  match enc.AccountToBytes acc with
  | none => Except.error "Error writing account"
  | some accBytes => Except.ok (sv.Set (enc.AccountKey addr) accBytes)

/-- `GetSplitRule` (lines 198-210) on bytes. -/
def GetSplitRule (enc : Encoding) (sv : ByteView) (resourceID : String) :
    Except String (Option SplitRule) :=
  let data := sv.Get (enc.SplitRuleKey resourceID)
  if data.length = 0 then Except.ok none
  else
    match enc.SplitRuleFromBytes data with
    | none => Except.error "Error reading splitRule"
    | some splitRule => Except.ok (some splitRule)

/-- `SetSplitRule` (lines 213-220) on bytes. -/
def SetSplitRule (enc : Encoding) (sv : ByteView) (resourceID : String)
    (splitRule : SplitRule) : Except String ByteView :=
  match enc.SplitRuleToBytes splitRule with
  | none => Except.error "Error writing splitRule"
  | some splitRuleBytes => Except.ok (sv.Set (enc.SplitRuleKey resourceID) splitRuleBytes)

end ByteView

/-! ## The canonical encoding of the persisted records

`types.ToBytes` and `types.FromBytes` (the `rlp` package) are not under src.  The
specification describes the encoding: "a canonical length-prefixed recursive binary
encoding (commonly known as the recursive length-prefix family).  Field order within
each record is fixed; integers are big-endian minimal; byte strings are
length-prefixed; empty optional fields encode as empty strings, not absent." -/

/-- The last `n` bytes of a number written big-endian. -/
def beBytes : Nat → Nat → Bytes
  | 0, _ => []
  | n + 1, h => beBytes n (h / 256) ++ [h % 256]

/-- The number that bytes spell big-endian. -/
def natOfBytes (b : Bytes) : Nat := b.foldl (fun acc x => acc * 256 + x) 0

/-- The big-endian bytes of `n`, for `n` up to `fuel`. -/
def natBytesAux : Nat → Nat → Bytes
  | 0, _ => []
  | fuel + 1, n => if n = 0 then [] else natBytesAux fuel (n / 256) ++ [n % 256]

/-- Modelled from the spec: "integers are big-endian minimal": the big-endian bytes of a
number without leading zero bytes, none at all for zero. -/
def natBytes (n : Nat) : Bytes := natBytesAux n n

/-- Modelled from the spec: the length prefix of the recursive length-prefix encoding.
A payload of up to 55 bytes has the one byte `base + length`; a longer one has the byte
`base + 55 + k` followed by the `k` big-endian bytes of its length, `k` at most 8.
`base` is 128 for a byte string and 192 for a list. -/
def rlpHeader (base len : Nat) : Option Bytes :=
  if len ≤ 55 then some [base + len]
  else if (natBytes len).length ≤ 8 then some ((base + 55 + (natBytes len).length) :: natBytes len)
  else none

/-- Modelled from the spec: "byte strings are length-prefixed"; a single byte below 128
is its own encoding. -/
def rlpString (b : Bytes) : Option Bytes :=
  match b with
  | [x] => if x < 128 then some [x] else (rlpHeader 128 1).map (fun header => header ++ [x])
  | _ => (rlpHeader 128 b.length).map (fun header => header ++ b)

/-- Modelled from the spec: the encoding of a list (a record, or a sequence of records):
the length prefix of a list and the encodings of the items one after the other. -/
def rlpList (payload : Bytes) : Option Bytes :=
  (rlpHeader 192 payload.length).map (fun header => header ++ payload)

/-- The first `n` bytes and the rest; nothing when there are fewer than `n`. -/
def takeExact (n : Nat) (b : Bytes) : Option (Bytes × Bytes) :=
  if n ≤ b.length then some (b.take n, b.drop n) else none

/-- The content of a length-prefixed item after its long prefix: `k` bytes of length,
then the content. -/
def takeLong (k : Nat) (b : Bytes) : Option (Bytes × Bytes) :=
  match takeExact k b with
  | none => none
  | some (len, rest) => takeExact (natOfBytes len) rest

/-- Modelled from the spec: the inverse of the length prefix: whether the first item is
a list, its content, and the bytes after it; `none` for bytes that are no item. -/
def rlpSplit : Bytes → Option (Bool × Bytes × Bytes)
  | [] => none
  | h :: t =>
    if h < 128 then some (false, [h], t)
    else if h ≤ 183 then (takeExact (h - 128) t).map (fun p => (false, p.1, p.2))
    else if h ≤ 191 then (takeLong (h - 183) t).map (fun p => (false, p.1, p.2))
    else if h ≤ 247 then (takeExact (h - 192) t).map (fun p => (true, p.1, p.2))
    else (takeLong (h - 247) t).map (fun p => (true, p.1, p.2))

/-- An encoder with its decoder: the encoder may refuse a value (`none`), the decoder
reads one value off the front of the bytes and returns the bytes after it. -/
structure Codec (α : Type) where
  enc : α → Option Bytes
  dec : Bytes → Option (α × Bytes)

namespace Codec

/-- An unsigned integer (`uint64`, `uint`, and the numbers that stand for addresses,
hashes and signatures): the byte string of its big-endian minimal bytes. -/
def nat : Codec Nat :=
  { enc := fun n => rlpString (natBytes n),
    dec := fun b =>
      match rlpSplit b with
      | some (false, content, rest) => some (natOfBytes content, rest)
      | _ => none }

/-- A big integer (`*big.Int`): as an unsigned integer; a negative one has no encoding. -/
def int : Codec Int :=
  { enc := fun z => if z < 0 then none else nat.enc z.toNat,
    dec := fun b =>
      match nat.dec b with
      | some (n, rest) => some ((n : Int), rest)
      | none => none }

/-- A string: the byte string of its characters. -/
def string : Codec String :=
  { enc := fun s => rlpString (s.toList.map Char.toNat),
    dec := fun b =>
      match rlpSplit b with
      | some (false, content, rest) => some (String.mk (content.map Char.ofNat), rest)
      | _ => none }

/-- An optional public key.  Spec: "empty optional fields encode as empty strings"; the
bytes of a key that is there are the marker 4 of an uncompressed key and the bytes of the
number that stands for the key. -/
def key : Codec (Option PubKey) :=
  { enc := fun k =>
      match k with
      | none => rlpString []
      | some n => rlpString (4 :: natBytes n),
    dec := fun b =>
      match rlpSplit b with
      | some (false, [], rest) => some (none, rest)
      | some (false, 4 :: content, rest) => some (some (natOfBytes content), rest)
      | _ => none }

/-- Two fields in their fixed order. -/
def seq {α β : Type} (a : Codec α) (b : Codec β) : Codec (α × β) :=
  { enc := fun p =>
      match a.enc p.1, b.enc p.2 with
      | some e1, some e2 => some (e1 ++ e2)
      | _, _ => none,
    dec := fun bytes =>
      match a.dec bytes with
      | none => none
      | some (x, rest1) =>
        match b.dec rest1 with
        | none => none
        | some (y, rest2) => some ((x, y), rest2) }

/-- A record: the list of its fields. -/
def record {α : Type} (fields : Codec α) : Codec α :=
  { enc := fun x =>
      match fields.enc x with
      | none => none
      | some payload => rlpList payload,
    dec := fun bytes =>
      match rlpSplit bytes with
      | some (true, payload, rest) =>
        match fields.dec payload with
        | some (x, []) => some (x, rest)
        | _ => none
      | _ => none }

/-- The encodings of the items of a sequence, one after the other. -/
def encodeAll {α : Type} (item : Codec α) : List α → Option Bytes
  | [] => some []
  | x :: rest =>
    match item.enc x, encodeAll item rest with
    | some e, some es => some (e ++ es)
    | _, _ => none

/-- The items that bytes hold one after the other; `fuel` bounds their number. -/
def decodeAll {α : Type} (item : Codec α) : Nat → Bytes → Option (List α)
  | 0, b => if b.isEmpty then some [] else none
  | fuel + 1, b =>
    if b.isEmpty then some []
    else
      match item.dec b with
      | none => none
      | some (x, rest) =>
        match decodeAll item fuel rest with
        | none => none
        | some xs => some (x :: xs)

/-- A sequence of items: the list of their encodings. -/
def listOf {α : Type} (item : Codec α) : Codec (List α) :=
  { enc := fun xs =>
      match encodeAll item xs with
      | none => none
      | some payload => rlpList payload,
    dec := fun bytes =>
      match rlpSplit bytes with
      | some (true, payload, rest) =>
        match decodeAll item payload.length payload with
        | some xs => some (xs, rest)
        | none => none
      | _ => none }

/-- A struct by way of the tuple of its fields. -/
def via {α β : Type} (toFields : α → β) (ofFields : β → α) (fields : Codec β) : Codec α :=
  { enc := fun x => fields.enc (toFields x),
    dec := fun bytes =>
      match fields.dec bytes with
      | none => none
      | some (y, rest) => some (ofFields y, rest) }

/-- What makes a codec a round trip: an encoding is never empty, and the decoder reads
the encoded value back off the front of any bytes that start with it. -/
def Sound {α : Type} (c : Codec α) : Prop :=
  ∀ x e, c.enc x = some e → e ≠ [] ∧ ∀ rest, c.dec (e ++ rest) = some (x, rest)

end Codec

/-- The record of a `Coins` value: its two amounts. -/
def coinsCodec : Codec Coins :=
  Codec.record (Codec.via (fun c => (c.ThetaWei, c.GammaWei)) (fun p => ⟨p.1, p.2⟩)
    (Codec.seq Codec.int Codec.int))

/-- The record of a `Split`. -/
def splitCodec : Codec Split :=
  Codec.record (Codec.via (fun s => (s.Address, s.Percentage)) (fun p => ⟨p.1, p.2⟩)
    (Codec.seq Codec.nat Codec.nat))

/-- The record of a `SplitRule`. -/
def splitRuleCodec : Codec SplitRule :=
  Codec.record (Codec.via
    (fun r => (r.InitiatorAddress, r.ResourceID, r.Splits, r.EndBlockHeight))
    (fun p => ⟨p.1, p.2.1, p.2.2.1, p.2.2.2⟩)
    (Codec.seq Codec.nat (Codec.seq Codec.string
      (Codec.seq (Codec.listOf splitCodec) Codec.nat))))

/-- The record of a `TxInput`. -/
def txInputCodec : Codec TxInput :=
  Codec.record (Codec.via
    (fun i => (i.Address, i.Coins, i.Sequence, i.Signature, i.PubKey))
    (fun p => ⟨p.1, p.2.1, p.2.2.1, p.2.2.2.1, p.2.2.2.2⟩)
    (Codec.seq Codec.nat (Codec.seq coinsCodec (Codec.seq Codec.nat
      (Codec.seq Codec.nat Codec.key)))))

/-- The record of a `ServicePaymentTx`. -/
def servicePaymentTxCodec : Codec ServicePaymentTx :=
  Codec.record (Codec.via
    (fun t => (t.Fee, t.Source, t.Target, t.PaymentSequence, t.ReserveSequence, t.ResourceID))
    (fun p => ⟨p.1, p.2.1, p.2.2.1, p.2.2.2.1, p.2.2.2.2.1, p.2.2.2.2.2⟩)
    (Codec.seq coinsCodec (Codec.seq txInputCodec (Codec.seq txInputCodec
      (Codec.seq Codec.nat (Codec.seq Codec.nat Codec.string))))))

/-- The record of a `TransferRecord`. -/
def transferRecordCodec : Codec TransferRecord :=
  Codec.record (Codec.via (fun r => (r.servicePaymentTx, r.transferAmount))
    (fun p => ⟨p.1, p.2⟩) (Codec.seq servicePaymentTxCodec coinsCodec))

/-- The record of a `ReservedPool`. -/
def reservedPoolCodec : Codec ReservedPool :=
  Codec.record (Codec.via
    (fun r => (r.collateral, r.fund, r.resourceIDs, r.endBlockHeight, r.reserveSequence,
      r.transferRecords))
    (fun p => ⟨p.1, p.2.1, p.2.2.1, p.2.2.2.1, p.2.2.2.2.1, p.2.2.2.2.2⟩)
    (Codec.seq coinsCodec (Codec.seq coinsCodec (Codec.seq (Codec.listOf Codec.string)
      (Codec.seq Codec.nat (Codec.seq Codec.nat (Codec.listOf transferRecordCodec)))))))

/-- The record of an `Account`. -/
def accountCodec : Codec Account :=
  Codec.record (Codec.via
    (fun a => (a.PubKey, a.Sequence, a.Balance, a.ReservedFunds, a.Root, a.CodeHash))
    (fun p => ⟨p.1, p.2.1, p.2.2.1, p.2.2.2.1, p.2.2.2.2.1, p.2.2.2.2.2⟩)
    (Codec.seq Codec.key (Codec.seq Codec.nat (Codec.seq coinsCodec
      (Codec.seq (Codec.listOf reservedPoolCodec) (Codec.seq Codec.nat Codec.nat))))))

/-- The decoding of a whole value (`types.FromBytes`): the bytes hold the value and
nothing after it. -/
def Codec.fromBytes {α : Type} (c : Codec α) (data : Bytes) : Option α :=
  match c.dec data with
  | some (x, []) => some x
  | _ => none

/-- Modelled from the spec: the encoding of the store.  Keys: "Account: ACCOUNT_PREFIX
(1 byte) ‖ address (20 bytes)", "Split rule: SPLITRULE_PREFIX (1 byte) ‖ resourceID",
with the prefixes 1 and 3 of the spec's key types; values: the canonical encoding
above. -/
def canonicalEncoding : Encoding :=
  { AccountKey := fun addr => 1 :: beBytes 20 addr,
    SplitRuleKey := fun resourceID => 3 :: resourceID.toList.map Char.toNat,
    AccountToBytes := accountCodec.enc,
    AccountFromBytes := accountCodec.fromBytes,
    SplitRuleToBytes := splitRuleCodec.enc,
    SplitRuleFromBytes := splitRuleCodec.fromBytes }

/-! ## The VM state of a view (`ledger/state/storeview.go`, lines 263-467) -/

/-- The contents of the storage sub-tree of an account: the encoded value under each
32-byte slot key. -/
abbrev Storage := List (Hash × Bytes)

/-- Modelled from the spec: the database under the tree store (`sv.store.GetDB()`) is
not under src.  Spec: "A sub-store (per-account VM storage) is addressed by its own
root", "commit() persists pending writes into the backing store and returns the new
root" and "revert(h) restores the logical contents to a prior committed root".  It
holds the committed storage sub-trees and the committed states of the main tree, each
under its root. -/
structure Database where
  tries : List (Hash × Storage)
  roots : List (Hash × TreeStore)
deriving DecidableEq, Repr

/-- The functions the VM state takes from outside the files at hand, as parameters.

* `Keccak256Hash` is `crypto.Keccak256Hash`.
* `treeRoot` is `TreeStore.Hash()`, the Merkle root of the contents of the main tree.
* `storageRoot` is the root that `Commit` gives a storage sub-tree.
* `EncodeToBytes` is `rlp.EncodeToBytes` on a byte string.
* `Split` is `rlp.Split`: the content of the first item, `none` for an error. -/
structure StateEnv where
  Keccak256Hash : Bytes → Hash
  treeRoot : TreeStore → Hash
  storageRoot : Storage → Hash
  EncodeToBytes : Bytes → Bytes
  Split : Bytes → Option Bytes

/-- The 32 bytes of a hash (`val[:]`): a hash is the number its bytes spell
big-endian. -/
def hashBytes (h : Hash) : Bytes := beBytes 32 h

/-- `bytes.TrimLeft(b, "\x00")`: the bytes without their leading zero bytes. -/
def trimLeftZero (b : Bytes) : Bytes := b.dropWhile (fun x => decide (x = 0))

/-- Modelled from the spec: `common.BytesToHash` is not under src.  A hash is 32 bytes
(the spec's "hash32"); the bytes are copied to its right end, so the hash is the number
they spell big-endian, and of more than 32 bytes the last 32 count. -/
def BytesToHash (b : Bytes) : Hash := (b.foldl (fun acc x => acc * 256 + x) 0) % 2 ^ 256

/-- Modelled from the spec: `treestore.NewTreeStore(root, db)` is not under src.  Spec:
"A sub-store is addressed by its own root".  The zero root, which `types.NewAccount`
gives a new account, opens the empty sub-tree; a root the database does not hold opens
nothing (`none`, Go's nil). -/
def NewTreeStore (db : Database) (root : Hash) : Option Storage :=
  if root = 0 then some [] else mapGet db.tries root

/-- Modelled from the spec: `TreeStore.Commit` on a storage sub-tree is not under src.
Spec: "writing a sub-store produces a new sub-root": the root of the contents, under
which the database then holds them. -/
def commitStorage (env : StateEnv) (db : Database) (tree : Storage) : Hash × Database :=
  (env.storageRoot tree, { db with tries := mapSet db.tries (env.storageRoot tree) tree })

namespace StoreView

/-- `GetAndClearValidatorDiff` (lines 131-135): the diff and the view without it. -/
def GetAndClearValidatorDiff (sv : StoreView) : List Validator × StoreView :=
  (sv.validatorsDiff, { sv with validatorsDiff := [] })

/-- `SetValidatorDiff` (lines 138-140). -/
def SetValidatorDiff (sv : StoreView) (diff : List Validator) : StoreView :=
  { sv with validatorsDiff := diff }

/-- `SetAccount` (lines 158-165) with its panic: when `types.ToBytes` refuses the
account nothing is written.  The encoder is a parameter. -/
def SetAccountOrPanic (enc : Encoding) (sv : StoreView) (addr : Address) (acc : Account) :
    Except String StoreView :=
  match enc.AccountToBytes acc with
  | none => Except.error "Error writing account"
  | some _ => Except.ok (sv.SetAccount addr acc)

/-- `SubBalance` (lines 280-288): nothing for a zero amount; a nil-pointer panic when
the address has no account; no test of the balance; the write panics when the account
does not encode.  A panic leaves the view as it was: the write is the last statement. -/
def SubBalance (enc : Encoding) (sv : StoreView) (addr : Address) (amount : Int) :
    Except String StoreView :=
  if amount = 0 then Except.ok sv
  else
    match sv.GetAccount addr with
    | none => Except.error "nil pointer dereference"
    | some account =>
      sv.SetAccountOrPanic enc addr
        { account with
          Balance := { account.Balance with GammaWei := account.Balance.GammaWei - amount } }

/-- `AddBalance` (lines 290-298). -/
def AddBalance (enc : Encoding) (sv : StoreView) (addr : Address) (amount : Int) :
    Except String StoreView :=
  if amount = 0 then Except.ok sv
  else
    match sv.GetAccount addr with
    | none => Except.error "nil pointer dereference"
    | some account =>
      sv.SetAccountOrPanic enc addr
        { account with
          Balance := { account.Balance with GammaWei := account.Balance.GammaWei + amount } }

/-- `GetCodeHash` (lines 314-320). -/
def GetCodeHash (sv : StoreView) (addr : Address) : Hash :=
  match sv.GetAccount addr with
  | none => 0
  | some account => account.CodeHash

/-- `GetCodeByHash` (lines 333-336): `sv.Get(CodeKey(codeHash[:]))`, empty for nothing. -/
def GetCodeByHash (sv : StoreView) (codeHash : Hash) : Bytes :=
  (mapGet sv.store.code codeHash).getD []

/-- `GetCode` (lines 322-331); the empty byte string is Go's nil. -/
def GetCode (sv : StoreView) (addr : Address) : Bytes :=
  match sv.GetAccount addr with
  | none => []
  | some account =>
    if account.CodeHash = EmptyCodeHash then [] else sv.GetCodeByHash account.CodeHash

/-- `SetCode` (lines 338-344). -/
def SetCode (env : StateEnv) (sv : StoreView) (addr : Address) (code : Bytes) : StoreView :=
  let account := sv.GetOrCreateAccount addr
  let codeHash := env.Keccak256Hash code
  let account1 := { account with CodeHash := codeHash }
  let sv1 : StoreView :=
    { sv with store := { sv.store with code := mapSet sv.store.code account1.CodeHash code } }
  sv1.SetAccount addr account1

/-- `GetCodeSize` (lines 346-349). -/
def GetCodeSize (sv : StoreView) (addr : Address) : Nat := (sv.GetCode addr).length

/-- `getAccountStorage` (lines 374-376). -/
def getAccountStorage (db : Database) (account : Account) : Option Storage :=
  NewTreeStore db account.Root

/-- `GetState` (lines 378-395): the zero hash for no account and for an empty slot; a
panic when the sub-tree does not open or the stored bytes do not split. -/
def GetState (env : StateEnv) (db : Database) (sv : StoreView) (addr : Address) (key : Hash) :
    Except String Hash :=
  match sv.GetAccount addr with
  | none => Except.ok 0
  | some account =>
    match getAccountStorage db account with
    | none => Except.error "nil pointer dereference"
    | some tree =>
      let enc := (mapGet tree key).getD []
      if 0 < enc.length then
        match env.Split enc with
        | none => Except.error "rlp: value does not split"
        | some content => Except.ok (BytesToHash content)
      else Except.ok 0

/-- The update of `SetState` (lines 408-409): the value without its leading zero bytes,
encoded, goes under the key of the sub-tree. -/
def updateSlot (env : StateEnv) (tree : Storage) (key val : Theta.Hash) : Storage :=
  mapSet tree key (env.EncodeToBytes (trimLeftZero (hashBytes val)))

/-- `SetState` (lines 397-417): the database and the view it leaves.  For the zero
hash it deletes the key from the sub-tree object it has just opened and returns: that
object is neither committed nor kept. -/
def SetState (env : StateEnv) (db : Database) (sv : StoreView) (addr : Address)
    (key val : Hash) : Except String (Database × StoreView) :=
  let account := match sv.GetAccount addr with
    | some account => account
    | none => NewAccount
  match getAccountStorage db account with
  | none => Except.error "nil pointer dereference"
  | some tree =>
    if val = 0 then
      let _tree := mapDelete tree key
      Except.ok (db, sv)
    else
      let tree1 := updateSlot env tree key val
      let committed := commitStorage env db tree1
      let account1 := { account with Root := committed.1 }
      Except.ok (committed.2, sv.SetAccount addr account1)

/-- `Suicide` (lines 419-425): the returned boolean and the view it leaves. -/
def Suicide (sv : StoreView) (addr : Address) : Bool × StoreView :=
  match sv.GetAccount addr with
  | none => (false, sv)
  | some _ => (true, sv.DeleteAccount addr)

/-- `HasSuicided` (lines 427-430). -/
def HasSuicided (sv : StoreView) (addr : Address) : Bool := (sv.GetAccount addr).isNone

/-- `Exist` (lines 434-437). -/
def Exist (sv : StoreView) (addr : Address) : Bool := (sv.GetAccount addr).isSome

/-- `Empty` (lines 441-449). -/
def Empty (sv : StoreView) (addr : Address) : Bool :=
  match sv.GetAccount addr with
  | none => true
  | some account =>
    decide (account.Sequence = 0) && decide (account.CodeHash = EmptyCodeHash) &&
      account.Balance.IsZero

/-- `RevertToSnapshot` (lines 451-457).  Modelled from the spec: `TreeStore.Revert` is
not under src; spec: "revert(h) restores the logical contents to a prior committed
root" and "Failure to revert to an unknown root is fatal". -/
def RevertToSnapshot (db : Database) (sv : StoreView) (root : Hash) : Except String StoreView :=
  match mapGet db.roots root with
  | some store => Except.ok { sv with store := store }
  | none => Except.error "unknown root"

/-- `Hash` (lines 65-67): the root hash of the tree store. -/
def Hash (env : StateEnv) (sv : StoreView) : Theta.Hash := env.treeRoot sv.store

/-- `Snapshot` (lines 459-462): the tree is committed to the database and its root
returned.  Modelled from the spec: `Trie.Commit` is not under src; spec: "commit()
persists pending writes into the backing store and returns the new root". -/
def Snapshot (env : StateEnv) (db : Database) (sv : StoreView) : Theta.Hash × Database :=
  (sv.Hash env, { db with roots := mapSet db.roots (sv.Hash env) sv.store })

end StoreView

/-! ## Writes, snapshots and reverts in sequence -/

/-- A write to the tree store of a view: the set or delete of an account, of a split
rule, or of the code under a code hash (`sv.Set(CodeKey(h), code)`,
`sv.Delete(CodeKey(h))`). -/
inductive Write where
  | SetAccount (addr : Address) (acc : Account)
  | DeleteAccount (addr : Address)
  | SetSplitRule (resourceID : String) (splitRule : SplitRule)
  | DeleteSplitRule (resourceID : String)
  | SetCode (codeHash : Hash) (code : Bytes)
  | DeleteCode (codeHash : Hash)
deriving DecidableEq, Repr

/-- The view after a write. -/
def StoreView.write (sv : StoreView) : Write → StoreView
  | Write.SetAccount addr acc => sv.SetAccount addr acc
  | Write.DeleteAccount addr => sv.DeleteAccount addr
  | Write.SetSplitRule resourceID splitRule => sv.SetSplitRule resourceID splitRule
  | Write.DeleteSplitRule resourceID => (sv.DeleteSplitRule resourceID).2
  | Write.SetCode codeHash code =>
    { sv with store := { sv.store with code := mapSet sv.store.code codeHash code } }
  | Write.DeleteCode codeHash =>
    { sv with store := { sv.store with code := mapDelete sv.store.code codeHash } }

/-- A run of a caller on a view: writes, and stretches
`s := sv.Snapshot(); body; sv.RevertToSnapshot(s)` that may hold further such
stretches, so that the innermost snapshot is reverted first. -/
inductive Script where
  | done
  | write (w : Write) (rest : Script)
  | nested (body rest : Script)
deriving Repr

/-- The database and the view a script leaves; an error is the panic of a revert. -/
def Script.run (env : StateEnv) : Script → Database → StoreView →
    Except String (Database × StoreView)
  | Script.done, db, sv => Except.ok (db, sv)
  | Script.write w rest, db, sv => rest.run env db (sv.write w)
  | Script.nested body rest, db, sv =>
    let snapshot := sv.Snapshot env db
    match body.run env snapshot.2 sv with
    | Except.error e => Except.error e
    | Except.ok (db1, sv1) =>
      match sv1.RevertToSnapshot db1 snapshot.1 with
      | Except.error e => Except.error e
      | Except.ok sv2 => rest.run env db1 sv2

/-- Two tree stores with the same logical contents: every key has the same value. -/
def TreeStore.SameContents (a b : TreeStore) : Prop :=
  (∀ addr, mapGet a.accounts addr = mapGet b.accounts addr) ∧
    (∀ resourceID, mapGet a.splitRules resourceID = mapGet b.splitRules resourceID) ∧
    (∀ codeHash, mapGet a.code codeHash = mapGet b.code codeHash)

/-- A database holds every committed state of the main tree under its own root. -/
def Database.Consistent (env : StateEnv) (db : Database) : Prop :=
  ∀ root store, mapGet db.roots root = some store → env.treeRoot store = root

/-! ## Validator sets (`core/validator.go`) -/

/-- The struct `core.Vote` is not under src; `HasMajority` reads its field `ID`, the
address of the voter. -/
structure Vote where
  ID : Address
deriving DecidableEq, Repr

/-- `Validator.ID` (lines 43-45): the address of the public key.  The derivation
`PublicKey.Address` is not under src and is a parameter. -/
def Validator.ID (addressOf : Theta.PubKey → Address) (v : Validator) : Address :=
  addressOf v.PubKey

/-- The struct `ValidatorSet`. -/
structure ValidatorSet where
  validators : List Validator
deriving DecidableEq, Repr

namespace ValidatorSet

/-- `GetValidator` (lines 91-98): the first validator with the ID, `none` for
`ErrValidatorNotFound`. -/
def GetValidator (addressOf : PubKey → Address) (s : ValidatorSet) (id : Address) :
    Option Validator :=
  s.validators.find? (fun v => decide (v.ID addressOf = id))

/-- `TotalStake` (lines 107-113): the sum in `uint64`. -/
def TotalStake (s : ValidatorSet) : Nat :=
  s.validators.foldl (fun ret v => (ret + v.Stake) % 2 ^ 64) 0

/-- The loop of `HasMajority` (lines 118-124): the stake of the voters that are
validators of the set, summed in `uint64`. -/
def votedStake (addressOf : PubKey → Address) (s : ValidatorSet) (votes : List Vote) : Nat :=
  votes.foldl
    (fun acc vote =>
      match s.GetValidator addressOf vote.ID with
      | some validator => (acc + validator.Stake) % 2 ^ 64
      | none => acc)
    0

/-- `HasMajority` (lines 116-126); `votes` is `votes.Votes()`. -/
def HasMajority (addressOf : PubKey → Address) (s : ValidatorSet) (votes : List Vote) : Bool :=
  let quorum := ((s.TotalStake * 2) % 2 ^ 64 / 3 + 1) % 2 ^ 64
  decide (quorum ≤ s.votedStake addressOf votes)

/-- The stake of the validators of the set that voted, as a number. -/
def stakeOfVoters (addressOf : PubKey → Address) (s : ValidatorSet) (votes : List Vote) : Nat :=
  ((s.validators.filter
    (fun v => votes.any (fun vote => decide (vote.ID = v.ID addressOf)))).map
      (fun v => v.Stake)).sum

/-- The stake of all validators of the set, as a number. -/
def stakeSum (s : ValidatorSet) : Nat := (s.validators.map (fun v => v.Stake)).sum

end ValidatorSet

/-- Modelled from the spec: `Account.CheckTransferReservedFund` is not under src; this
reading of the spec is what the concrete executors below use.  Spec: "Fails if: no pool
with matching reserveSeq exists; that pool is expired (endBlockHeight < blockHeight);
... remaining fund after this draw would be negative except when the culprit is a
double-spend", a double spend being a recorded payment under the same payment sequence
"for a different target or amount", which "must pass the sanity check so that process
can record the slash".  The function is given neither the resource nor the address of
the target, so the spec's "resourceID missing from pool" is not part of it and a double
spend is recognised by its amount. -/
def specCheckTransferReservedFund (source _target : Account) (transferAmount : Coins)
    (paymentSequence currentBlockHeight reserveSequence : Nat) : Option String :=
  match locatePool source.ReservedFunds reserveSequence with
  | none => some "No matching reserved fund with the ReserveSequence"
  | some (_, pool) =>
    if pool.endBlockHeight < currentBlockHeight then some "Reserved fund expired"
    else if (pool.transferRecords.any (fun r =>
        decide (r.servicePaymentTx.PaymentSequence = paymentSequence) &&
          decide (r.transferAmount ≠ transferAmount))) then none
    else if !(pool.fund.Minus transferAmount).IsNonnegative then
      some "Insufficient reserved fund"
    else none

/-- An executor whose ledger state is at height `h` and whose range over the coins
map visits the entries in the given order. -/
def envWith (h : Nat) (order : List (Ptr × Coins) → List (Ptr × Coins)) : Env :=
  { stateHeight := h,
    TxID := fun _ tx => tx.PaymentSequence + 1000,
    inputPubKeyOK := fun _ _ => true,
    rangeOrder := order,
    ValidateBasic := fun _ => Result.OK,
    SourceSignBytes := fun _ tx => [tx.PaymentSequence, tx.ReserveSequence],
    TargetSignBytes := fun _ tx => [tx.PaymentSequence, tx.ReserveSequence, tx.Target.Sequence],
    VerifySignature := fun key _ _ => key.isSome,
    MinimumTransactionFeeGammaWei := 1,
    CheckTransferReservedFund := specCheckTransferReservedFund }

/-- An executor whose ledger state is at height `h`; the range over the coins map
visits the entries in insertion order. -/
def envAt (h : Nat) : Env := envWith h (fun m => m)

/-- The gamma balances of the stored accounts, by address. -/
def gammaBalances (view : StoreView) : List (Address × Int) :=
  view.store.accounts.map (fun e => (e.1, e.2.Balance.GammaWei))

/-- The gamma funds of the reserved pools of the account stored at an address. -/
def poolFunds (view : StoreView) (addr : Address) : List Int :=
  (view.GetOrCreateAccount addr).ReservedFunds.map (fun p => p.fund.GammaWei)

/-- The address of Dave, who has no stored account. -/
def daveAddr : Address := 4

/-- The address of Alice. -/
def aliceAddr : Address := 1

/-- The address of Bob. -/
def bobAddr : Address := 2

/-- The address of Carol. -/
def carolAddr : Address := 3

/-- A service payment of `amount` gamma from Alice to Bob with fee 1. -/
def paymentOf (amount : Int) : ServicePaymentTx :=
  { Fee := Coins.NewCoins 0 1,
    Source := { Address := aliceAddr, Coins := Coins.NewCoins 0 amount, Sequence := 1,
                Signature := 0, PubKey := none },
    Target := { Address := bobAddr, Coins := Coins.NewCoins 0 0, Sequence := 1,
                Signature := 0, PubKey := none },
    PaymentSequence := 1, ReserveSequence := 1, ResourceID := "rid001" }

/-- The pool of Alice (collateral 1001) with the given fund left and transfer records. -/
def poolWith (fund : Int) (records : List TransferRecord) : ReservedPool :=
  { collateral := Coins.NewCoins 0 1001, fund := Coins.NewCoins 0 fund,
    resourceIDs := ["rid001"], endBlockHeight := 1100, reserveSequence := 1,
    transferRecords := records }

/-- Alice, the source of the payments, with the given pool. -/
def aliceWith (pool : ReservedPool) : Account :=
  { PubKey := some 11, Sequence := 1, Balance := Coins.NewCoins 0 8998,
    ReservedFunds := [pool], Root := 0, CodeHash := EmptyCodeHash }

/-- Alice after her reserve-fund transaction: fund 1000, nothing drawn yet. -/
def alice : Account := aliceWith (poolWith 1000 [])

/-- Alice after the payment of 200 of scenario S1 has been recorded. -/
def aliceAfterS1 : Account :=
  aliceWith (poolWith 800
    [{ servicePaymentTx := paymentOf 200, transferAmount := Coins.NewCoins 0 200 }])

/-- An account with the given gamma balance and nothing else. -/
def plainAccount (gamma : Int) : Account :=
  { PubKey := some 12, Sequence := 0, Balance := Coins.NewCoins 0 gamma,
    ReservedFunds := [], Root := 0, CodeHash := EmptyCodeHash }

/-- A rule for "rid001" with the given splits that expires after height 200. -/
def ruleOf (splits : List Split) : SplitRule :=
  { InitiatorAddress := carolAddr, ResourceID := "rid001", Splits := splits,
    EndBlockHeight := 200 }

/-- A view holding the given account of Alice, Bob with the given balance, Carol with
3000, and the given rules. -/
def viewWith (aliceAccount : Account) (bobGamma : Int) (rules : List (String × SplitRule)) :
    StoreView :=
  { height := 150,
    store :=
      { accounts := [(aliceAddr, aliceAccount), (bobAddr, plainAccount bobGamma),
          (carolAddr, plainAccount 3000)],
        splitRules := rules, code := [] },
    coinbaseTransactinProcessed := false, slashIntents := [], validatorsDiff := [],
    refund := 0 }

/-- The view of the scenarios before any payment. -/
def viewOf (bobGamma : Int) (rules : List (String × SplitRule)) : StoreView :=
  viewWith alice bobGamma rules

/-- The view of scenario S4: Alice has already paid 200 to Bob under payment sequence 1. -/
def viewAfterS1 (bobGamma : Int) (rules : List (String × SplitRule)) : StoreView :=
  viewWith aliceAfterS1 bobGamma rules

/-- The slash intent of scenario S4: it cites the recorded payment of 200. -/
def slashOfS4 : SlashIntent :=
  { address := aliceAddr, reserveSequence := 1,
    proof := [{ servicePaymentTx := paymentOf 200, transferAmount := Coins.NewCoins 0 200 }] }

/-- The heap of `process` after it has resolved Alice and Bob. -/
def heapOf (bobGamma : Int) : Heap := [alice, plainAccount bobGamma]

/-- A sample of the outside functions of the VM state: a code hash that tells empty
code from other code, roots that count the entries, and a length-first encoding of byte
strings. -/
def sampleStateEnv : StateEnv :=
  { Keccak256Hash := fun code => if code = [] then EmptyCodeHash else code.sum + code.length + 2,
    treeRoot := fun store => store.accounts.length,
    storageRoot := fun tree => tree.length + 1,
    EncodeToBytes := fun b => b.length :: b,
    Split := fun enc =>
      match enc with
      | [] => none
      | n :: rest => some (rest.take n) }

/-- A database that holds nothing yet. -/
def emptyDatabase : Database := { tries := [], roots := [] }

/-- Every stored account has a balance that is non-negative in both components. -/
def StoreView.balancesNonnegative (sv : StoreView) : Prop :=
  ∀ e ∈ sv.store.accounts, e.2.Balance.IsNonnegative = true

/-- A view in which Bob has 5 gamma. -/
def poorBobView : StoreView := viewOf 5 []

/-- The validator set of the executor tests: the proposer with stake 999 and a second
validator with stake 100. -/
def testValidators : ValidatorSet := { validators := [⟨1, 999⟩, ⟨2, 100⟩] }

/-- Two validators with stake 2^63 each: their stakes sum to 2^64. -/
def heavyValidators : ValidatorSet :=
  { validators := [⟨1, 9223372036854775808⟩, ⟨2, 9223372036854775808⟩] }

instance : Encodable String :=
  Encodable.ofLeftInverse (fun s => s.toList.map Char.toNat)
    (fun l => String.mk (l.map Char.ofNat))
    (fun s => by simp [Function.comp_def])

instance : Encodable Coins :=
  Encodable.ofLeftInverse (fun c => (c.ThetaWei, c.GammaWei)) (fun p => ⟨p.1, p.2⟩)
    (fun _ => rfl)

instance : Encodable Split :=
  Encodable.ofLeftInverse (fun s => (s.Address, s.Percentage)) (fun p => ⟨p.1, p.2⟩)
    (fun _ => rfl)

instance : Encodable SplitRule :=
  Encodable.ofLeftInverse
    (fun r => (r.InitiatorAddress, r.ResourceID, r.Splits, r.EndBlockHeight))
    (fun p => ⟨p.1, p.2.1, p.2.2.1, p.2.2.2⟩) (fun _ => rfl)

instance : Encodable TxInput :=
  Encodable.ofLeftInverse (fun i => (i.Address, i.Coins, i.Sequence, i.Signature, i.PubKey))
    (fun p => ⟨p.1, p.2.1, p.2.2.1, p.2.2.2.1, p.2.2.2.2⟩) (fun _ => rfl)

instance : Encodable ServicePaymentTx :=
  Encodable.ofLeftInverse
    (fun t => (t.Fee, t.Source, t.Target, t.PaymentSequence, t.ReserveSequence, t.ResourceID))
    (fun p => ⟨p.1, p.2.1, p.2.2.1, p.2.2.2.1, p.2.2.2.2.1, p.2.2.2.2.2⟩) (fun _ => rfl)

instance : Encodable TransferRecord :=
  Encodable.ofLeftInverse (fun r => (r.servicePaymentTx, r.transferAmount))
    (fun p => ⟨p.1, p.2⟩) (fun _ => rfl)

instance : Encodable ReservedPool :=
  Encodable.ofLeftInverse
    (fun r => (r.collateral, r.fund, r.resourceIDs, r.endBlockHeight, r.reserveSequence,
      r.transferRecords))
    (fun p => ⟨p.1, p.2.1, p.2.2.1, p.2.2.2.1, p.2.2.2.2.1, p.2.2.2.2.2⟩) (fun _ => rfl)

instance : Encodable Account :=
  Encodable.ofLeftInverse
    (fun a => (a.PubKey, a.Sequence, a.Balance, a.ReservedFunds, a.Root, a.CodeHash))
    (fun p => ⟨p.1, p.2.1, p.2.2.1, p.2.2.2.1, p.2.2.2.2.1, p.2.2.2.2.2⟩) (fun _ => rfl)

instance : Encodable TreeStore :=
  Encodable.ofLeftInverse (fun t => (t.accounts, t.splitRules, t.code))
    (fun p => ⟨p.1, p.2.1, p.2.2⟩) (fun _ => rfl)

/-- A sample of the outside functions in which the root of a tree store is its number:
two stores with the same root are the same store. -/
def exactStateEnv : StateEnv := { sampleStateEnv with treeRoot := Encodable.encode }

/-- A run with a snapshot inside a snapshot: Dave gets an account; inside the inner
stretch Bob is deleted; after it code is stored. -/
def sampleScript : Script :=
  Script.write (Write.SetAccount daveAddr (plainAccount 7))
    (Script.nested (Script.write (Write.DeleteAccount bobAddr) Script.done)
      (Script.write (Write.SetCode 9 [96, 0]) Script.done))

/-! ## Lemmas on coins, maps and the heap -/

@[simp]
theorem Coins.Plus_ThetaWei (a b : Coins) : (a.Plus b).ThetaWei = a.ThetaWei + b.ThetaWei := rfl
@[simp]
theorem Coins.Plus_GammaWei (a b : Coins) : (a.Plus b).GammaWei = a.GammaWei + b.GammaWei := rfl
@[simp]
theorem Coins.Minus_ThetaWei (a b : Coins) : (a.Minus b).ThetaWei = a.ThetaWei - b.ThetaWei := rfl
@[simp]
theorem Coins.Minus_GammaWei (a b : Coins) : (a.Minus b).GammaWei = a.GammaWei - b.GammaWei := rfl
@[simp]
theorem Coins.NewCoins_ThetaWei (x y : Int) : (Coins.NewCoins x y).ThetaWei = x := rfl
@[simp]
theorem Coins.NewCoins_GammaWei (x y : Int) : (Coins.NewCoins x y).GammaWei = y := rfl

theorem foldl_Plus_start (l : List Coins) (a : Coins) :
    l.foldl Coins.Plus a = a.Plus (sumCoins l) := by
  induction l generalizing a with
  | nil => ext <;> simp [sumCoins]
  | cons x xs ih =>
    simp only [sumCoins, List.foldl_cons]
    rw [ih, ih ((Coins.NewCoins 0 0).Plus x)]
    ext <;> simp <;> ring

theorem sumCoins_nil : sumCoins [] = Coins.NewCoins 0 0 := rfl

theorem sumCoins_cons (x : Coins) (xs : List Coins) :
    sumCoins (x :: xs) = x.Plus (sumCoins xs) := by
  have h : sumCoins (x :: xs) = xs.foldl Coins.Plus ((Coins.NewCoins 0 0).Plus x) := rfl
  rw [h, foldl_Plus_start]
  ext <;> simp

theorem sumCoins_append (xs ys : List Coins) :
    sumCoins (xs ++ ys) = (sumCoins xs).Plus (sumCoins ys) := by
  induction xs with
  | nil => ext <;> simp [sumCoins_nil]
  | cons x xs ih => rw [List.cons_append, sumCoins_cons, sumCoins_cons, ih]; ext <;> simp <;> ring

theorem totalCoins_eq_sumCoins (m : List (Ptr × Coins)) :
    totalCoins m = sumCoins (m.map Prod.snd) := by
  simp only [totalCoins, sumCoins, List.foldl_map]

theorem mapGet_eq_none_iff {κ ν : Type} [DecidableEq κ] (m : List (κ × ν)) (k : κ) :
    mapGet m k = none ↔ k ∉ mapKeys m := by
  induction m with
  | nil => simp [mapGet, mapKeys]
  | cons e rest ih =>
    obtain ⟨k1, v1⟩ := e
    by_cases h : k1 = k
    · simp [mapGet, mapKeys, h]
    · simp only [mapGet, h, if_false, ih, mapKeys, List.map_cons, List.mem_cons, not_or]
      constructor
      · intro hk; exact ⟨fun hh => h hh.symm, hk⟩
      · intro hk; exact hk.2

theorem mapSet_fresh {κ ν : Type} [DecidableEq κ] (m : List (κ × ν)) (k : κ) (v : ν)
    (h : k ∉ mapKeys m) : mapSet m k v = m ++ [(k, v)] := by
  induction m with
  | nil => rfl
  | cons e rest ih =>
    obtain ⟨k1, v1⟩ := e
    simp only [mapKeys, List.map_cons, List.mem_cons, not_or] at h
    have hne : ¬ k1 = k := fun hh => h.1 hh.symm
    simp only [mapSet, hne, if_false, List.cons_append]
    rw [ih h.2]

theorem mapGet_append_of_mem {κ ν : Type} [DecidableEq κ] (m l : List (κ × ν)) (k : κ)
    (h : k ∈ mapKeys m) : mapGet (m ++ l) k = mapGet m k := by
  induction m with
  | nil => simp [mapKeys] at h
  | cons e rest ih =>
    obtain ⟨k1, v1⟩ := e
    by_cases hk : k1 = k
    · simp [mapGet, hk]
    · simp only [mapKeys, List.map_cons, List.mem_cons] at h
      have hr : k ∈ mapKeys rest := by
        rcases h with h | h
        · exact absurd h.symm hk
        · exact h
      simp only [List.cons_append, mapGet, hk, if_false]
      exact ih hr

theorem mapGet_append_fresh {κ ν : Type} [DecidableEq κ] (m : List (κ × ν)) (k : κ) (v : ν)
    (h : k ∉ mapKeys m) : mapGet (m ++ [(k, v)]) k = some v := by
  induction m with
  | nil => simp [mapGet]
  | cons e rest ih =>
    obtain ⟨k1, v1⟩ := e
    simp only [mapKeys, List.map_cons, List.mem_cons, not_or] at h
    have hne : ¬ k1 = k := fun hh => h.1 hh.symm
    simp only [List.cons_append, mapGet, hne, if_false]
    exact ih h.2

theorem mapKeys_append {κ ν : Type} (m l : List (κ × ν)) :
    mapKeys (m ++ l) = mapKeys m ++ mapKeys l := by
  simp [mapKeys]

theorem readAccount_append_of_lt (heap : Heap) (a : Account) (p : Ptr) (h : p < heap.length) :
    readAccount (heap ++ [a]) p = readAccount heap p := by
  simp [readAccount, List.getD_eq_getElem?_getD, List.getElem?_append_left h]

theorem readAccount_append_length (heap : Heap) (a : Account) :
    readAccount (heap ++ [a]) heap.length = a := by
  simp [readAccount, List.getD_eq_getElem?_getD]

/-! ## The loop of `splitPayment` -/

/-- Adding a new key to both maps adds one entry at the end of the distribution and
leaves the entries before it as they were. -/
theorem distribution_push (cm : List (Ptr × Coins)) (am : List (Ptr × Address))
    (heap heap1 : Heap) (p : Ptr) (c : Coins) (ad : Address)
    (hkeys : mapKeys cm = mapKeys am) (hp : p ∉ mapKeys cm)
    (hheap : ∀ q ∈ mapKeys cm, readAccount heap1 q = readAccount heap q) :
    (mapSet cm p c).map (fun e => (mapGet (mapSet am p ad) e.1, readAccount heap1 e.1, e.2))
      = cm.map (fun e => (mapGet am e.1, readAccount heap e.1, e.2))
        ++ [(some ad, readAccount heap1 p, c)] := by
  have hp2 : p ∉ mapKeys am := hkeys ▸ hp
  rw [mapSet_fresh cm p c hp, mapSet_fresh am p ad hp2, List.map_append]
  congr 1
  · apply List.map_congr_left
    intro e he
    have hmem : e.1 ∈ mapKeys cm := List.mem_map_of_mem Prod.fst he
    rw [mapGet_append_of_mem am _ e.1 (hkeys ▸ hmem), hheap e.1 hmem]
  · simp [mapGet_append_fresh am p ad hp2]

theorem mapKeys_mapSet_fresh {κ ν : Type} [DecidableEq κ] (m : List (κ × ν)) (k : κ) (v : ν)
    (h : k ∉ mapKeys m) : mapKeys (mapSet m k v) = mapKeys m ++ [k] := by
  rw [mapSet_fresh m k v h, mapKeys_append]; rfl

/-- One pass of the loop keeps the invariant, allocates one object, and adds the
entry to the distribution unless its percentage is out of range. -/
theorem splitLoopBody_spec (view : StoreView) (fullAmount : Coins) (t : Ptr) (st : SplitLoop)
    (s : Split) (h : st.Inv t) :
    (splitLoopBody view fullAmount st s).Inv t ∧
    (splitLoopBody view fullAmount st s).heap = st.heap ++ [view.GetOrCreateAccount s.Address] ∧
    (splitLoopBody view fullAmount st s).distribution
      = st.distribution ++ (validSplits [s]).map (splitShare view fullAmount) ∧
    (splitLoopBody view fullAmount st s).remainingAmount
      = st.remainingAmount.Minus
          (sumCoins ((validSplits [s]).map (fun s => fullAmount.CalculatePercentage s.Percentage))) := by
  obtain ⟨ht, hk, hkeys⟩ := h
  have hfresh : st.heap.length ∉ mapKeys st.coinsMap := fun hm => lt_irrefl _ (hk _ hm).2
  have hread : ∀ q ∈ mapKeys st.coinsMap,
      readAccount (st.heap ++ [view.GetOrCreateAccount s.Address]) q = readAccount st.heap q :=
    fun q hq => readAccount_append_of_lt _ _ _ (hk q hq).2
  by_cases hs : s.Percentage > 100 ∨ s.Percentage < 0
  · have hv : validSplits [s] = [] := by
      unfold validSplits
      rw [List.filter_cons_of_neg]
      · rfl
      · simpa using hs
    have hbody : splitLoopBody view fullAmount st s
        = { st with heap := st.heap ++ [view.GetOrCreateAccount s.Address] } := by
      unfold splitLoopBody
      simp only [getOrMakeAccount, allocAccount]
      rw [if_pos hs]
    rw [hbody, hv]
    simp only [List.map_nil, List.append_nil, sumCoins_nil]
    refine ⟨⟨?_, ?_, hkeys⟩, trivial, ?_, ?_⟩
    · show t < (st.heap ++ [view.GetOrCreateAccount s.Address]).length
      simp only [List.length_append, List.length_singleton]; unfold Ptr at *; omega
    · intro p hp
      have := hk p hp
      show t < p ∧ p < (st.heap ++ [view.GetOrCreateAccount s.Address]).length
      simp only [List.length_append, List.length_singleton]; unfold Ptr at *; omega
    · simp only [SplitLoop.distribution]
      apply List.map_congr_left
      intro e he
      rw [hread e.1 (List.mem_map_of_mem Prod.fst he)]
    · ext <;> simp
  · have hv : validSplits [s] = [s] := by
      unfold validSplits
      rw [List.filter_cons_of_pos]
      · rfl
      · simpa using hs
    have hbody : splitLoopBody view fullAmount st s
        = { heap := st.heap ++ [view.GetOrCreateAccount s.Address],
            coinsMap := mapSet st.coinsMap st.heap.length
              (fullAmount.CalculatePercentage s.Percentage),
            accountAddressMap := mapSet st.accountAddressMap st.heap.length s.Address,
            remainingAmount :=
              st.remainingAmount.Minus (fullAmount.CalculatePercentage s.Percentage) } := by
      unfold splitLoopBody
      simp only [getOrMakeAccount, allocAccount]
      rw [if_neg hs]
    rw [hbody, hv]
    simp only [List.map_cons, List.map_nil]
    refine ⟨⟨?_, ?_, ?_⟩, trivial, ?_, ?_⟩
    · show t < (st.heap ++ [view.GetOrCreateAccount s.Address]).length
      simp only [List.length_append, List.length_singleton]; unfold Ptr at *; omega
    · intro p hp
      show t < p ∧ p < (st.heap ++ [view.GetOrCreateAccount s.Address]).length
      have hp2 : p ∈ mapKeys st.coinsMap ++ [st.heap.length] := by
        rw [← mapKeys_mapSet_fresh _ _ (fullAmount.CalculatePercentage s.Percentage) hfresh]
        exact hp
      simp only [List.length_append, List.length_singleton]
      rcases List.mem_append.1 hp2 with hp3 | hp3
      · have := hk p hp3; unfold Ptr at *; omega
      · simp only [List.mem_singleton] at hp3; unfold Ptr at *; omega
    · show mapKeys (mapSet st.coinsMap _ _) = mapKeys (mapSet st.accountAddressMap _ _)
      rw [mapKeys_mapSet_fresh _ _ _ hfresh, mapKeys_mapSet_fresh _ _ _ (hkeys ▸ hfresh), hkeys]
    · simp only [SplitLoop.distribution]
      rw [distribution_push st.coinsMap st.accountAddressMap st.heap _ _ _ _ hkeys hfresh hread,
        readAccount_append_length]
      rfl
    · rw [sumCoins_cons, sumCoins_nil]; ext <;> simp

/-- The whole loop: the invariant is kept, every entry allocates one object, the
distribution grows by the valid entries in rule order, and the remaining amount
shrinks by their amounts. -/
theorem splitLoop_spec (view : StoreView) (fullAmount : Coins) (t : Ptr) (splits : List Split)
    (st : SplitLoop) (h : st.Inv t) :
    (splits.foldl (splitLoopBody view fullAmount) st).Inv t ∧
    (splits.foldl (splitLoopBody view fullAmount) st).heap
      = st.heap ++ splits.map (fun s => view.GetOrCreateAccount s.Address) ∧
    (splits.foldl (splitLoopBody view fullAmount) st).distribution
      = st.distribution ++ (validSplits splits).map (splitShare view fullAmount) ∧
    (splits.foldl (splitLoopBody view fullAmount) st).remainingAmount
      = st.remainingAmount.Minus
          (sumCoins ((validSplits splits).map
            (fun s => fullAmount.CalculatePercentage s.Percentage))) := by
  induction splits generalizing st with
  | nil =>
    refine ⟨h, by simp, by simp [validSplits], ?_⟩
    simp only [List.foldl_nil, validSplits, List.filter_nil, List.map_nil, sumCoins_nil]
    ext <;> simp
  | cons s rest ih =>
    obtain ⟨h1, h2, h3, h4⟩ := splitLoopBody_spec view fullAmount t st s h
    obtain ⟨i1, i2, i3, i4⟩ := ih (splitLoopBody view fullAmount st s) h1
    have hv : validSplits (s :: rest) = validSplits [s] ++ validSplits rest := by
      simp only [validSplits]
      rw [← List.filter_append]; rfl
    simp only [List.foldl_cons]
    refine ⟨i1, ?_, ?_, ?_⟩
    · rw [i2, h2]; simp
    · rw [i3, h3, hv]; simp
    · rw [i4, h4, hv, List.map_append, sumCoins_append]; ext <;> simp <;> ring

/-! ## `splitPayment` in closed form -/

/-- Without a rule, or with an expired one, the two maps have the target as their
only key. -/
theorem splitPayment_none (env : Env) (view : StoreView) (heap : Heap) (resourceID : String)
    (targetAddress : Address) (targetAccount : Ptr) (fullAmount : Coins) :
    splitPayment env view heap none resourceID targetAddress targetAccount fullAmount
      = { success := true, coinsMap := [(targetAccount, fullAmount)],
          accountAddressMap := [(targetAccount, targetAddress)], view := view, heap := heap } :=
  rfl

theorem splitPayment_expired (env : Env) (view : StoreView) (heap : Heap) (rule : SplitRule)
    (resourceID : String) (targetAddress : Address) (targetAccount : Ptr) (fullAmount : Coins)
    (h : env.stateHeight > rule.EndBlockHeight) :
    splitPayment env view heap (some rule) resourceID targetAddress targetAccount fullAmount
      = { success := true, coinsMap := [(targetAccount, fullAmount)],
          accountAddressMap := [(targetAccount, targetAddress)],
          view := (view.DeleteSplitRule resourceID).2, heap := heap } := by
  simp only [splitPayment, h, if_true, mapSet]

/-- With a rule that has not expired: the view is untouched, success is the sign of
the remainder, and the distribution is the valid entries in rule order followed, on
success, by the target with the remainder. -/
theorem splitPayment_valid (env : Env) (view : StoreView) (heap : Heap) (rule : SplitRule)
    (resourceID : String) (targetAddress : Address) (targetAccount : Ptr) (fullAmount : Coins)
    (hexp : ¬ env.stateHeight > rule.EndBlockHeight) (ht : targetAccount < heap.length) :
    (splitPayment env view heap (some rule) resourceID targetAddress targetAccount
        fullAmount).view = view ∧
    (splitPayment env view heap (some rule) resourceID targetAddress targetAccount
        fullAmount).heap = heap ++ rule.Splits.map (fun s => view.GetOrCreateAccount s.Address) ∧
    (splitPayment env view heap (some rule) resourceID targetAddress targetAccount
        fullAmount).success = (remainderOf fullAmount rule.Splits).IsNonnegative ∧
    (splitPayment env view heap (some rule) resourceID targetAddress targetAccount
        fullAmount).distribution
      = (validSplits rule.Splits).map (splitShare view fullAmount)
        ++ (if (remainderOf fullAmount rule.Splits).IsNonnegative
            then [(some targetAddress, readAccount heap targetAccount,
                    remainderOf fullAmount rule.Splits)]
            else []) ∧
    mapKeys (splitPayment env view heap (some rule) resourceID targetAddress targetAccount
        fullAmount).coinsMap
      = mapKeys (splitPayment env view heap (some rule) resourceID targetAddress targetAccount
        fullAmount).accountAddressMap := by
  have hinv : SplitLoop.Inv targetAccount
      { heap := heap, coinsMap := [], accountAddressMap := [], remainingAmount := fullAmount } :=
    ⟨ht, by intro p hp; simp [mapKeys] at hp, rfl⟩
  obtain ⟨⟨i1, i2, i3⟩, hheap, hdist, hrem⟩ :=
    splitLoop_spec view fullAmount targetAccount rule.Splits _ hinv
  have hrem2 : (rule.Splits.foldl (splitLoopBody view fullAmount)
      { heap := heap, coinsMap := [], accountAddressMap := [],
        remainingAmount := fullAmount }).remainingAmount = remainderOf fullAmount rule.Splits :=
    hrem
  have hfresh : targetAccount ∉ mapKeys (rule.Splits.foldl (splitLoopBody view fullAmount)
      { heap := heap, coinsMap := [], accountAddressMap := [],
        remainingAmount := fullAmount }).coinsMap := fun hm => lt_irrefl _ (i2 _ hm).1
  have hreadt : readAccount (rule.Splits.foldl (splitLoopBody view fullAmount)
      { heap := heap, coinsMap := [], accountAddressMap := [],
        remainingAmount := fullAmount }).heap targetAccount = readAccount heap targetAccount := by
    rw [hheap]
    simp only [readAccount, List.getD_eq_getElem?_getD]
    rw [List.getElem?_append_left ht]
  by_cases hn : (remainderOf fullAmount rule.Splits).IsNonnegative = true
  · simp only [splitPayment, hexp, if_false, hrem2, hn, Bool.not_true, if_true,
      SplitOut.distribution, Bool.false_eq_true]
    refine ⟨trivial, hheap, trivial, ?_, ?_⟩
    · rw [distribution_push _ _ _ _ _ _ _ i3 hfresh (fun _ _ => rfl), hreadt]
      congr 1
    · rw [mapKeys_mapSet_fresh _ _ _ hfresh, mapKeys_mapSet_fresh _ _ _ (i3 ▸ hfresh), i3]
  · simp only [Bool.not_eq_true] at hn
    simp only [splitPayment, hexp, if_false, hrem2, hn, Bool.not_false, if_true,
      SplitOut.distribution, Bool.false_eq_true, List.append_nil]
    refine ⟨trivial, hheap, trivial, ?_, i3⟩
    simpa [SplitLoop.distribution] using hdist

/-- The amounts of the coins map are the third components of the distribution. -/
theorem SplitOut.amounts_eq (out : SplitOut) :
    out.coinsMap.map Prod.snd = out.distribution.map (fun d => d.2.2) := by
  simp [SplitOut.distribution]

theorem splitShare_amounts (view : StoreView) (fullAmount : Coins) (l : List Split) :
    (l.map (splitShare view fullAmount)).map (fun d => d.2.2)
      = l.map (fun s => fullAmount.CalculatePercentage s.Percentage) := by
  simp [splitShare]

/-! ## Claims about `splitPayment` -/

/-- C1: whenever `splitPayment` reports success (rule absent, expired or valid), the
amounts of the returned coins map add up to exactly the full amount, in ThetaWei and
in GammaWei.  The target account is an allocated object (`targetAccount < heap.length`);
the full amount may be any coins value. -/
theorem splitPayment_total_eq_fullAmount (env : Env) (view : StoreView) (heap : Heap)
    (splitRule : Option SplitRule) (resourceID : String) (targetAddress : Address)
    (targetAccount : Ptr) (fullAmount : Coins) (ht : targetAccount < heap.length)
    (hs : (splitPayment env view heap splitRule resourceID targetAddress targetAccount
      fullAmount).success = true) :
    (totalCoins (splitPayment env view heap splitRule resourceID targetAddress targetAccount
      fullAmount).coinsMap).ThetaWei = fullAmount.ThetaWei ∧
    (totalCoins (splitPayment env view heap splitRule resourceID targetAddress targetAccount
      fullAmount).coinsMap).GammaWei = fullAmount.GammaWei := by
  cases splitRule with
  | none => simp [splitPayment_none, totalCoins]
  | some rule =>
    by_cases hexp : env.stateHeight > rule.EndBlockHeight
    · simp [splitPayment_expired _ _ _ _ _ _ _ _ hexp, totalCoins]
    · obtain ⟨-, -, hsucc, hdist, -⟩ :=
        splitPayment_valid env view heap rule resourceID targetAddress targetAccount fullAmount
          hexp ht
      rw [hsucc] at hs
      rw [hs, if_pos rfl] at hdist
      rw [totalCoins_eq_sumCoins, SplitOut.amounts_eq, hdist, List.map_append,
        splitShare_amounts, sumCoins_append]
      simp [sumCoins_cons, sumCoins_nil, remainderOf]

/-- C1, at a concrete input: a 60/50 rule that over-allocates in percent but not in
amounts, full amount 1 gamma. -/
theorem splitPayment_total_eq_fullAmount_witness :
    (1 : Ptr) < (heapOf 3000).length ∧
    (splitPayment (envAt 150) (viewOf 3000 []) (heapOf 3000)
      (some (ruleOf [⟨carolAddr, 60⟩, ⟨aliceAddr, 50⟩])) "rid001" bobAddr 1
      (Coins.NewCoins 0 1)).success = true ∧
    (totalCoins (splitPayment (envAt 150) (viewOf 3000 []) (heapOf 3000)
      (some (ruleOf [⟨carolAddr, 60⟩, ⟨aliceAddr, 50⟩])) "rid001" bobAddr 1
      (Coins.NewCoins 0 1)).coinsMap).GammaWei = 1 :=
  ⟨by decide, by decide,
   (splitPayment_total_eq_fullAmount (envAt 150) (viewOf 3000 []) (heapOf 3000)
      (some (ruleOf [⟨carolAddr, 60⟩, ⟨aliceAddr, 50⟩])) "rid001" bobAddr 1
      (Coins.NewCoins 0 1) (by decide) (by decide)).2⟩

/-- C2: for a rule that has not expired, `splitPayment` gives every entry whose
percentage is in the range 0 to 100, in rule order, the amount
`fullAmount * percentage / 100` by integer division on each component, for the account
of the entry's address; it succeeds exactly when what is left is non-negative, and
then gives the target the full amount minus the sum of those amounts. -/
theorem splitPayment_amounts (env : Env) (view : StoreView) (heap : Heap) (rule : SplitRule)
    (resourceID : String) (targetAddress : Address) (targetAccount : Ptr) (fullAmount : Coins)
    (hexp : ¬ env.stateHeight > rule.EndBlockHeight) (ht : targetAccount < heap.length) :
    (splitPayment env view heap (some rule) resourceID targetAddress targetAccount
        fullAmount).distribution
      = (rule.Splits.filter (fun s => decide (s.Percentage ≤ 100))).map
          (fun s => (some s.Address, view.GetOrCreateAccount s.Address,
            ({ ThetaWei := fullAmount.ThetaWei * (s.Percentage : Int) / 100,
               GammaWei := fullAmount.GammaWei * (s.Percentage : Int) / 100 } : Coins)))
        ++ (if (splitPayment env view heap (some rule) resourceID targetAddress targetAccount
              fullAmount).success = true
            then [(some targetAddress, readAccount heap targetAccount,
              fullAmount.Minus (sumCoins
                ((rule.Splits.filter (fun s => decide (s.Percentage ≤ 100))).map
                  (fun s => ({ ThetaWei := fullAmount.ThetaWei * (s.Percentage : Int) / 100,
                               GammaWei := fullAmount.GammaWei * (s.Percentage : Int) / 100 }
                              : Coins)))))]
            else []) ∧
    ((splitPayment env view heap (some rule) resourceID targetAddress targetAccount
        fullAmount).success = true ↔
      (fullAmount.Minus (sumCoins
        ((rule.Splits.filter (fun s => decide (s.Percentage ≤ 100))).map
          (fun s => ({ ThetaWei := fullAmount.ThetaWei * (s.Percentage : Int) / 100,
                       GammaWei := fullAmount.GammaWei * (s.Percentage : Int) / 100 }
                      : Coins))))).IsNonnegative = true) := by
  obtain ⟨-, -, hsucc, hdist, -⟩ :=
    splitPayment_valid env view heap rule resourceID targetAddress targetAccount fullAmount
      hexp ht
  have hv : rule.Splits.filter (fun s => decide (s.Percentage ≤ 100)) = validSplits rule.Splits := by
    unfold validSplits
    congr 1
    funext s
    simp
  rw [hv, hsucc, hdist]
  exact ⟨rfl, Iff.rfl⟩

/-- C2, at a concrete input: the 60/40 split of 100 gamma of scenario S2. -/
theorem splitPayment_amounts_witness :
    ¬ (envAt 150).stateHeight > (ruleOf [⟨carolAddr, 60⟩]).EndBlockHeight ∧
    (1 : Ptr) < (heapOf 3000).length ∧
    (splitPayment (envAt 150) (viewOf 3000 []) (heapOf 3000) (some (ruleOf [⟨carolAddr, 60⟩]))
      "rid001" bobAddr 1 (Coins.NewCoins 0 100)).distribution
      = [(some carolAddr, plainAccount 3000, Coins.NewCoins 0 60),
         (some bobAddr, plainAccount 3000, Coins.NewCoins 0 40)] :=
  ⟨by decide, by decide,
   ((splitPayment_amounts (envAt 150) (viewOf 3000 []) (heapOf 3000)
      (ruleOf [⟨carolAddr, 60⟩]) "rid001" bobAddr 1 (Coins.NewCoins 0 100)
      (by decide) (by decide)).1).trans (by decide)⟩

/-- C3: when there is no rule, or the rule's end height is below the current height
(the height `exec.state.Height()` of the executor's ledger state), `splitPayment`
succeeds and both maps have exactly one entry, the target account: it gets the entire
full amount, and no split address gets anything. -/
theorem splitPayment_all_to_target (env : Env) (view : StoreView) (heap : Heap)
    (splitRule : Option SplitRule) (resourceID : String) (targetAddress : Address)
    (targetAccount : Ptr) (fullAmount : Coins)
    (h : ∀ rule, splitRule = some rule → rule.EndBlockHeight < env.stateHeight) :
    (splitPayment env view heap splitRule resourceID targetAddress targetAccount
      fullAmount).success = true ∧
    (splitPayment env view heap splitRule resourceID targetAddress targetAccount
      fullAmount).coinsMap = [(targetAccount, fullAmount)] ∧
    (splitPayment env view heap splitRule resourceID targetAddress targetAccount
      fullAmount).accountAddressMap = [(targetAccount, targetAddress)] := by
  cases splitRule with
  | none => simp [splitPayment_none]
  | some rule => simp [splitPayment_expired _ _ _ _ _ _ _ _ (h rule rfl)]

/-- C3, at a concrete input: the expired rule of scenario S3 (height 250, end 200). -/
theorem splitPayment_all_to_target_witness :
    (∀ rule, some (ruleOf [⟨carolAddr, 60⟩]) = some rule →
      rule.EndBlockHeight < (envAt 250).stateHeight) ∧
    (splitPayment (envAt 250) (viewOf 3000 [("rid001", ruleOf [⟨carolAddr, 60⟩])])
      (heapOf 3000) (some (ruleOf [⟨carolAddr, 60⟩])) "rid001" bobAddr 1
      (Coins.NewCoins 0 100)).coinsMap = [(1, Coins.NewCoins 0 100)] :=
  ⟨by intro rule h; cases h; decide,
   (splitPayment_all_to_target (envAt 250)
      (viewOf 3000 [("rid001", ruleOf [⟨carolAddr, 60⟩])]) (heapOf 3000)
      (some (ruleOf [⟨carolAddr, 60⟩])) "rid001" bobAddr 1 (Coins.NewCoins 0 100)
      (by intro rule h; cases h; decide)).2.1⟩

/-- C6: an entry whose percentage is outside the range 0 to 100 is skipped without a
trace: `splitPayment` on a rule gives the same success flag, the same view, the same
distribution (addresses, accounts and amounts, in order) and maps of the same size as
on the rule with those entries removed. -/
theorem splitPayment_skips_out_of_range (env : Env) (view : StoreView) (heap : Heap)
    (rule : SplitRule) (resourceID : String) (targetAddress : Address) (targetAccount : Ptr)
    (fullAmount : Coins) (ht : targetAccount < heap.length) :
    (splitPayment env view heap (some rule) resourceID targetAddress targetAccount
        fullAmount).success
      = (splitPayment env view heap
          (some { rule with Splits := rule.Splits.filter (fun s => decide (s.Percentage ≤ 100)) })
          resourceID targetAddress targetAccount fullAmount).success ∧
    (splitPayment env view heap (some rule) resourceID targetAddress targetAccount
        fullAmount).view
      = (splitPayment env view heap
          (some { rule with Splits := rule.Splits.filter (fun s => decide (s.Percentage ≤ 100)) })
          resourceID targetAddress targetAccount fullAmount).view ∧
    (splitPayment env view heap (some rule) resourceID targetAddress targetAccount
        fullAmount).distribution
      = (splitPayment env view heap
          (some { rule with Splits := rule.Splits.filter (fun s => decide (s.Percentage ≤ 100)) })
          resourceID targetAddress targetAccount fullAmount).distribution ∧
    (splitPayment env view heap (some rule) resourceID targetAddress targetAccount
        fullAmount).coinsMap.length
      = (splitPayment env view heap
          (some { rule with Splits := rule.Splits.filter (fun s => decide (s.Percentage ≤ 100)) })
          resourceID targetAddress targetAccount fullAmount).coinsMap.length ∧
    (splitPayment env view heap (some rule) resourceID targetAddress targetAccount
        fullAmount).accountAddressMap.length
      = (splitPayment env view heap
          (some { rule with Splits := rule.Splits.filter (fun s => decide (s.Percentage ≤ 100)) })
          resourceID targetAddress targetAccount fullAmount).accountAddressMap.length := by
  have hv : rule.Splits.filter (fun s => decide (s.Percentage ≤ 100)) = validSplits rule.Splits := by
    unfold validSplits
    congr 1
    funext s
    simp
  rw [hv]
  by_cases hexp : env.stateHeight > rule.EndBlockHeight
  · have hexp2 : env.stateHeight >
        ({ rule with Splits := validSplits rule.Splits } : SplitRule).EndBlockHeight := hexp
    rw [splitPayment_expired _ _ _ _ _ _ _ _ hexp, splitPayment_expired _ _ _ _ _ _ _ _ hexp2]
    exact ⟨rfl, rfl, rfl, rfl, rfl⟩
  · have hexp2 : ¬ env.stateHeight >
        ({ rule with Splits := validSplits rule.Splits } : SplitRule).EndBlockHeight := hexp
    obtain ⟨a1, -, a3, a4, a5⟩ :=
      splitPayment_valid env view heap rule resourceID targetAddress targetAccount fullAmount
        hexp ht
    obtain ⟨b1, -, b3, b4, b5⟩ :=
      splitPayment_valid env view heap { rule with Splits := validSplits rule.Splits }
        resourceID targetAddress targetAccount fullAmount hexp2 ht
    have hidem : validSplits (validSplits rule.Splits) = validSplits rule.Splits := by
      simp [validSplits]
    have hrem : remainderOf fullAmount (validSplits rule.Splits)
        = remainderOf fullAmount rule.Splits := by
      simp only [remainderOf, hidem]
    simp only [hidem, hrem] at b3 b4
    have hdist := a4.trans b4.symm
    have hlen := congrArg List.length hdist
    simp only [SplitOut.distribution, List.length_map] at hlen
    refine ⟨a3.trans b3.symm, a1.trans b1.symm, hdist, hlen, ?_⟩
    have ha := congrArg List.length a5
    have hb := congrArg List.length b5
    simp only [mapKeys, List.length_map] at ha hb
    rw [← ha, ← hb]
    exact hlen

/-- C6, at a concrete input: an entry with percentage 160 next to the 60 of scenario S2. -/
theorem splitPayment_skips_out_of_range_witness :
    (1 : Ptr) < (heapOf 3000).length ∧
    (splitPayment (envAt 150) (viewOf 3000 []) (heapOf 3000)
      (some (ruleOf [⟨aliceAddr, 160⟩, ⟨carolAddr, 60⟩])) "rid001" bobAddr 1
      (Coins.NewCoins 0 100)).distribution
      = [(some carolAddr, plainAccount 3000, Coins.NewCoins 0 60),
         (some bobAddr, plainAccount 3000, Coins.NewCoins 0 40)] :=
  ⟨by decide,
   ((splitPayment_skips_out_of_range (envAt 150) (viewOf 3000 []) (heapOf 3000)
      (ruleOf [⟨aliceAddr, 160⟩, ⟨carolAddr, 60⟩]) "rid001" bobAddr 1 (Coins.NewCoins 0 100)
      (by decide)).2.2.1).trans (by decide)⟩

/-! ## The paths through `process` -/

/-- A pointer handed out by `getOrMakeInput` points into the heap it returns. -/
theorem getOrMakeInput_ptr (env : Env) (view : StoreView) (heap : Heap) (input : TxInput)
    (p : Ptr) (heap1 : Heap) (h : getOrMakeInput env view heap input = Except.ok (p, heap1)) :
    p < heap1.length := by
  unfold getOrMakeInput at h
  simp only [allocAccount] at h
  split at h
  · injection h with h
    injection h with hp hh
    subst hp hh
    simp
  · cases h

/-- An error of `getInput` is an error result. -/
theorem getInput_error (env : Env) (view : StoreView) (heap : Heap) (input : TxInput)
    (r : Result) (h : getInput env view heap input = Except.error r) : r.IsError = true := by
  unfold getInput at h
  split at h
  · injection h with h; subst h; rfl
  · split at h
    · cases h
    · injection h with h; subst h; rfl

/-- An error of `getOrMakeInput` is an error result. -/
theorem getOrMakeInput_error (env : Env) (view : StoreView) (heap : Heap) (input : TxInput)
    (r : Result) (h : getOrMakeInput env view heap input = Except.error r) :
    r.IsError = true := by
  unfold getOrMakeInput at h
  simp only at h
  split at h
  · cases h
  · injection h with h; subst h; rfl

/-- The source input does not resolve: `process` returns that error, view untouched. -/
theorem process_source_error (env : Env) (chainID : String) (view : StoreView)
    (tx : ServicePaymentTx) (r : Result)
    (hsrc : getInput env view [] tx.Source = Except.error r) :
    process env chainID view tx = Except.ok { hash := 0, res := r, view := view } := by
  simp only [process, hsrc]

/-- The target input does not resolve: `process` returns that error, view untouched. -/
theorem process_target_error (env : Env) (chainID : String) (view : StoreView)
    (tx : ServicePaymentTx) (src : Ptr) (heap1 : Heap) (r : Result)
    (hsrc : getInput env view [] tx.Source = Except.ok (src, heap1))
    (htgt : getOrMakeInput env view heap1 tx.Target = Except.error r) :
    process env chainID view tx = Except.ok { hash := 0, res := r, view := view } := by
  simp only [process, hsrc, htgt]

/-- The split fails: `process` returns "Failed to split payment" with the view that
`splitPayment` left. -/
theorem process_split_failed (env : Env) (chainID : String) (view : StoreView)
    (tx : ServicePaymentTx) (src tgt : Ptr) (heap1 heap2 : Heap)
    (hsrc : getInput env view [] tx.Source = Except.ok (src, heap1))
    (htgt : getOrMakeInput env view heap1 tx.Target = Except.ok (tgt, heap2))
    (hsplit : (processSplit env view tx tgt heap2).success = false) :
    process env chainID view tx
      = Except.ok { hash := 0, res := Result.Error "Failed to split payment",
                    view := (processSplit env view tx tgt heap2).view } := by
  unfold processSplit at hsplit
  simp only [process, hsrc, htgt, hsplit, processSplit, Bool.not_false, if_true]

/-- The fee cannot be charged: `process` returns "failed to charge transaction fee"
with the view as it is after the slash intent, if any, was staged. -/
theorem process_fee_failed (env : Env) (chainID : String) (view : StoreView)
    (tx : ServicePaymentTx) (src tgt : Ptr) (heap1 heap2 : Heap)
    (hsrc : getInput env view [] tx.Source = Except.ok (src, heap1))
    (htgt : getOrMakeInput env view heap1 tx.Target = Except.ok (tgt, heap2))
    (hsplit : (processSplit env view tx tgt heap2).success = true)
    (hfee : (chargeFee (processTransfer env view tx src tgt heap2).heap tgt tx.Fee).1 = false) :
    process env chainID view tx
      = Except.ok { hash := 0, res := Result.Error "failed to charge transaction fee",
                    view := processStaged env view tx src tgt heap2 } := by
  unfold processTransfer processSplit at hfee
  unfold processSplit at hsplit
  simp only [process, hsrc, htgt, hsplit, hfee, processStaged, processTransfer, processSplit,
    Bool.not_true, Bool.not_false, if_true, Bool.false_eq_true, if_false]

/-- The fee is charged: `process` writes the accounts back and returns OK, unless the
write-back loop panics. -/
theorem process_charged (env : Env) (chainID : String) (view : StoreView)
    (tx : ServicePaymentTx) (src tgt : Ptr) (heap1 heap2 : Heap)
    (hsrc : getInput env view [] tx.Source = Except.ok (src, heap1))
    (htgt : getOrMakeInput env view heap1 tx.Target = Except.ok (tgt, heap2))
    (hsplit : (processSplit env view tx tgt heap2).success = true)
    (hfee : (chargeFee (processTransfer env view tx src tgt heap2).heap tgt tx.Fee).1 = true) :
    process env chainID view tx
      = match persistAccounts (env.rangeOrder (processSplit env view tx tgt heap2).coinsMap)
            (processSplit env view tx tgt heap2).accountAddressMap
            (modifyAccount
              (chargeFee (processTransfer env view tx src tgt heap2).heap tgt tx.Fee).2 tgt
              (fun a => { a with Sequence := (a.Sequence + 1) % 2 ^ 64 }))
            ((processStaged env view tx src tgt heap2).SetAccount tx.Source.Address
              (readAccount
                (modifyAccount
                  (chargeFee (processTransfer env view tx src tgt heap2).heap tgt tx.Fee).2 tgt
                  (fun a => { a with Sequence := (a.Sequence + 1) % 2 ^ 64 })) src)) with
        | Except.error msg => Except.error msg
        | Except.ok view3 =>
          Except.ok { hash := env.TxID chainID tx, res := Result.OK, view := view3 } := by
  unfold processTransfer processSplit at hfee
  unfold processSplit at hsplit
  simp only [process, hsrc, htgt, hsplit, hfee, processStaged, processTransfer, processSplit,
    Bool.not_true, Bool.not_false, if_true, Bool.false_eq_true, if_false]

/-- The view `splitPayment` leaves is the view it got, or that view without the rule
of the resource; the second only for an expired rule. -/
theorem splitPayment_view (env : Env) (view : StoreView) (heap : Heap)
    (splitRule : Option SplitRule) (resourceID : String) (targetAddress : Address)
    (targetAccount : Ptr) (fullAmount : Coins) :
    (splitPayment env view heap splitRule resourceID targetAddress targetAccount
        fullAmount).view
      = if (∃ rule, splitRule = some rule ∧ env.stateHeight > rule.EndBlockHeight)
        then (view.DeleteSplitRule resourceID).2 else view := by
  cases splitRule with
  | none => simp [splitPayment_none]
  | some rule =>
    by_cases hexp : env.stateHeight > rule.EndBlockHeight
    · simp [splitPayment_expired _ _ _ _ _ _ _ _ hexp, hexp]
    · simp only [splitPayment, hexp, if_false, Option.some.injEq, exists_eq_left']
      split <;> rfl

/-- The two maps `splitPayment` returns have the same keys. -/
theorem splitPayment_keys (env : Env) (view : StoreView) (heap : Heap)
    (splitRule : Option SplitRule) (resourceID : String) (targetAddress : Address)
    (targetAccount : Ptr) (fullAmount : Coins) (ht : targetAccount < heap.length) :
    mapKeys (splitPayment env view heap splitRule resourceID targetAddress targetAccount
        fullAmount).coinsMap
      = mapKeys (splitPayment env view heap splitRule resourceID targetAddress targetAccount
        fullAmount).accountAddressMap := by
  cases splitRule with
  | none => simp [splitPayment_none, mapKeys]
  | some rule =>
    by_cases hexp : env.stateHeight > rule.EndBlockHeight
    · simp [splitPayment_expired _ _ _ _ _ _ _ _ hexp, mapKeys]
    · exact (splitPayment_valid env view heap rule resourceID targetAddress targetAccount
        fullAmount hexp ht).2.2.2.2

theorem withAccounts_SetAccount (view : StoreView) (addr : Address) (acc : Account)
    (accounts : List (Address × Account)) :
    (view.SetAccount addr acc).withAccounts accounts = view.withAccounts accounts := rfl

theorem withAccounts_self (view : StoreView) : view.withAccounts view.store.accounts = view := rfl

/-- The write-back loop does not panic when every key it visits has an address, and
it changes nothing but stored accounts. -/
theorem persistAccounts_frame (entries : List (Ptr × Coins)) (am : List (Ptr × Address))
    (heap : Heap) (view : StoreView) (h : ∀ e ∈ entries, e.1 ∈ mapKeys am) :
    ∃ v, persistAccounts entries am heap view = Except.ok v ∧
      v = view.withAccounts v.store.accounts := by
  induction entries generalizing view with
  | nil => exact ⟨view, rfl, rfl⟩
  | cons e rest ih =>
    obtain ⟨account, c⟩ := e
    have hmem : account ∈ mapKeys am := h (account, c) (List.mem_cons_self _ _)
    cases hget : mapGet am account with
    | none => exact absurd hmem ((mapGet_eq_none_iff am account).1 hget)
    | some address =>
      obtain ⟨v, hv, hframe⟩ := ih (view.SetAccount address (readAccount heap account))
        (fun e he => h e (List.mem_cons_of_mem _ he))
      refine ⟨v, ?_, ?_⟩
      · simp only [persistAccounts, hget]
        exact hv
      · rw [withAccounts_SetAccount] at hframe
        exact hframe

/-- The view after the slash intent, if any, was staged differs from the view
`splitPayment` left in the staged slash intents only. -/
theorem processStaged_eq (env : Env) (view : StoreView) (tx : ServicePaymentTx)
    (src tgt : Ptr) (heap : Heap) :
    processStaged env view tx src tgt heap
      = { (processSplit env view tx tgt heap).view with
          slashIntents := (processSplit env view tx tgt heap).view.slashIntents ++
            (if (processTransfer env view tx src tgt heap).shouldSlash = true
             then [(processTransfer env view tx src tgt heap).slashIntent] else []) } := by
  unfold processStaged
  split
  · rfl
  · simp

/-- When the fee is charged and the range over the coins map visits exactly its
entries, `process` returns OK with the transaction hash, and the view differs from
the staged view in stored accounts only. -/
theorem process_ok (env : Env) (chainID : String) (view : StoreView)
    (tx : ServicePaymentTx) (src tgt : Ptr) (heap1 heap2 : Heap)
    (hsrc : getInput env view [] tx.Source = Except.ok (src, heap1))
    (htgt : getOrMakeInput env view heap1 tx.Target = Except.ok (tgt, heap2))
    (hsplit : (processSplit env view tx tgt heap2).success = true)
    (hfee : (chargeFee (processTransfer env view tx src tgt heap2).heap tgt tx.Fee).1 = true)
    (hperm : ∀ m, (env.rangeOrder m).Perm m) :
    ∃ v, process env chainID view tx
        = Except.ok { hash := env.TxID chainID tx, res := Result.OK, view := v } ∧
      v = (processStaged env view tx src tgt heap2).withAccounts v.store.accounts := by
  have hkeys := splitPayment_keys env view heap2 (view.GetSplitRule tx.ResourceID) tx.ResourceID
    tx.Target.Address tgt tx.Source.Coins (getOrMakeInput_ptr env view heap1 tx.Target tgt heap2 htgt)
  have hall : ∀ e ∈ env.rangeOrder (processSplit env view tx tgt heap2).coinsMap,
      e.1 ∈ mapKeys (processSplit env view tx tgt heap2).accountAddressMap := by
    intro e he
    have he2 : e ∈ (processSplit env view tx tgt heap2).coinsMap := (hperm _).mem_iff.1 he
    have : e.1 ∈ mapKeys (processSplit env view tx tgt heap2).coinsMap :=
      List.mem_map_of_mem Prod.fst he2
    unfold processSplit at this ⊢
    rw [hkeys] at this
    exact this
  obtain ⟨v, hv, hframe⟩ := persistAccounts_frame _ _
    (modifyAccount
      (chargeFee (processTransfer env view tx src tgt heap2).heap tgt tx.Fee).2 tgt
      (fun a => { a with Sequence := (a.Sequence + 1) % 2 ^ 64 }))
    ((processStaged env view tx src tgt heap2).SetAccount tx.Source.Address
      (readAccount
        (modifyAccount
          (chargeFee (processTransfer env view tx src tgt heap2).heap tgt tx.Fee).2 tgt
          (fun a => { a with Sequence := (a.Sequence + 1) % 2 ^ 64 })) src)) hall
  refine ⟨v, ?_, ?_⟩
  · rw [process_charged env chainID view tx src tgt heap1 heap2 hsrc htgt hsplit hfee, hv]
  · rw [withAccounts_SetAccount] at hframe
    exact hframe

theorem mapGet_mapDelete_self {κ ν : Type} [DecidableEq κ] (m : List (κ × ν)) (k : κ) :
    mapGet (mapDelete m k) k = none := by
  induction m with
  | nil => rfl
  | cons e rest ih =>
    obtain ⟨k1, v1⟩ := e
    by_cases h : k1 = k
    · simp only [mapDelete, h, if_true]; rw [← h] at ih ⊢; exact ih
    · simp only [mapDelete, h, if_false, mapGet]; exact ih

/-- The view `splitPayment` leaves, by whether it treats the rule as expired. -/
theorem splitPayment_view_eq (env : Env) (view : StoreView) (heap : Heap)
    (splitRule : Option SplitRule) (resourceID : String) (targetAddress : Address)
    (targetAccount : Ptr) (fullAmount : Coins) :
    (splitPayment env view heap splitRule resourceID targetAddress targetAccount
        fullAmount).view
      = if expiredRule env splitRule = true then (view.DeleteSplitRule resourceID).2
        else view := by
  rw [splitPayment_view]
  cases splitRule with
  | none => simp [expiredRule]
  | some rule => simp [expiredRule]

/-! ## Claims about `process` -/

/-- C9: when `TransferReservedFund` reports `shouldSlash` and the target can pay the
fee, `process` returns OK with the transaction hash, not an error, and the staged slash
intents of the view afterwards are the ones staged before followed by exactly the
slash intent `TransferReservedFund` returned.  The range over the coins map visits
exactly its entries, in any order. -/
theorem process_slash_is_ok (env : Env) (chainID : String) (view : StoreView)
    (tx : ServicePaymentTx) (src tgt : Ptr) (heap1 heap2 : Heap)
    (hsrc : getInput env view [] tx.Source = Except.ok (src, heap1))
    (htgt : getOrMakeInput env view heap1 tx.Target = Except.ok (tgt, heap2))
    (hsplit : (processSplit env view tx tgt heap2).success = true)
    (hslash : (processTransfer env view tx src tgt heap2).shouldSlash = true)
    (hfee : (chargeFee (processTransfer env view tx src tgt heap2).heap tgt tx.Fee).1 = true)
    (hperm : ∀ m, (env.rangeOrder m).Perm m) :
    ∃ v, process env chainID view tx
        = Except.ok { hash := env.TxID chainID tx, res := Result.OK, view := v } ∧
      v.GetSlashIntents
        = view.GetSlashIntents ++ [(processTransfer env view tx src tgt heap2).slashIntent] := by
  obtain ⟨v, hv, hframe⟩ :=
    process_ok env chainID view tx src tgt heap1 heap2 hsrc htgt hsplit hfee hperm
  refine ⟨v, hv, ?_⟩
  have h1 : v.slashIntents = (processStaged env view tx src tgt heap2).slashIntents := by
    rw [hframe]; rfl
  have h2 : (processSplit env view tx tgt heap2).view.slashIntents = view.slashIntents := by
    unfold processSplit
    rw [splitPayment_view_eq]
    split <;> rfl
  simp only [StoreView.GetSlashIntents]
  rw [h1, processStaged_eq, hslash]
  simp only [if_true, h2]

/-- C9, at a concrete input: scenario S4, a second payment of 300 under the payment
sequence that already paid 200. -/
theorem process_slash_is_ok_witness :
    ∃ v, process (envAt 150) "chain" (viewAfterS1 3199 []) (paymentOf 300)
        = Except.ok { hash := 1001, res := Result.OK, view := v } ∧
      v.GetSlashIntents = [] ++ [slashOfS4] :=
  process_slash_is_ok (envAt 150) "chain" (viewAfterS1 3199 []) (paymentOf 300) 0 1
    [aliceAfterS1] [aliceAfterS1, plainAccount 3199] rfl rfl (by decide) (by decide)
    (by decide) (fun m => List.Perm.refl m)

/-- C8: when `process` returns before `TransferReservedFund` is called (the source
input does not resolve, the target input does not resolve, or the split fails), it
returns an error and the view is exactly the view before the call. -/
theorem process_early_error_keeps_view (env : Env) (chainID : String) (view : StoreView)
    (tx : ServicePaymentTx)
    (h : (∃ r, getInput env view [] tx.Source = Except.error r) ∨
      (∃ src heap1 r, getInput env view [] tx.Source = Except.ok (src, heap1) ∧
        getOrMakeInput env view heap1 tx.Target = Except.error r) ∨
      (∃ src heap1 tgt heap2, getInput env view [] tx.Source = Except.ok (src, heap1) ∧
        getOrMakeInput env view heap1 tx.Target = Except.ok (tgt, heap2) ∧
        (processSplit env view tx tgt heap2).success = false)) :
    ∃ o, process env chainID view tx = Except.ok o ∧ o.res.IsError = true ∧ o.view = view := by
  rcases h with ⟨r, hsrc⟩ | ⟨src, heap1, r, hsrc, htgt⟩ | ⟨src, heap1, tgt, heap2, hsrc, htgt, hf⟩
  · exact ⟨_, process_source_error env chainID view tx r hsrc,
      getInput_error env view [] tx.Source r hsrc, rfl⟩
  · exact ⟨_, process_target_error env chainID view tx src heap1 r hsrc htgt,
      getOrMakeInput_error env view heap1 tx.Target r htgt, rfl⟩
  · refine ⟨_, process_split_failed env chainID view tx src tgt heap1 heap2 hsrc htgt hf, rfl, ?_⟩
    show (processSplit env view tx tgt heap2).view = view
    unfold processSplit at hf ⊢
    rw [splitPayment_view_eq]
    cases hrule : view.GetSplitRule tx.ResourceID with
    | none => simp [expiredRule]
    | some rule =>
      by_cases hexp : env.stateHeight > rule.EndBlockHeight
      · rw [hrule, splitPayment_expired _ _ _ _ _ _ _ _ hexp] at hf
        cases hf
      · simp [expiredRule, hexp]

/-- C8, at a concrete input: a 60/60 rule makes the split of 100 gamma fail. -/
theorem process_early_error_keeps_view_witness :
    ∃ o, process (envAt 150) "chain"
        (viewOf 3000 [("rid001", ruleOf [⟨carolAddr, 60⟩, ⟨aliceAddr, 60⟩])]) (paymentOf 100)
        = Except.ok o ∧ o.res.IsError = true ∧
      o.view = viewOf 3000 [("rid001", ruleOf [⟨carolAddr, 60⟩, ⟨aliceAddr, 60⟩])] :=
  process_early_error_keeps_view (envAt 150) "chain"
    (viewOf 3000 [("rid001", ruleOf [⟨carolAddr, 60⟩, ⟨aliceAddr, 60⟩])]) (paymentOf 100)
    (Or.inr (Or.inr ⟨0, [alice], 1, [alice, plainAccount 3000], rfl, rfl, by decide⟩))

/-- C7 as stated fails: a fee-charge failure does not leave the view as it was.  At
height 250 the expired rule of "rid001" has been deleted although `process` returns
the fee error; and in scenario S4 with a Bob who owns nothing, the slash intent stays
staged although `process` returns the fee error. -/
theorem process_fee_failure_changes_view :
    (process (envAt 250) "chain" (viewOf 3000 [("rid001", ruleOf [⟨carolAddr, 60⟩])])
        { paymentOf 100 with Fee := Coins.NewCoins 0 5000 }
      = Except.ok { hash := 0, res := Result.Error "failed to charge transaction fee",
                    view := viewOf 3000 [] } ∧
      viewOf 3000 [] ≠ viewOf 3000 [("rid001", ruleOf [⟨carolAddr, 60⟩])]) ∧
    (process (envAt 150) "chain" (viewAfterS1 0 []) (paymentOf 300)
      = Except.ok { hash := 0, res := Result.Error "failed to charge transaction fee",
                    view := (viewAfterS1 0 []).AddSlashIntent slashOfS4 } ∧
      (viewAfterS1 0 []).AddSlashIntent slashOfS4 ≠ viewAfterS1 0 []) :=
  ⟨⟨rfl, by decide⟩, ⟨rfl, by decide⟩⟩

/-- C7, amended: when `process` reaches the fee charge and the target account cannot
pay the fee (its balance, after the transfer step, does not cover `tx.Fee`), `process`
returns the error "failed to charge transaction fee" and leaves the stored accounts
(the source's reserved pool included), the stored code, the height and the other
staging fields as they were; the stored split rules are as before except that an
expired rule of the resource has been deleted, and the staged slash intents are the
ones staged before followed by the slash intent of `TransferReservedFund` when it
asked for a slash. -/
theorem process_fee_failure (env : Env) (chainID : String) (view : StoreView)
    (tx : ServicePaymentTx) (src tgt : Ptr) (heap1 heap2 : Heap)
    (hsrc : getInput env view [] tx.Source = Except.ok (src, heap1))
    (htgt : getOrMakeInput env view heap1 tx.Target = Except.ok (tgt, heap2))
    (hsplit : (processSplit env view tx tgt heap2).success = true)
    (hfee : (readAccount (processTransfer env view tx src tgt heap2).heap tgt).Balance.IsGTE
      tx.Fee = false) :
    process env chainID view tx
      = Except.ok
          { hash := 0, res := Result.Error "failed to charge transaction fee",
            view :=
              { view with
                store :=
                  { view.store with
                    splitRules :=
                      if expiredRule env (view.GetSplitRule tx.ResourceID) = true
                      then mapDelete view.store.splitRules tx.ResourceID
                      else view.store.splitRules },
                slashIntents := view.slashIntents ++
                  (if (processTransfer env view tx src tgt heap2).shouldSlash = true
                   then [(processTransfer env view tx src tgt heap2).slashIntent]
                   else []) } } := by
  have hcharge : (chargeFee (processTransfer env view tx src tgt heap2).heap tgt tx.Fee).1
      = false := by
    simp only [chargeFee, hfee, Bool.false_eq_true, if_false]
  rw [process_fee_failed env chainID view tx src tgt heap1 heap2 hsrc htgt hsplit hcharge,
    processStaged_eq]
  have hview : (processSplit env view tx tgt heap2).view
      = if expiredRule env (view.GetSplitRule tx.ResourceID) = true
        then (view.DeleteSplitRule tx.ResourceID).2 else view := by
    unfold processSplit
    exact splitPayment_view_eq _ _ _ _ _ _ _ _
  rw [hview]
  split <;> rfl

/-- C7 amended, at a concrete input: scenario S6 at height 250 with the double spend of
S4: Bob owns nothing, the expired rule goes and the slash intent stays. -/
theorem process_fee_failure_witness :
    process (envAt 250) "chain" (viewAfterS1 0 [("rid001", ruleOf [⟨carolAddr, 60⟩])])
        (paymentOf 300)
      = Except.ok { hash := 0, res := Result.Error "failed to charge transaction fee",
                    view := (viewAfterS1 0 []).AddSlashIntent slashOfS4 } :=
  (process_fee_failure (envAt 250) "chain"
    (viewAfterS1 0 [("rid001", ruleOf [⟨carolAddr, 60⟩])]) (paymentOf 300) 0 1
    [aliceAfterS1] [aliceAfterS1, plainAccount 0] rfl rfl (by decide) (by decide)).trans rfl

/-- C4: (1) after `splitPayment` on a rule it treats as expired (the height
`exec.state.Height()` of the executor's state is above the rule's end height),
`GetSplitRule(resourceID)` on the view returns no rule; (2) when the rule is absent or
not expired, `splitPayment` leaves the view, and so the stored split rules, unchanged;
(3) for every service payment that `process` takes to `splitPayment` (its source and
target inputs resolve) at a height above the end height of the rule stored for
`tx.ResourceID`, `process` returns and `GetSplitRule(tx.ResourceID)` on the view
afterwards returns no rule, whether the payment then succeeds or fails on the fee. -/
theorem expired_rule_is_deleted (env : Env) (view : StoreView) :
    (∀ (heap : Heap) (rule : SplitRule) (resourceID : String) (targetAddress : Address)
        (targetAccount : Ptr) (fullAmount : Coins),
        env.stateHeight > rule.EndBlockHeight →
        (splitPayment env view heap (some rule) resourceID targetAddress targetAccount
          fullAmount).view.GetSplitRule resourceID = none) ∧
    (∀ (heap : Heap) (splitRule : Option SplitRule) (resourceID : String)
        (targetAddress : Address) (targetAccount : Ptr) (fullAmount : Coins),
        (∀ rule, splitRule = some rule → ¬ env.stateHeight > rule.EndBlockHeight) →
        (splitPayment env view heap splitRule resourceID targetAddress targetAccount
          fullAmount).view = view) ∧
    (∀ (chainID : String) (tx : ServicePaymentTx) (rule : SplitRule) (src tgt : Ptr)
        (heap1 heap2 : Heap),
        getInput env view [] tx.Source = Except.ok (src, heap1) →
        getOrMakeInput env view heap1 tx.Target = Except.ok (tgt, heap2) →
        view.GetSplitRule tx.ResourceID = some rule →
        env.stateHeight > rule.EndBlockHeight →
        (∀ m, (env.rangeOrder m).Perm m) →
        ∃ o, process env chainID view tx = Except.ok o ∧
          o.view.GetSplitRule tx.ResourceID = none) := by
  have hdel : ∀ resourceID, (view.DeleteSplitRule resourceID).2.GetSplitRule resourceID = none :=
    fun resourceID => mapGet_mapDelete_self view.store.splitRules resourceID
  refine ⟨?_, ?_, ?_⟩
  · intro heap rule resourceID targetAddress targetAccount fullAmount hexp
    rw [splitPayment_expired _ _ _ _ _ _ _ _ hexp]
    exact hdel resourceID
  · intro heap splitRule resourceID targetAddress targetAccount fullAmount hno
    rw [splitPayment_view_eq]
    cases splitRule with
    | none => simp [expiredRule]
    | some rule => simp [expiredRule, hno rule rfl]
  · intro chainID tx rule src tgt heap1 heap2 hsrc htgt hrule hexp hperm
    have hsp : processSplit env view tx tgt heap2
        = { success := true, coinsMap := [(tgt, tx.Source.Coins)],
            accountAddressMap := [(tgt, tx.Target.Address)],
            view := (view.DeleteSplitRule tx.ResourceID).2, heap := heap2 } := by
      unfold processSplit
      rw [hrule, splitPayment_expired _ _ _ _ _ _ _ _ hexp]
    have hsplit : (processSplit env view tx tgt heap2).success = true := by rw [hsp]
    have hstaged : (processStaged env view tx src tgt heap2).GetSplitRule tx.ResourceID
        = none := by
      rw [processStaged_eq, hsp]
      exact hdel tx.ResourceID
    cases hfee : (chargeFee (processTransfer env view tx src tgt heap2).heap tgt tx.Fee).1 with
    | false =>
      exact ⟨_, process_fee_failed env chainID view tx src tgt heap1 heap2 hsrc htgt hsplit hfee,
        hstaged⟩
    | true =>
      obtain ⟨v, hv, hframe⟩ :=
        process_ok env chainID view tx src tgt heap1 heap2 hsrc htgt hsplit hfee hperm
      refine ⟨_, hv, ?_⟩
      show v.GetSplitRule tx.ResourceID = none
      rw [hframe]
      exact hstaged

/-- C4 at a concrete input: scenario S3, the payment of 100 at height 250. -/
theorem expired_rule_is_deleted_witness :
    ∃ o, process (envAt 250) "chain" (viewOf 3000 [("rid001", ruleOf [⟨carolAddr, 60⟩])])
        (paymentOf 100) = Except.ok o ∧
      o.view.GetSplitRule (paymentOf 100).ResourceID = none :=
  (expired_rule_is_deleted (envAt 250)
    (viewOf 3000 [("rid001", ruleOf [⟨carolAddr, 60⟩])])).2.2 "chain" (paymentOf 100)
    (ruleOf [⟨carolAddr, 60⟩]) 0 1 [alice] [alice, plainAccount 3000] rfl rfl (by decide)
    (by decide) (fun m => List.Perm.refl m)

/-! ## Over-allocation -/

/-- Integer division by 100 loses less than one unit per entry: a lower bound on the
gamma amounts the valid entries get. -/
theorem gamma_shares_lower (fullAmount : Coins) (l : List Split) :
    fullAmount.GammaWei * ((l.map (fun s => s.Percentage)).sum : Nat)
      ≤ 100 * (sumCoins (l.map (fun s => fullAmount.CalculatePercentage s.Percentage))).GammaWei
        + 99 * (l.length : Int) := by
  induction l with
  | nil => simp [sumCoins_nil]
  | cons s rest ih =>
    simp only [List.map_cons, List.sum_cons, sumCoins_cons, Coins.Plus_GammaWei,
      List.length_cons, Nat.cast_add, Nat.cast_one]
    have hdiv : fullAmount.GammaWei * (s.Percentage : Int)
        ≤ 100 * (fullAmount.CalculatePercentage s.Percentage).GammaWei + 99 := by
      show fullAmount.GammaWei * (s.Percentage : Int)
        ≤ 100 * (fullAmount.GammaWei * (s.Percentage : Int) / 100) + 99
      generalize fullAmount.GammaWei * (s.Percentage : Int) = y
      omega
    linarith

/-- The same bound for the theta amounts. -/
theorem theta_shares_lower (fullAmount : Coins) (l : List Split) :
    fullAmount.ThetaWei * ((l.map (fun s => s.Percentage)).sum : Nat)
      ≤ 100 * (sumCoins (l.map (fun s => fullAmount.CalculatePercentage s.Percentage))).ThetaWei
        + 99 * (l.length : Int) := by
  induction l with
  | nil => simp [sumCoins_nil]
  | cons s rest ih =>
    simp only [List.map_cons, List.sum_cons, sumCoins_cons, Coins.Plus_ThetaWei,
      List.length_cons, Nat.cast_add, Nat.cast_one]
    have hdiv : fullAmount.ThetaWei * (s.Percentage : Int)
        ≤ 100 * (fullAmount.CalculatePercentage s.Percentage).ThetaWei + 99 := by
      show fullAmount.ThetaWei * (s.Percentage : Int)
        ≤ 100 * (fullAmount.ThetaWei * (s.Percentage : Int) / 100) + 99
      generalize fullAmount.ThetaWei * (s.Percentage : Int) = y
      omega
    linarith

/-- With valid percentages that sum to more than 100 and a component of the full
amount above 99 times the number of valid entries, the remainder is negative. -/
theorem remainderOf_negative (fullAmount : Coins) (splits : List Split)
    (hsum : 100 < percentSum splits)
    (hbig : 99 * ((validSplits splits).length : Int) < fullAmount.GammaWei ∨
      99 * ((validSplits splits).length : Int) < fullAmount.ThetaWei) :
    (remainderOf fullAmount splits).IsNonnegative = false := by
  have hs : (101 : Int) ≤ ((percentSum splits : Nat) : Int) := by exact_mod_cast hsum
  have hlen : (0 : Int) ≤ ((validSplits splits).length : Int) := Int.natCast_nonneg _
  unfold percentSum at hs
  simp only [Coins.IsNonnegative, remainderOf, Coins.Minus_ThetaWei, Coins.Minus_GammaWei,
    Bool.and_eq_false_iff, decide_eq_false_iff_not, not_le]
  rcases hbig with hb | hb
  · right
    have h1 := gamma_shares_lower fullAmount (validSplits splits)
    have h2 : fullAmount.GammaWei * 101
        ≤ fullAmount.GammaWei * (((validSplits splits).map (fun s => s.Percentage)).sum : Nat) :=
      mul_le_mul_of_nonneg_left hs (by linarith)
    linarith
  · left
    have h1 := theta_shares_lower fullAmount (validSplits splits)
    have h2 : fullAmount.ThetaWei * 101
        ≤ fullAmount.ThetaWei * (((validSplits splits).map (fun s => s.Percentage)).sum : Nat) :=
      mul_le_mul_of_nonneg_left hs (by linarith)
    linarith

/-- C5 as stated fails: the valid percentages 60 and 60 sum to 120, the rule has not
expired, and the payment of 1 gamma is split successfully (both shares round down to
0 and the target keeps 1): `process` returns OK. -/
theorem process_overallocated_rule_succeeds :
    100 < percentSum (ruleOf [⟨carolAddr, 60⟩, ⟨daveAddr, 60⟩]).Splits ∧
    ¬ (envAt 150).stateHeight > (ruleOf [⟨carolAddr, 60⟩, ⟨daveAddr, 60⟩]).EndBlockHeight ∧
    (splitPayment (envAt 150)
      (viewOf 3000 [("rid001", ruleOf [⟨carolAddr, 60⟩, ⟨daveAddr, 60⟩])]) (heapOf 3000)
      (some (ruleOf [⟨carolAddr, 60⟩, ⟨daveAddr, 60⟩])) "rid001" bobAddr 1
      (paymentOf 1).Source.Coins).success = true ∧
    ∃ v, process (envAt 150) "chain"
        (viewOf 3000 [("rid001", ruleOf [⟨carolAddr, 60⟩, ⟨daveAddr, 60⟩])]) (paymentOf 1)
      = Except.ok { hash := 1001, res := Result.OK, view := v } :=
  ⟨by decide, by decide, by decide, ⟨_, rfl⟩⟩

/-- C5, amended: for a payment whose inputs resolve and whose rule has not expired,
(1) `splitPayment` reports failure exactly when the full amount minus the
integer-divided amounts of the valid entries is negative in some component; (2) when
it reports failure, `process` returns the error "Failed to split payment" and leaves
the view as it was; (3) it does report failure when the valid percentages sum to more
than 100 and a component of the full amount is above 99 times the number of valid
entries. -/
theorem process_overallocation_fails (env : Env) (chainID : String) (view : StoreView)
    (tx : ServicePaymentTx) (rule : SplitRule) (src tgt : Ptr) (heap1 heap2 : Heap)
    (hsrc : getInput env view [] tx.Source = Except.ok (src, heap1))
    (htgt : getOrMakeInput env view heap1 tx.Target = Except.ok (tgt, heap2))
    (hrule : view.GetSplitRule tx.ResourceID = some rule)
    (hexp : ¬ env.stateHeight > rule.EndBlockHeight) :
    ((splitPayment env view heap2 (some rule) tx.ResourceID tx.Target.Address tgt
        tx.Source.Coins).success = false ↔
      (remainderOf tx.Source.Coins rule.Splits).IsNonnegative = false) ∧
    ((splitPayment env view heap2 (some rule) tx.ResourceID tx.Target.Address tgt
        tx.Source.Coins).success = false →
      process env chainID view tx
        = Except.ok
            { hash := 0, res := Result.Error "Failed to split payment", view := view }) ∧
    (100 < percentSum rule.Splits →
      (99 * ((validSplits rule.Splits).length : Int) < tx.Source.Coins.GammaWei ∨
        99 * ((validSplits rule.Splits).length : Int) < tx.Source.Coins.ThetaWei) →
      (splitPayment env view heap2 (some rule) tx.ResourceID tx.Target.Address tgt
        tx.Source.Coins).success = false) := by
  have ht := getOrMakeInput_ptr env view heap1 tx.Target tgt heap2 htgt
  obtain ⟨hview, -, hsucc, -, -⟩ :=
    splitPayment_valid env view heap2 rule tx.ResourceID tx.Target.Address tgt tx.Source.Coins
      hexp ht
  have hps : processSplit env view tx tgt heap2
      = splitPayment env view heap2 (some rule) tx.ResourceID tx.Target.Address tgt
          tx.Source.Coins := by
    unfold processSplit
    rw [hrule]
  refine ⟨by rw [hsucc], ?_, ?_⟩
  · intro hfalse
    rw [process_split_failed env chainID view tx src tgt heap1 heap2 hsrc htgt (hps ▸ hfalse),
      hps, hview]
  · intro hsum hbig
    rw [hsucc]
    exact remainderOf_negative tx.Source.Coins rule.Splits hsum hbig

/-- C5 amended, at a concrete input: the 60/60 rule and a payment of 199 gamma, just
above 99 times the two entries. -/
theorem process_overallocation_fails_witness :
    process (envAt 150) "chain"
        (viewOf 3000 [("rid001", ruleOf [⟨carolAddr, 60⟩, ⟨daveAddr, 60⟩])]) (paymentOf 199)
      = Except.ok
          { hash := 0, res := Result.Error "Failed to split payment",
            view := viewOf 3000 [("rid001", ruleOf [⟨carolAddr, 60⟩, ⟨daveAddr, 60⟩])] } :=
  (process_overallocation_fails (envAt 150) "chain"
    (viewOf 3000 [("rid001", ruleOf [⟨carolAddr, 60⟩, ⟨daveAddr, 60⟩])]) (paymentOf 199)
    (ruleOf [⟨carolAddr, 60⟩, ⟨daveAddr, 60⟩]) 0 1 [alice] [alice, plainAccount 3000]
    rfl rfl (by decide) (by decide)).2.1
    ((process_overallocation_fails (envAt 150) "chain"
      (viewOf 3000 [("rid001", ruleOf [⟨carolAddr, 60⟩, ⟨daveAddr, 60⟩])]) (paymentOf 199)
      (ruleOf [⟨carolAddr, 60⟩, ⟨daveAddr, 60⟩]) 0 1 [alice] [alice, plainAccount 3000]
      rfl rfl (by decide) (by decide)).2.2 (by decide) (Or.inl (by decide)))

/-! ## Balance conservation -/

/-- C10 at a failing input: the rule of "rid001" names Carol twice with 30 percent
each, and Bob settles a payment of 100 gamma with fee 1.  `process` succeeds without
slash and the pool fund drops by 100 (1000 to 900), but the stored balances grow by
69 in total and not by 100 - 1 = 99: Bob gets 40 - 1 and Carol gets 30 once.  The two
entries of Carol are two objects decoded from the same stored account, each credited
30, and both are written to Carol's address, so that one credit overwrites the other;
the order of the range over the coins map does not matter (insertion order and its
reverse give the same view). -/
theorem process_repeated_split_address_loses_coins :
    (totalBalance (viewOf 3000 [("rid001", ruleOf [⟨carolAddr, 30⟩, ⟨carolAddr, 30⟩])])).GammaWei
      = 14998 ∧
    poolFunds (viewOf 3000 [("rid001", ruleOf [⟨carolAddr, 30⟩, ⟨carolAddr, 30⟩])]) aliceAddr
      = [1000] ∧
    (∃ o, process (envAt 150) "chain"
        (viewOf 3000 [("rid001", ruleOf [⟨carolAddr, 30⟩, ⟨carolAddr, 30⟩])]) (paymentOf 100)
        = Except.ok o ∧
      o.res = Result.OK ∧ o.view.slashIntents = [] ∧
      gammaBalances o.view = [(aliceAddr, 8998), (bobAddr, 3039), (carolAddr, 3030)] ∧
      poolFunds o.view aliceAddr = [900] ∧
      (totalBalance o.view).GammaWei = 14998 + 69) ∧
    (∃ o, process (envWith 150 List.reverse) "chain"
        (viewOf 3000 [("rid001", ruleOf [⟨carolAddr, 30⟩, ⟨carolAddr, 30⟩])]) (paymentOf 100)
        = Except.ok o ∧
      o.res = Result.OK ∧ o.view.slashIntents = [] ∧
      gammaBalances o.view = [(aliceAddr, 8998), (bobAddr, 3039), (carolAddr, 3030)] ∧
      poolFunds o.view aliceAddr = [900] ∧
      (totalBalance o.view).GammaWei = 14998 + 69) :=
  ⟨by decide, by decide,
   ⟨_, rfl, by decide, by decide, by decide, by decide, by decide⟩,
   ⟨_, rfl, by decide, by decide, by decide, by decide, by decide⟩⟩

/-! ## `sanityCheck` -/

theorem Result.isOK_of_isError (r : Result) (h : r.IsError = true) : r.IsOK = false := by
  simp only [Result.IsError, Result.IsOK, decide_eq_true_eq, decide_eq_false_iff_not] at h ⊢
  exact h

theorem Result.isError_of_not_isOK (r : Result) (h : r.IsOK = false) : r.IsError = true := by
  simp only [Result.IsError, Result.IsOK, decide_eq_true_eq, decide_eq_false_iff_not] at h ⊢
  exact h

/-- What `getInput` returns when it succeeds: a new object holding the stored account
of the input's address, with the input's public key filled in. -/
theorem getInput_ok (env : Env) (view : StoreView) (heap : Heap) (input : TxInput) (p : Ptr)
    (heap1 : Heap) (h : getInput env view heap input = Except.ok (p, heap1)) :
    ∃ acc, view.GetAccount input.Address = some acc ∧ p = heap.length ∧
      heap1 = heap ++ [withInputPubKey acc input] := by
  unfold getInput at h
  split at h
  · cases h
  · rename_i acc hacc
    split at h
    · simp only [allocAccount, Except.ok.injEq, Prod.mk.injEq] at h
      exact ⟨acc, hacc, h.1.symm, h.2.symm⟩
    · cases h

/-- What `getOrMakeInput` returns when it succeeds: a new object holding the stored
account of the input's address, or a new account, with the input's public key filled
in. -/
theorem getOrMakeInput_ok (env : Env) (view : StoreView) (heap : Heap) (input : TxInput)
    (p : Ptr) (heap1 : Heap) (h : getOrMakeInput env view heap input = Except.ok (p, heap1)) :
    p = heap.length ∧
      heap1 = heap ++ [withInputPubKey (view.GetOrCreateAccount input.Address) input] := by
  unfold getOrMakeInput at h
  simp only [allocAccount] at h
  split at h
  · simp only [Except.ok.injEq, Prod.mk.injEq] at h
    exact ⟨h.1.symm, h.2.symm⟩
  · cases h

theorem withInputPubKey_Sequence (acc : Account) (input : TxInput) :
    (withInputPubKey acc input).Sequence = acc.Sequence := by
  unfold withInputPubKey
  split <;> rfl

theorem withInputPubKey_Balance (acc : Account) (input : TxInput) :
    (withInputPubKey acc input).Balance = acc.Balance := by
  unfold withInputPubKey
  split <;> rfl

/-- The two account objects of `sanityCheck` and of `process` once both inputs are
resolved in an empty heap: the source at pointer 0 and the target at pointer 1. -/
theorem resolved_inputs (env : Env) (view : StoreView) (tx : ServicePaymentTx)
    (src tgt : Ptr) (heap1 heap2 : Heap)
    (hsrc : getInput env view [] tx.Source = Except.ok (src, heap1))
    (htgt : getOrMakeInput env view heap1 tx.Target = Except.ok (tgt, heap2)) :
    ∃ acc, view.GetAccount tx.Source.Address = some acc ∧ src = 0 ∧ tgt = 1 ∧
      heap2 = [withInputPubKey acc tx.Source,
        withInputPubKey (view.GetOrCreateAccount tx.Target.Address) tx.Target] := by
  obtain ⟨acc, hacc, hp, hh⟩ := getInput_ok env view [] tx.Source src heap1 hsrc
  obtain ⟨hq, hh2⟩ := getOrMakeInput_ok env view heap1 tx.Target tgt heap2 htgt
  subst hh
  exact ⟨acc, hacc, hp, hq, hh2⟩

/-- The checks of `sanityCheck` that every accepted transaction has passed, on the
account objects of the two inputs. -/
theorem sanityCheck_ok_path (env : Env) (chainID : String) (view : StoreView)
    (tx : ServicePaymentTx) (h : (sanityCheck env chainID view tx).res.IsOK = true) :
    (env.ValidateBasic tx.Source).IsError = false ∧
    (env.ValidateBasic tx.Target).IsError = false ∧
    ∃ src heap1 tgt heap2,
      getInput env view [] tx.Source = Except.ok (src, heap1) ∧
      getOrMakeInput env view heap1 tx.Target = Except.ok (tgt, heap2) ∧
      tx.Source.Coins.ThetaWei = 0 ∧
      env.VerifySignature (readAccount heap2 src).PubKey (env.SourceSignBytes chainID tx)
        tx.Source.Signature = true ∧
      ((readAccount heap2 tgt).Sequence + 1) % 2 ^ 64 = tx.Target.Sequence ∧
      env.VerifySignature (readAccount heap2 tgt).PubKey (env.TargetSignBytes chainID tx)
        tx.Target.Signature = true ∧
      sanityCheckForFee env tx.Fee = true ∧
      env.CheckTransferReservedFund (readAccount heap2 src) (readAccount heap2 tgt)
        tx.Source.Coins tx.PaymentSequence view.Height tx.ReserveSequence = none ∧
      (sanityCheck env chainID view tx).res = Result.OK := by
  have hres : (sanityCheck env chainID view tx).res = (sanityCheck env chainID view tx).res :=
    rfl
  revert hres
  generalize hr : (sanityCheck env chainID view tx).res = r at h ⊢
  intro _
  simp only [sanityCheck] at hr
  split at hr
  · rename_i hv
    subst hr
    rw [Result.isOK_of_isError _ hv] at h
    cases h
  · rename_i hv1
    split at hr
    · rename_i hv
      subst hr
      rw [Result.isOK_of_isError _ hv] at h
      cases h
    · rename_i hv2
      split at hr
      · rename_i res hsrc
        subst hr
        rw [Result.isOK_of_isError _ (getInput_error env view [] tx.Source res hsrc)] at h
        cases h
      · rename_i src heap1 hsrc
        split at hr
        · rename_i res htgt
          subst hr
          rw [Result.isOK_of_isError _
            (getOrMakeInput_error env view heap1 tx.Target res htgt)] at h
          cases h
        · rename_i tgt heap2 htgt
          split at hr
          · subst hr; cases h
          · rename_i htheta
            split at hr
            · subst hr; cases h
            · rename_i hsig1
              split at hr
              · subst hr; cases h
              · rename_i hseq
                split at hr
                · subst hr; cases h
                · rename_i hsig2
                  split at hr
                  · subst hr; cases h
                  · rename_i hfee
                    split at hr
                    · subst hr; cases h
                    · rename_i hctrf
                      refine ⟨by simpa using hv1, by simpa using hv2, src, heap1, tgt, heap2,
                        hsrc, htgt, by simpa using htheta, by simpa using hsig1,
                        by simpa using hseq, by simpa using hsig2, by simpa using hfee,
                        hctrf, hr.symm⟩

/-- C13: if `sanityCheck` returns OK, then the source account exists in the view, the
theta component of `tx.Source.Coins` is zero, `tx.Target.Sequence` is the sequence of
the target account (the stored one, or a new one with sequence 0) plus one in uint64
arithmetic, the source and the target signature verify against the keys of the two
accounts (the input's key where the account has none), the fee passes the
minimum-fee check, and `CheckTransferReservedFund` of the source account returns no
error. -/
theorem sanityCheck_ok_conditions (env : Env) (chainID : String) (view : StoreView)
    (tx : ServicePaymentTx) (h : (sanityCheck env chainID view tx).res.IsOK = true) :
    ∃ sourceAccount, view.GetAccount tx.Source.Address = some sourceAccount ∧
      tx.Source.Coins.ThetaWei = 0 ∧
      ((view.GetOrCreateAccount tx.Target.Address).Sequence + 1) % 2 ^ 64
        = tx.Target.Sequence ∧
      env.VerifySignature (withInputPubKey sourceAccount tx.Source).PubKey
        (env.SourceSignBytes chainID tx) tx.Source.Signature = true ∧
      env.VerifySignature
        (withInputPubKey (view.GetOrCreateAccount tx.Target.Address) tx.Target).PubKey
        (env.TargetSignBytes chainID tx) tx.Target.Signature = true ∧
      sanityCheckForFee env tx.Fee = true ∧
      (env.MinimumTransactionFeeGammaWei : Int) ≤ tx.Fee.GammaWei ∧
      env.CheckTransferReservedFund (withInputPubKey sourceAccount tx.Source)
        (withInputPubKey (view.GetOrCreateAccount tx.Target.Address) tx.Target)
        tx.Source.Coins tx.PaymentSequence view.Height tx.ReserveSequence = none := by
  obtain ⟨-, -, src, heap1, tgt, heap2, hsrc, htgt, htheta, hsig1, hseq, hsig2, hfee, hctrf, -⟩ :=
    sanityCheck_ok_path env chainID view tx h
  obtain ⟨acc, hacc, hp, hq, hheap⟩ := resolved_inputs env view tx src tgt heap1 heap2 hsrc htgt
  subst hp hq hheap
  have r0 : readAccount [withInputPubKey acc tx.Source,
      withInputPubKey (view.GetOrCreateAccount tx.Target.Address) tx.Target] 0
      = withInputPubKey acc tx.Source := rfl
  have r1 : readAccount [withInputPubKey acc tx.Source,
      withInputPubKey (view.GetOrCreateAccount tx.Target.Address) tx.Target] 1
      = withInputPubKey (view.GetOrCreateAccount tx.Target.Address) tx.Target := rfl
  rw [r0] at hsig1 hctrf
  rw [r1] at hseq hsig2 hctrf
  rw [withInputPubKey_Sequence] at hseq
  refine ⟨acc, hacc, htheta, hseq, hsig1, hsig2, hfee, ?_, hctrf⟩
  simp only [sanityCheckForFee, Bool.and_eq_true, decide_eq_true_eq] at hfee
  exact hfee.2

/-- C13, at a concrete input: the payment of 200 of scenario S1 is accepted. -/
theorem sanityCheck_ok_conditions_witness :
    (sanityCheck (envAt 150) "chain" (viewOf 3000 []) (paymentOf 200)).res.IsOK = true ∧
    ∃ sourceAccount, (viewOf 3000 []).GetAccount (paymentOf 200).Source.Address
        = some sourceAccount ∧
      (paymentOf 200).Source.Coins.ThetaWei = 0 ∧
      (((viewOf 3000 []).GetOrCreateAccount (paymentOf 200).Target.Address).Sequence + 1)
        % 2 ^ 64 = (paymentOf 200).Target.Sequence :=
  ⟨by decide,
   (sanityCheck_ok_conditions (envAt 150) "chain" (viewOf 3000 []) (paymentOf 200)
      (by decide)).imp (fun _ hc => ⟨hc.1, hc.2.1, hc.2.2.1⟩)⟩

/-- C15: `sanityCheck` leaves the view exactly as it was, whatever it returns: the
same stored accounts, split rules and code, the same height and the same staged slash
intents; in particular the account stored at the target's address (none, if the
target did not exist) is the same as before. -/
theorem sanityCheck_keeps_view (env : Env) (chainID : String) (view : StoreView)
    (tx : ServicePaymentTx) :
    (sanityCheck env chainID view tx).view = view ∧
    (sanityCheck env chainID view tx).view.store.accounts = view.store.accounts ∧
    (sanityCheck env chainID view tx).view.store.splitRules = view.store.splitRules ∧
    (sanityCheck env chainID view tx).view.Height = view.Height ∧
    (sanityCheck env chainID view tx).view.GetSlashIntents = view.GetSlashIntents ∧
    (sanityCheck env chainID view tx).view.GetAccount tx.Target.Address
      = view.GetAccount tx.Target.Address := by
  have h : (sanityCheck env chainID view tx).view = view := by
    simp only [sanityCheck]
    repeat' split
    all_goals rfl
  rw [h]
  exact ⟨rfl, rfl, rfl, rfl, rfl, rfl⟩

theorem Result.isOK_or_isError (r : Result) : r.IsOK = true ∨ r.IsError = true := by
  by_cases h : r.code = ErrorCode.CodeOK
  · left; simp [Result.IsOK, h]
  · right; simp [Result.IsError, h]

theorem sanityCheckForFee_low (env : Env) (fee : Coins)
    (h : fee.GammaWei < (env.MinimumTransactionFeeGammaWei : Int)) :
    sanityCheckForFee env fee = false := by
  simp only [sanityCheckForFee, Bool.and_eq_false_iff, decide_eq_false_iff_not, not_le]
  exact Or.inr h

/-- C14 as stated fails: the fee 0 is below the minimum 1, but the source account is
not stored, and `sanityCheck` returns the error of `getInput`, whose code is the
generic one and not `CodeInvalidFee`. -/
theorem sanityCheck_low_fee_unknown_source :
    ({ paymentOf 100 with Fee := Coins.NewCoins 0 0 } : ServicePaymentTx).Fee.GammaWei
      < ((envAt 150).MinimumTransactionFeeGammaWei : Int) ∧
    (sanityCheck (envAt 150) "chain" ((viewOf 3000 []).withAccounts [])
      { paymentOf 100 with Fee := Coins.NewCoins 0 0 }).res = Result.Error "Unknown address" ∧
    (sanityCheck (envAt 150) "chain" ((viewOf 3000 []).withAccounts [])
      { paymentOf 100 with Fee := Coins.NewCoins 0 0 }).res.code ≠ ErrorCode.CodeInvalidFee :=
  ⟨by decide, by decide, by decide⟩

/-- C14, amended: for a fee whose gamma component is below
`MinimumTransactionFeeGammaWei`, `sanityCheck` returns an error; the error is the one
with code `CodeInvalidFee` when every check before the fee check passes: both inputs
validate, both accounts resolve, the theta amount is zero, the source signature
verifies, the target sequence matches and the target signature verifies.  When an
earlier check fails, the error returned is that check's. -/
theorem sanityCheck_low_fee (env : Env) (chainID : String) (view : StoreView)
    (tx : ServicePaymentTx)
    (hfee : tx.Fee.GammaWei < (env.MinimumTransactionFeeGammaWei : Int)) :
    (sanityCheck env chainID view tx).res.IsError = true ∧
    (∀ (src tgt : Ptr) (heap1 heap2 : Heap),
      (env.ValidateBasic tx.Source).IsError = false →
      (env.ValidateBasic tx.Target).IsError = false →
      getInput env view [] tx.Source = Except.ok (src, heap1) →
      getOrMakeInput env view heap1 tx.Target = Except.ok (tgt, heap2) →
      tx.Source.Coins.ThetaWei = 0 →
      env.VerifySignature (readAccount heap2 src).PubKey (env.SourceSignBytes chainID tx)
        tx.Source.Signature = true →
      ((readAccount heap2 tgt).Sequence + 1) % 2 ^ 64 = tx.Target.Sequence →
      env.VerifySignature (readAccount heap2 tgt).PubKey (env.TargetSignBytes chainID tx)
        tx.Target.Signature = true →
      (sanityCheck env chainID view tx).res
        = (Result.Error "Insufficient fee").WithErrorCode ErrorCode.CodeInvalidFee ∧
      (sanityCheck env chainID view tx).res.code = ErrorCode.CodeInvalidFee) := by
  have hlow := sanityCheckForFee_low env tx.Fee hfee
  constructor
  · rcases Result.isOK_or_isError (sanityCheck env chainID view tx).res with hok | herr
    · obtain ⟨-, -, _, _, _, _, -, -, -, -, -, -, hf, -⟩ :=
        sanityCheck_ok_path env chainID view tx hok
      rw [hlow] at hf
      cases hf
    · exact herr
  · intro src tgt heap1 heap2 hv1 hv2 hsrc htgt htheta hsig1 hseq hsig2
    have hres : (sanityCheck env chainID view tx).res
        = (Result.Error "Insufficient fee").WithErrorCode ErrorCode.CodeInvalidFee := by
      simp only [sanityCheck, hv1, hv2, hsrc, htgt, htheta, hsig1, hseq, hsig2, hlow,
        Bool.false_eq_true, if_false, ne_eq, not_true_eq_false, Bool.not_true,
        Bool.not_false, if_true]
    exact ⟨hres, by rw [hres]; rfl⟩

/-- C14 amended, at a concrete input: the payment of scenario S1 with fee 0. -/
theorem sanityCheck_low_fee_witness :
    (sanityCheck (envAt 150) "chain" (viewOf 3000 [])
      { paymentOf 200 with Fee := Coins.NewCoins 0 0 }).res.code = ErrorCode.CodeInvalidFee :=
  ((sanityCheck_low_fee (envAt 150) "chain" (viewOf 3000 [])
      { paymentOf 200 with Fee := Coins.NewCoins 0 0 } (by decide)).2 0 1 [alice]
      [alice, plainAccount 3000] (by decide) (by decide) rfl rfl (by decide) (by decide)
      (by decide) (by decide)).2

/-! ## Replay and the target account -/

/-- C11 at a failing input: the rule of "rid001" names Bob, the target, with 30
percent, and the range over the coins map visits the target's own object before the
object of the split entry (the reverse of insertion order, one of the orders Go may
take).  `sanityCheck` accepts the payment of 100, `process` succeeds, and the account
stored for Bob afterwards is the object of the split entry, whose sequence is still
0: the second `sanityCheck` of the same transaction on the resulting view returns OK
again, and a second `process` pays once more (the pool drops from 900 to 800). -/
theorem replay_accepted_when_split_names_target :
    (∀ m, ((envWith 150 List.reverse).rangeOrder m).Perm m) ∧
    (sanityCheck (envWith 150 List.reverse) "chain"
      (viewOf 3000 [("rid001", ruleOf [⟨bobAddr, 30⟩])]) (paymentOf 100)).res = Result.OK ∧
    ∃ o, process (envWith 150 List.reverse) "chain"
        (viewOf 3000 [("rid001", ruleOf [⟨bobAddr, 30⟩])]) (paymentOf 100) = Except.ok o ∧
      o.res = Result.OK ∧
      (o.view.GetOrCreateAccount bobAddr).Sequence = 0 ∧
      poolFunds o.view aliceAddr = [900] ∧
      (sanityCheck (envWith 150 List.reverse) "chain" o.view (paymentOf 100)).res
        = Result.OK ∧
      ∃ o2, process (envWith 150 List.reverse) "chain" o.view (paymentOf 100)
          = Except.ok o2 ∧
        o2.res = Result.OK ∧ poolFunds o2.view aliceAddr = [800] :=
  ⟨fun m => List.reverse_perm m, by decide,
   ⟨_, rfl, by decide, by decide, by decide, by decide, ⟨_, rfl, by decide, by decide⟩⟩⟩

/-- C12 at a failing input: the same payment as for C11.  Bob, the target, is stored
with sequence 0 and balance 3000 before; `process` succeeds; the coins map credits
Bob's two objects with 30 and 70; and the account stored for Bob afterwards has
sequence 0, not 1, and balance 3030, with no fee taken and the 70 of the target's own
object lost.  In insertion order the stored account is the target's object (sequence
1, balance 3069) and the 30 of the split entry are lost instead. -/
theorem target_not_advanced_when_split_names_target :
    (viewOf 3000 [("rid001", ruleOf [⟨bobAddr, 30⟩])]).GetAccount bobAddr
      = some (plainAccount 3000) ∧
    (plainAccount 3000).Sequence = 0 ∧
    (processSplit (envWith 150 List.reverse)
      (viewOf 3000 [("rid001", ruleOf [⟨bobAddr, 30⟩])]) (paymentOf 100) 1
      (heapOf 3000)).distribution
      = [(some bobAddr, plainAccount 3000, Coins.NewCoins 0 30),
         (some bobAddr, plainAccount 3000, Coins.NewCoins 0 70)] ∧
    (∃ o, process (envWith 150 List.reverse) "chain"
        (viewOf 3000 [("rid001", ruleOf [⟨bobAddr, 30⟩])]) (paymentOf 100) = Except.ok o ∧
      o.res = Result.OK ∧ o.view.slashIntents = [] ∧
      o.view.GetAccount bobAddr = some (plainAccount 3030) ∧
      (o.view.GetOrCreateAccount aliceAddr).Sequence = alice.Sequence) ∧
    (∃ o, process (envAt 150) "chain"
        (viewOf 3000 [("rid001", ruleOf [⟨bobAddr, 30⟩])]) (paymentOf 100) = Except.ok o ∧
      o.res = Result.OK ∧
      o.view.GetAccount bobAddr = some { plainAccount 3069 with Sequence := 1 }) :=
  ⟨by decide, by decide, by decide,
   ⟨_, rfl, by decide, by decide, by decide, by decide⟩,
   ⟨_, rfl, by decide, by decide⟩⟩

/-! ## Maps: set, get and delete -/

theorem mapGet_mapSet_self {κ ν : Type} [DecidableEq κ] (m : List (κ × ν)) (k : κ) (v : ν) :
    mapGet (mapSet m k v) k = some v := by
  induction m with
  | nil => simp [mapSet, mapGet]
  | cons e rest ih =>
    obtain ⟨k1, v1⟩ := e
    by_cases h : k1 = k
    · simp [mapSet, mapGet, h]
    · simp only [mapSet, h, if_false, mapGet]
      exact ih

theorem mapGet_mapSet_ne {κ ν : Type} [DecidableEq κ] (m : List (κ × ν)) (k a : κ) (v : ν)
    (hne : k ≠ a) : mapGet (mapSet m k v) a = mapGet m a := by
  induction m with
  | nil => simp [mapSet, mapGet, hne]
  | cons e rest ih =>
    obtain ⟨k1, v1⟩ := e
    by_cases h : k1 = k
    · subst h
      simp [mapSet, mapGet, hne]
    · by_cases h2 : k1 = a
      · subst h2
        simp only [mapSet, h, if_false, mapGet, if_true]
      · simp only [mapSet, h, if_false, mapGet, h2]
        exact ih

theorem mapKeys_mapSet_of_mem {κ ν : Type} [DecidableEq κ] (m : List (κ × ν)) (k : κ) (v : ν)
    (h : k ∈ mapKeys m) : mapKeys (mapSet m k v) = mapKeys m := by
  induction m with
  | nil => simp [mapKeys] at h
  | cons e rest ih =>
    obtain ⟨k1, v1⟩ := e
    by_cases hk : k1 = k
    · simp [mapSet, mapKeys, hk]
    · simp only [mapKeys, List.map_cons, List.mem_cons] at h
      have hr : k ∈ mapKeys rest := by
        rcases h with h | h
        · exact absurd h.symm hk
        · exact h
      have := ih hr
      simp only [mapKeys] at this
      simp [mapSet, mapKeys, hk, this]

theorem mapKeys_mapSet_nodup {κ ν : Type} [DecidableEq κ] (m : List (κ × ν)) (k : κ) (v : ν)
    (h : (mapKeys m).Nodup) : (mapKeys (mapSet m k v)).Nodup := by
  by_cases hk : k ∈ mapKeys m
  · rw [mapKeys_mapSet_of_mem m k v hk]; exact h
  · rw [mapKeys_mapSet_fresh m k v hk]
    exact List.nodup_append.2 ⟨h, List.nodup_singleton k, by
      intro a ha hb
      simp only [List.mem_singleton] at hb
      exact hk (hb ▸ ha)⟩

theorem mapDelete_eq_filter {κ ν : Type} [DecidableEq κ] (m : List (κ × ν)) (k : κ) :
    mapDelete m k = m.filter (fun e => decide (e.1 ≠ k)) := by
  induction m with
  | nil => rfl
  | cons e rest ih =>
    obtain ⟨k1, v1⟩ := e
    by_cases h : k1 = k
    · simp [mapDelete, h, ih]
    · simp [mapDelete, h, ih]

/-- In a map without repeated keys, the value found under the key of an entry is the
value of that entry. -/
theorem mapGet_of_mem_nodup {κ ν : Type} [DecidableEq κ] (m : List (κ × ν)) (k : κ) (v : ν)
    (hnd : (mapKeys m).Nodup) (hmem : (k, v) ∈ m) : mapGet m k = some v := by
  induction m with
  | nil => cases hmem
  | cons e rest ih =>
    obtain ⟨k1, v1⟩ := e
    simp only [mapKeys, List.map_cons, List.nodup_cons] at hnd
    rcases List.mem_cons.1 hmem with h | h
    · injection h with h1 h2
      subst h1 h2
      simp [mapGet]
    · have hk : k ∈ rest.map Prod.fst := List.mem_map_of_mem Prod.fst h
      have hne : ¬ k1 = k := fun hh => hnd.1 (hh ▸ hk)
      simp only [mapGet, hne, if_false]
      exact ih hnd.2 h

theorem mem_of_mapGet {κ ν : Type} [DecidableEq κ] (m : List (κ × ν)) (k : κ) (v : ν)
    (h : mapGet m k = some v) : (k, v) ∈ m := by
  induction m with
  | nil => cases h
  | cons e rest ih =>
    obtain ⟨k1, v1⟩ := e
    by_cases hk : k1 = k
    · simp only [mapGet, hk, if_true, Option.some.injEq] at h
      subst hk h
      exact List.mem_cons_self _ _
    · simp only [mapGet, hk, if_false] at h
      exact List.mem_cons_of_mem _ (ih h)

/-! ## Split rules in the store -/

/-- C17: `AddSplitRule(sr)` returns true exactly when no rule is stored for
`sr.ResourceID`, and `UpdateSplitRule(sr)` returns true exactly when one is; when
either returns true, `GetSplitRule(sr.ResourceID)` afterwards returns `sr`; when
either returns false the view is unchanged (an existing rule is not overwritten by
add); and a store with one rule per resource stays one. -/
theorem add_update_split_rule (sv : StoreView) (sr : SplitRule) :
    ((sv.AddSplitRule sr).1 = true ↔ sv.GetSplitRule sr.ResourceID = none) ∧
    ((sv.UpdateSplitRule sr).1 = true ↔ ∃ rule, sv.GetSplitRule sr.ResourceID = some rule) ∧
    ((sv.AddSplitRule sr).1 = true →
      (sv.AddSplitRule sr).2.GetSplitRule sr.ResourceID = some sr) ∧
    ((sv.UpdateSplitRule sr).1 = true →
      (sv.UpdateSplitRule sr).2.GetSplitRule sr.ResourceID = some sr) ∧
    ((sv.AddSplitRule sr).1 = false →
      (sv.AddSplitRule sr).2 = sv ∧
        (sv.AddSplitRule sr).2.GetSplitRule sr.ResourceID = sv.GetSplitRule sr.ResourceID) ∧
    ((sv.UpdateSplitRule sr).1 = false → (sv.UpdateSplitRule sr).2 = sv) ∧
    (sv.WF → (sv.AddSplitRule sr).2.WF ∧ (sv.UpdateSplitRule sr).2.WF) := by
  have hset : (sv.SetSplitRule sr.ResourceID sr).GetSplitRule sr.ResourceID = some sr :=
    mapGet_mapSet_self sv.store.splitRules sr.ResourceID sr
  have hwf : sv.WF → (sv.SetSplitRule sr.ResourceID sr).WF := fun h =>
    ⟨h.1, mapKeys_mapSet_nodup sv.store.splitRules sr.ResourceID sr h.2.1, h.2.2⟩
  cases hget : sv.GetSplitRule sr.ResourceID with
  | none =>
    have hex : sv.SplitRuleExists sr.ResourceID = false := by
      simp [StoreView.SplitRuleExists, hget]
    simp only [StoreView.AddSplitRule, StoreView.UpdateSplitRule, hex, Bool.false_eq_true,
      if_false, Bool.not_false, if_true]
    refine ⟨by simp, by simp, fun _ => hset, by simp, by simp, fun _ => trivial,
      fun h => ⟨hwf h, h⟩⟩
  | some rule =>
    have hex : sv.SplitRuleExists sr.ResourceID = true := by
      simp [StoreView.SplitRuleExists, hget]
    simp only [StoreView.AddSplitRule, StoreView.UpdateSplitRule, hex, if_true, Bool.not_true,
      Bool.false_eq_true, if_false]
    refine ⟨by simp, by simp, by simp, fun _ => hset, fun _ => ⟨trivial, hget⟩, by simp,
      fun h => ⟨h, hwf h⟩⟩

/-- C17, at a concrete input: a rule for "rid001" is stored, so an add of another rule
for "rid001" returns false and leaves the view, and an update returns true and stores
the other rule. -/
theorem add_update_split_rule_witness :
    ((viewOf 3000 [("rid001", ruleOf [⟨carolAddr, 60⟩])]).AddSplitRule
        (ruleOf [⟨daveAddr, 10⟩])).1 = false ∧
    ((viewOf 3000 [("rid001", ruleOf [⟨carolAddr, 60⟩])]).AddSplitRule
        (ruleOf [⟨daveAddr, 10⟩])).2 = viewOf 3000 [("rid001", ruleOf [⟨carolAddr, 60⟩])] ∧
    ((viewOf 3000 [("rid001", ruleOf [⟨carolAddr, 60⟩])]).UpdateSplitRule
        (ruleOf [⟨daveAddr, 10⟩])).2.GetSplitRule "rid001" = some (ruleOf [⟨daveAddr, 10⟩]) :=
  ⟨by decide,
   ((add_update_split_rule (viewOf 3000 [("rid001", ruleOf [⟨carolAddr, 60⟩])])
      (ruleOf [⟨daveAddr, 10⟩])).2.2.2.2.1 (by decide)).1,
   (add_update_split_rule (viewOf 3000 [("rid001", ruleOf [⟨carolAddr, 60⟩])])
      (ruleOf [⟨daveAddr, 10⟩])).2.2.2.1 (by decide)⟩

theorem mapGet_isSome_of_mem {κ ν : Type} [DecidableEq κ] (m : List (κ × ν)) (k : κ)
    (h : k ∈ mapKeys m) : (mapGet m k).isSome = true := by
  cases hg : mapGet m k with
  | none => exact absurd h ((mapGet_eq_none_iff m k).1 hg)
  | some v => rfl

/-- In a map without repeated keys, a lookup after filtering by value is the filtered
lookup. -/
theorem mapGet_filter_nodup {κ ν : Type} [DecidableEq κ] (m : List (κ × ν)) (k : κ)
    (q : ν → Bool) (hnd : (mapKeys m).Nodup) :
    mapGet (m.filter (fun e => q e.2)) k = (mapGet m k).filter q := by
  induction m with
  | nil => rfl
  | cons e rest ih =>
    obtain ⟨k1, v1⟩ := e
    simp only [mapKeys, List.map_cons, List.nodup_cons] at hnd
    by_cases hk : k1 = k
    · subst hk
      have hnone : mapGet rest k1 = none := (mapGet_eq_none_iff rest k1).2 hnd.1
      by_cases hq : q v1 = true
      · simp [List.filter_cons, hq, mapGet, Option.filter]
      · simp only [Bool.not_eq_true] at hq
        simp only [List.filter_cons, hq, Bool.false_eq_true, if_false, mapGet, if_true,
          Option.filter]
        rw [ih hnd.2, hnone]
        rfl
    · by_cases hq : q v1 = true
      · simp only [List.filter_cons, hq, if_true, mapGet, hk, if_false]
        exact ih hnd.2
      · simp only [Bool.not_eq_true] at hq
        simp only [List.filter_cons, hq, Bool.false_eq_true, if_false, mapGet, hk]
        exact ih hnd.2

/-- The deletion loop, for keys that are all stored and pairwise different: it
returns true and leaves the rules whose key is none of them. -/
theorem deleteKeys_spec (ks : List String) (sv : StoreView) (hnd : ks.Nodup)
    (hsub : ∀ k ∈ ks, k ∈ mapKeys sv.store.splitRules) :
    StoreView.deleteKeys ks sv
      = (true,
          { sv with
            store :=
              { sv.store with
                splitRules := sv.store.splitRules.filter (fun e => decide (e.1 ∉ ks)) } }) := by
  induction ks generalizing sv with
  | nil => simp [StoreView.deleteKeys]
  | cons k rest ih =>
    have hk : k ∈ mapKeys sv.store.splitRules := hsub k (List.mem_cons_self _ _)
    have hdel : (sv.DeleteSplitRule k).1 = true := mapGet_isSome_of_mem _ _ hk
    simp only [List.nodup_cons] at hnd
    have hsub2 : ∀ k2 ∈ rest, k2 ∈ mapKeys (sv.DeleteSplitRule k).2.store.splitRules := by
      intro k2 hk2
      have hne : k2 ≠ k := fun hh => hnd.1 (hh ▸ hk2)
      have hm := hsub k2 (List.mem_cons_of_mem _ hk2)
      simp only [mapKeys, List.mem_map] at hm ⊢
      obtain ⟨e, he, hek⟩ := hm
      refine ⟨e, ?_, hek⟩
      show e ∈ mapDelete sv.store.splitRules k
      rw [mapDelete_eq_filter]
      simp only [List.mem_filter, decide_eq_true_eq]
      exact ⟨he, hek ▸ hne⟩
    simp only [StoreView.deleteKeys, hdel, Bool.not_true, Bool.false_eq_true, if_false]
    rw [ih (sv.DeleteSplitRule k).2 hnd.2 hsub2]
    simp only [StoreView.DeleteSplitRule, mapDelete_eq_filter, List.filter_filter,
      Prod.mk.injEq, true_and]
    congr 2
    apply List.filter_congr
    intro e _
    by_cases h1 : e.1 = k
    · simp [h1]
    · by_cases h2 : e.1 ∈ rest
      · simp [h1, h2]
      · simp [h1, h2]

/-- C18: for a store with one rule per key, `DeleteExpiredSplitRules(h)` returns true
and leaves exactly the stored rules with `EndBlockHeight >= h`, each unchanged and in
place: every rule with `EndBlockHeight < h` is gone, and accounts, code and every
other part of the view are as before. -/
theorem delete_expired_split_rules (sv : StoreView) (h : Nat)
    (hnd : (mapKeys sv.store.splitRules).Nodup) :
    (sv.DeleteExpiredSplitRules h).1 = true ∧
    (sv.DeleteExpiredSplitRules h).2
      = { sv with
          store :=
            { sv.store with
              splitRules :=
                sv.store.splitRules.filter (fun e => decide (h ≤ e.2.EndBlockHeight)) } } ∧
    (sv.DeleteExpiredSplitRules h).2.store.accounts = sv.store.accounts ∧
    (sv.DeleteExpiredSplitRules h).2.store.code = sv.store.code ∧
    (∀ resourceID, (sv.DeleteExpiredSplitRules h).2.GetSplitRule resourceID
      = (sv.GetSplitRule resourceID).filter (fun r => decide (h ≤ r.EndBlockHeight))) := by
  have hks : (sv.expiredKeys h).Nodup := by
    unfold StoreView.expiredKeys
    exact hnd.sublist (List.Sublist.map Prod.fst (List.filter_sublist _))
  have hsub : ∀ k ∈ sv.expiredKeys h, k ∈ mapKeys sv.store.splitRules := by
    intro k hk
    simp only [StoreView.expiredKeys, List.mem_map, List.mem_filter] at hk
    obtain ⟨e, ⟨he, -⟩, hek⟩ := hk
    exact hek ▸ List.mem_map_of_mem Prod.fst he
  have hfilter : sv.store.splitRules.filter (fun e => decide (e.1 ∉ sv.expiredKeys h))
      = sv.store.splitRules.filter (fun e => decide (h ≤ e.2.EndBlockHeight)) := by
    apply List.filter_congr
    intro e he
    have hiff : e.1 ∈ sv.expiredKeys h ↔ e.2.EndBlockHeight < h := by
      simp only [StoreView.expiredKeys, List.mem_map, List.mem_filter, decide_eq_true_eq]
      constructor
      · rintro ⟨e2, ⟨he2, hexp⟩, hk⟩
        have h1 := mapGet_of_mem_nodup sv.store.splitRules e2.1 e2.2 hnd he2
        have h2 := mapGet_of_mem_nodup sv.store.splitRules e.1 e.2 hnd he
        rw [hk, h2] at h1
        injection h1 with h1
        rw [h1]
        exact hexp
      · intro hexp
        exact ⟨e, ⟨he, hexp⟩, rfl⟩
    by_cases hexp : e.2.EndBlockHeight < h
    · simp [hiff.2 hexp, Nat.not_le.2 hexp]
    · simp [mt hiff.1 hexp, Nat.not_lt.1 hexp]
  have hres : sv.DeleteExpiredSplitRules h
      = (true,
          { sv with
            store :=
              { sv.store with
                splitRules :=
                  sv.store.splitRules.filter (fun e => decide (h ≤ e.2.EndBlockHeight)) } }) := by
    unfold StoreView.DeleteExpiredSplitRules
    rw [deleteKeys_spec _ _ hks hsub, hfilter]
  rw [hres]
  refine ⟨rfl, rfl, rfl, rfl, ?_⟩
  intro resourceID
  exact mapGet_filter_nodup sv.store.splitRules resourceID
    (fun r => decide (h ≤ r.EndBlockHeight)) hnd

/-- C18, at a concrete input: of two stored rules with end heights 200 and 120, the
sweep at height 150 keeps the first and deletes the second. -/
theorem delete_expired_split_rules_witness :
    (mapKeys (viewOf 3000 [("rid001", ruleOf [⟨carolAddr, 60⟩]),
      ("rid002", { ruleOf [] with EndBlockHeight := 120 })]).store.splitRules).Nodup ∧
    ((viewOf 3000 [("rid001", ruleOf [⟨carolAddr, 60⟩]),
      ("rid002", { ruleOf [] with EndBlockHeight := 120 })]).DeleteExpiredSplitRules 150).2
      = viewOf 3000 [("rid001", ruleOf [⟨carolAddr, 60⟩])] :=
  ⟨by decide,
   ((delete_expired_split_rules (viewOf 3000 [("rid001", ruleOf [⟨carolAddr, 60⟩]),
      ("rid002", { ruleOf [] with EndBlockHeight := 120 })]) 150 (by decide)).2.1).trans
      (by decide)⟩

/-! ## Accounts in the store -/

/-- C19: `GetOrCreateAccount` returns the stored account when there is one and
otherwise a new empty account (sequence 0, zero balance, no reserved funds, no code),
and the view it leaves is the view it was called on: `GetAccount` on an address
without account still returns none after the call, until `SetAccount` stores the
account. -/
theorem get_or_create_account (sv : StoreView) (addr : Address) :
    (sv.GetOrCreateAccountOn addr).2 = sv ∧
    (sv.GetOrCreateAccountOn addr).1 = sv.GetOrCreateAccount addr ∧
    (∀ acc, sv.GetAccount addr = some acc → (sv.GetOrCreateAccountOn addr).1 = acc) ∧
    (sv.GetAccount addr = none →
      (sv.GetOrCreateAccountOn addr).1 = NewAccount ∧
      (sv.GetOrCreateAccountOn addr).2.GetAccount addr = none ∧
      ((sv.GetOrCreateAccountOn addr).2.SetAccount addr
          (sv.GetOrCreateAccountOn addr).1).GetAccount addr = some NewAccount) ∧
    NewAccount.Sequence = 0 ∧ NewAccount.Balance = Coins.NewCoins 0 0 ∧
    NewAccount.ReservedFunds = [] ∧ NewAccount.CodeHash = EmptyCodeHash := by
  cases hget : sv.GetAccount addr with
  | none =>
    have hon : sv.GetOrCreateAccountOn addr = (NewAccount, sv) := by
      simp only [StoreView.GetOrCreateAccountOn, hget]
    have hoc : sv.GetOrCreateAccount addr = NewAccount := by
      simp only [StoreView.GetOrCreateAccount, hget]
    rw [hon, hoc]
    refine ⟨rfl, rfl, (fun acc h => nomatch h), fun _ => ⟨rfl, hget, ?_⟩, rfl, rfl, rfl, rfl⟩
    exact mapGet_mapSet_self sv.store.accounts addr NewAccount
  | some account =>
    have hon : sv.GetOrCreateAccountOn addr = (account, sv) := by
      simp only [StoreView.GetOrCreateAccountOn, hget]
    have hoc : sv.GetOrCreateAccount addr = account := by
      simp only [StoreView.GetOrCreateAccount, hget]
    rw [hon, hoc]
    refine ⟨rfl, rfl, fun acc h => ?_, (fun h => nomatch h), rfl, rfl, rfl, rfl⟩
    injection h

/-- C19, at a concrete input: Dave has no account in the view of the scenarios. -/
theorem get_or_create_account_witness :
    (viewOf 3000 []).GetAccount daveAddr = none ∧
    ((viewOf 3000 []).GetOrCreateAccountOn daveAddr).1 = NewAccount ∧
    ((viewOf 3000 []).GetOrCreateAccountOn daveAddr).2.GetAccount daveAddr = none :=
  ⟨by decide,
   ((get_or_create_account (viewOf 3000 []) daveAddr).2.2.2.1 (by decide)).1,
   ((get_or_create_account (viewOf 3000 []) daveAddr).2.2.2.1 (by decide)).2.1⟩

/-! ## The round trip through the bytes of the store -/

theorem ByteView.Get_Set_self (sv : ByteView) (key value : Bytes) :
    (sv.Set key value).Get key = value := by
  simp only [ByteView.Get, ByteView.Set, mapGet_mapSet_self, Option.getD_some]

/-! ## The order of the account writes -/

theorem applyWrites_eq (view : StoreView) (writes : List (Address × Account)) :
    applyWrites view writes
      = view.withAccounts
          (writes.foldl (fun m w => mapSet m w.1 w.2) view.store.accounts) := by
  induction writes generalizing view with
  | nil => rfl
  | cons w rest ih =>
    simp only [applyWrites, List.foldl_cons] at ih ⊢
    rw [ih (view.SetAccount w.1 w.2)]
    rfl

/-- The write-back loop issues exactly the writes of the entries it visits. -/
theorem persistAccounts_eq_applyWrites (entries : List (Ptr × Coins))
    (am : List (Ptr × Address)) (heap : Heap) (view : StoreView)
    (h : ∀ e ∈ entries, e.1 ∈ mapKeys am) :
    persistAccounts entries am heap view
      = Except.ok (applyWrites view (writesOf entries am heap)) := by
  induction entries generalizing view with
  | nil => rfl
  | cons e rest ih =>
    obtain ⟨account, c⟩ := e
    have hmem : account ∈ mapKeys am := h (account, c) (List.mem_cons_self _ _)
    cases hget : mapGet am account with
    | none => exact absurd hmem ((mapGet_eq_none_iff am account).1 hget)
    | some address =>
      simp only [persistAccounts, hget, writesOf, List.filterMap_cons, Option.map_some']
      rw [ih (view.SetAccount address (readAccount heap account))
        (fun e he => h e (List.mem_cons_of_mem _ he))]
      rfl

theorem writesOf_keys (entries : List (Ptr × Coins)) (am : List (Ptr × Address))
    (heap : Heap) :
    (writesOf entries am heap).map Prod.fst = entries.filterMap (fun e => mapGet am e.1) := by
  induction entries with
  | nil => rfl
  | cons e rest ih =>
    cases hget : mapGet am e.1 with
    | none => simp only [writesOf, List.filterMap_cons, hget, Option.map_none'] at ih ⊢; exact ih
    | some address =>
      simp only [writesOf, List.filterMap_cons, hget, Option.map_some', List.map_cons] at ih ⊢
      rw [ih]

/-- A sequence of writes to a map: a key that is not written keeps its value, and a
key that is written once gets the value written. -/
theorem foldl_mapSet_get {κ ν : Type} [DecidableEq κ] (l : List (κ × ν)) (m : List (κ × ν))
    (a : κ) :
    (a ∉ l.map Prod.fst → mapGet (l.foldl (fun m w => mapSet m w.1 w.2) m) a = mapGet m a) ∧
    (∀ v, (l.map Prod.fst).Nodup → (a, v) ∈ l →
      mapGet (l.foldl (fun m w => mapSet m w.1 w.2) m) a = some v) := by
  induction l generalizing m with
  | nil => exact ⟨fun _ => rfl, fun v _ h => by cases h⟩
  | cons w rest ih =>
    obtain ⟨k, x⟩ := w
    simp only [List.map_cons, List.mem_cons, not_or, List.foldl_cons, List.nodup_cons]
    constructor
    · intro h
      rw [(ih (mapSet m k x)).1 h.2]
      exact mapGet_mapSet_ne m k a x (fun hh => h.1 hh.symm)
    · intro v hnd hmem
      rcases hmem with hmem | hmem
      · injection hmem with h1 h2
        subst h1 h2
        rw [(ih (mapSet m a v)).1 hnd.1]
        exact mapGet_mapSet_self m a v
      · exact (ih (mapSet m k x)).2 v hnd.2 hmem

/-- Writes to pairwise different keys give the same map content in every order. -/
theorem foldl_mapSet_perm {κ ν : Type} [DecidableEq κ] (l1 l2 : List (κ × ν))
    (hp : l1.Perm l2) (hnd : (l1.map Prod.fst).Nodup) (m : List (κ × ν)) (a : κ) :
    mapGet (l1.foldl (fun m w => mapSet m w.1 w.2) m) a
      = mapGet (l2.foldl (fun m w => mapSet m w.1 w.2) m) a := by
  have hnd2 : (l2.map Prod.fst).Nodup := (hp.map Prod.fst).nodup_iff.1 hnd
  by_cases ha : a ∈ l1.map Prod.fst
  · obtain ⟨e, he, hea⟩ := List.mem_map.1 ha
    have h1 : (a, e.2) ∈ l1 := by rw [← hea]; exact he
    have h2 : (a, e.2) ∈ l2 := hp.mem_iff.1 h1
    rw [(foldl_mapSet_get l1 m a).2 e.2 hnd h1, (foldl_mapSet_get l2 m a).2 e.2 hnd2 h2]
  · have ha2 : a ∉ l2.map Prod.fst := fun h => ha ((hp.map Prod.fst).mem_iff.2 h)
    rw [(foldl_mapSet_get l1 m a).1 ha, (foldl_mapSet_get l2 m a).1 ha2]

/-- On the success path the view `process` leaves is the staged view after the writes
of `processWrites`, in that order. -/
theorem process_eq_applyWrites (env : Env) (chainID : String) (view : StoreView)
    (tx : ServicePaymentTx) (src tgt : Ptr) (heap1 heap2 : Heap)
    (hsrc : getInput env view [] tx.Source = Except.ok (src, heap1))
    (htgt : getOrMakeInput env view heap1 tx.Target = Except.ok (tgt, heap2))
    (hsplit : (processSplit env view tx tgt heap2).success = true)
    (hfee : (chargeFee (processTransfer env view tx src tgt heap2).heap tgt tx.Fee).1 = true)
    (hperm : ∀ m, (env.rangeOrder m).Perm m) :
    process env chainID view tx
      = Except.ok
          { hash := env.TxID chainID tx, res := Result.OK,
            view := applyWrites (processStaged env view tx src tgt heap2)
              (processWrites env view tx src tgt heap2) } := by
  have hkeys := splitPayment_keys env view heap2 (view.GetSplitRule tx.ResourceID) tx.ResourceID
    tx.Target.Address tgt tx.Source.Coins (getOrMakeInput_ptr env view heap1 tx.Target tgt heap2 htgt)
  have hall : ∀ e ∈ env.rangeOrder (processSplit env view tx tgt heap2).coinsMap,
      e.1 ∈ mapKeys (processSplit env view tx tgt heap2).accountAddressMap := by
    intro e he
    have he2 : e ∈ (processSplit env view tx tgt heap2).coinsMap := (hperm _).mem_iff.1 he
    have : e.1 ∈ mapKeys (processSplit env view tx tgt heap2).coinsMap :=
      List.mem_map_of_mem Prod.fst he2
    unfold processSplit at this ⊢
    rw [hkeys] at this
    exact this
  rw [process_charged env chainID view tx src tgt heap1 heap2 hsrc htgt hsplit hfee,
    persistAccounts_eq_applyWrites _ _ _ _ hall]
  rfl

theorem writesOf_perm (l1 l2 : List (Ptr × Coins)) (am : List (Ptr × Address)) (heap : Heap)
    (hp : l1.Perm l2) : (writesOf l1 am heap).Perm (writesOf l2 am heap) :=
  hp.filterMap _

/-- C16 as stated fails: with the rule [(Carol, 30), (Dave, 30)] and a range over the
coins map in the reverse of insertion order (one of the orders Go may take), `process`
succeeds and writes Alice, Bob, Dave, Carol, not Alice, Carol, Dave, Bob as the rule
declares; the run in insertion order writes in the declared order, so the two runs on
equal inputs differ in their write sequence.  With the rule [(Bob, 30)], which names
the target, the two runs also leave different accounts stored for Bob. -/
theorem process_write_order_depends_on_range :
    (∀ m, ((envWith 150 List.reverse).rangeOrder m).Perm m) ∧
    (∀ m, ((envAt 150).rangeOrder m).Perm m) ∧
    process (envWith 150 List.reverse) "chain"
        (viewOf 3000 [("rid001", ruleOf [⟨carolAddr, 30⟩, ⟨daveAddr, 30⟩])]) (paymentOf 100)
      = Except.ok
          { hash := 1001, res := Result.OK,
            view := applyWrites
              (processStaged (envWith 150 List.reverse)
                (viewOf 3000 [("rid001", ruleOf [⟨carolAddr, 30⟩, ⟨daveAddr, 30⟩])])
                (paymentOf 100) 0 1 (heapOf 3000))
              (processWrites (envWith 150 List.reverse)
                (viewOf 3000 [("rid001", ruleOf [⟨carolAddr, 30⟩, ⟨daveAddr, 30⟩])])
                (paymentOf 100) 0 1 (heapOf 3000)) } ∧
    (processWrites (envWith 150 List.reverse)
        (viewOf 3000 [("rid001", ruleOf [⟨carolAddr, 30⟩, ⟨daveAddr, 30⟩])])
        (paymentOf 100) 0 1 (heapOf 3000)).map Prod.fst
      = [aliceAddr, bobAddr, daveAddr, carolAddr] ∧
    (processWrites (envAt 150)
        (viewOf 3000 [("rid001", ruleOf [⟨carolAddr, 30⟩, ⟨daveAddr, 30⟩])])
        (paymentOf 100) 0 1 (heapOf 3000)).map Prod.fst
      = [aliceAddr, carolAddr, daveAddr, bobAddr] ∧
    (∃ o1 o2,
      process (envAt 150) "chain" (viewOf 3000 [("rid001", ruleOf [⟨bobAddr, 30⟩])])
        (paymentOf 100) = Except.ok o1 ∧
      process (envWith 150 List.reverse) "chain"
        (viewOf 3000 [("rid001", ruleOf [⟨bobAddr, 30⟩])]) (paymentOf 100) = Except.ok o2 ∧
      o1.view.GetAccount bobAddr ≠ o2.view.GetAccount bobAddr) :=
  ⟨fun m => List.reverse_perm m, fun m => List.Perm.refl m, rfl, by decide, by decide,
   ⟨_, _, rfl, rfl, by decide⟩⟩

/-- C16, amended: on the success path of `process`, (1) the view it leaves is the view
after the `SetAccount` calls of `processWrites`: the source account first, then the
account of every entry of the coins map, in the order the range visits the map;
(2) these writes are a rearrangement of the writes in declared order (source, valid
split entries in rule order, target) with the source's write still first, and they are
the declared order when the range visits the map in insertion order; (3) when the
addresses the coins map pays are pairwise different, a run with any other visiting
order succeeds as well and leaves the same account under every address and the same
view otherwise. -/
theorem process_write_order (env : Env) (chainID : String) (view : StoreView)
    (tx : ServicePaymentTx) (src tgt : Ptr) (heap1 heap2 : Heap)
    (hsrc : getInput env view [] tx.Source = Except.ok (src, heap1))
    (htgt : getOrMakeInput env view heap1 tx.Target = Except.ok (tgt, heap2))
    (hsplit : (processSplit env view tx tgt heap2).success = true)
    (hfee : (chargeFee (processTransfer env view tx src tgt heap2).heap tgt tx.Fee).1 = true)
    (hperm : ∀ m, (env.rangeOrder m).Perm m) :
    process env chainID view tx
      = Except.ok
          { hash := env.TxID chainID tx, res := Result.OK,
            view := applyWrites (processStaged env view tx src tgt heap2)
              (processWrites env view tx src tgt heap2) } ∧
    (processWrites env view tx src tgt heap2).Perm (declaredWrites env view tx src tgt heap2) ∧
    (processWrites env view tx src tgt heap2).head?
      = (declaredWrites env view tx src tgt heap2).head? ∧
    (env.rangeOrder (processSplit env view tx tgt heap2).coinsMap
        = (processSplit env view tx tgt heap2).coinsMap →
      processWrites env view tx src tgt heap2 = declaredWrites env view tx src tgt heap2) ∧
    (∀ order2 : List (Ptr × Coins) → List (Ptr × Coins), (∀ m, (order2 m).Perm m) →
      (processSplit env view tx tgt heap2).paidAddresses.Nodup →
      process { env with rangeOrder := order2 } chainID view tx
        = Except.ok
            { hash := env.TxID chainID tx, res := Result.OK,
              view := applyWrites (processStaged env view tx src tgt heap2)
                (processWrites { env with rangeOrder := order2 } view tx src tgt heap2) } ∧
      (∀ a, (applyWrites (processStaged env view tx src tgt heap2)
            (processWrites { env with rangeOrder := order2 } view tx src tgt heap2)).GetAccount a
          = (applyWrites (processStaged env view tx src tgt heap2)
            (processWrites env view tx src tgt heap2)).GetAccount a) ∧
      (applyWrites (processStaged env view tx src tgt heap2)
          (processWrites { env with rangeOrder := order2 } view tx src tgt heap2)).withAccounts []
        = (applyWrites (processStaged env view tx src tgt heap2)
          (processWrites env view tx src tgt heap2)).withAccounts []) := by
  refine ⟨process_eq_applyWrites env chainID view tx src tgt heap1 heap2 hsrc htgt hsplit hfee
    hperm, ?_, rfl, ?_, ?_⟩
  · exact List.Perm.cons _ (writesOf_perm _ _ _ _ (hperm _))
  · intro hid
    simp only [processWrites, declaredWrites, hid]
  · intro order2 hperm2 hnd
    refine ⟨process_eq_applyWrites { env with rangeOrder := order2 } chainID view tx src tgt
      heap1 heap2 hsrc htgt hsplit hfee hperm2, ?_, ?_⟩
    · intro a
      have hp : (writesOf (order2 (processSplit env view tx tgt heap2).coinsMap)
            (processSplit env view tx tgt heap2).accountAddressMap
            (processFinalHeap env view tx src tgt heap2)).Perm
          (writesOf (env.rangeOrder (processSplit env view tx tgt heap2).coinsMap)
            (processSplit env view tx tgt heap2).accountAddressMap
            (processFinalHeap env view tx src tgt heap2)) :=
        writesOf_perm _ _ _ _ ((hperm2 _).trans (hperm _).symm)
      have hkeys : ((writesOf (order2 (processSplit env view tx tgt heap2).coinsMap)
            (processSplit env view tx tgt heap2).accountAddressMap
            (processFinalHeap env view tx src tgt heap2)).map Prod.fst).Nodup := by
        rw [writesOf_keys]
        exact ((hperm2 _).filterMap _).nodup_iff.2 hnd
      rw [applyWrites_eq, applyWrites_eq]
      exact foldl_mapSet_perm _ _ hp hkeys _ a
    · rw [applyWrites_eq, applyWrites_eq]
      rfl

/-- C16 amended, at a concrete input: the rule [(Carol, 30), (Dave, 30)] pays four
different addresses, and the run in reverse order leaves the same accounts as the run
in insertion order. -/
theorem process_write_order_witness :
    (processSplit (envAt 150)
      (viewOf 3000 [("rid001", ruleOf [⟨carolAddr, 30⟩, ⟨daveAddr, 30⟩])]) (paymentOf 100) 1
      (heapOf 3000)).paidAddresses = [carolAddr, daveAddr, bobAddr] ∧
    ∀ a, (applyWrites (processStaged (envAt 150)
          (viewOf 3000 [("rid001", ruleOf [⟨carolAddr, 30⟩, ⟨daveAddr, 30⟩])])
          (paymentOf 100) 0 1 (heapOf 3000))
        (processWrites { envAt 150 with rangeOrder := List.reverse }
          (viewOf 3000 [("rid001", ruleOf [⟨carolAddr, 30⟩, ⟨daveAddr, 30⟩])])
          (paymentOf 100) 0 1 (heapOf 3000))).GetAccount a
      = (applyWrites (processStaged (envAt 150)
          (viewOf 3000 [("rid001", ruleOf [⟨carolAddr, 30⟩, ⟨daveAddr, 30⟩])])
          (paymentOf 100) 0 1 (heapOf 3000))
        (processWrites (envAt 150)
          (viewOf 3000 [("rid001", ruleOf [⟨carolAddr, 30⟩, ⟨daveAddr, 30⟩])])
          (paymentOf 100) 0 1 (heapOf 3000))).GetAccount a :=
  ⟨by decide,
   ((process_write_order (envAt 150) "chain"
      (viewOf 3000 [("rid001", ruleOf [⟨carolAddr, 30⟩, ⟨daveAddr, 30⟩])]) (paymentOf 100)
      0 1 [alice] (heapOf 3000) rfl rfl (by decide) (by decide)
      (fun m => List.Perm.refl m)).2.2.2.2 List.reverse (fun m => List.reverse_perm m)
      (by decide)).2.1⟩

/-! ## The VM state of a view -/

theorem mem_mapSet {κ ν : Type} [DecidableEq κ] (m : List (κ × ν)) (k : κ) (v : ν)
    (e : κ × ν) (h : e ∈ mapSet m k v) : e ∈ m ∨ e = (k, v) := by
  induction m with
  | nil =>
    simp only [mapSet, List.mem_singleton] at h
    exact Or.inr h
  | cons x rest ih =>
    obtain ⟨k1, v1⟩ := x
    by_cases hk : k1 = k
    · simp only [mapSet, hk, if_true, List.mem_cons] at h
      rcases h with h | h
      · exact Or.inr h
      · exact Or.inl (List.mem_cons_of_mem _ h)
    · simp only [mapSet, hk, if_false, List.mem_cons] at h
      rcases h with h | h
      · exact Or.inl (h ▸ List.mem_cons_self _ _)
      · rcases ih h with h1 | h1
        · exact Or.inl (List.mem_cons_of_mem _ h1)
        · exact Or.inr h1

/-- C23: `Empty(addr)` is true exactly when the address has no stored account or its
account has sequence 0, the empty code hash and a balance that is zero in both
components. -/
theorem empty_iff (sv : StoreView) (addr : Address) :
    sv.Empty addr = true ↔
      (sv.GetAccount addr = none ∨
        ∃ account, sv.GetAccount addr = some account ∧ account.Sequence = 0 ∧
          account.CodeHash = EmptyCodeHash ∧ account.Balance.ThetaWei = 0 ∧
          account.Balance.GammaWei = 0) := by
  unfold StoreView.Empty
  cases hacc : sv.GetAccount addr with
  | none => simp
  | some account =>
    simp only [Coins.IsZero, Bool.and_eq_true, decide_eq_true_eq, false_or,
      Option.some.injEq, exists_eq_left', and_assoc]
    constructor
    · intro h; exact Or.inr h
    · rintro (h | h)
      · cases h
      · exact h

/-- C24: after `Suicide(addr)`, `Exist(addr)` is false for every view and address, and
`HasSuicided(addr)` is true; for Bob, who has a stored account and exists before, `Suicide`
returns true and `Exist` returns false afterwards. -/
theorem exist_false_after_suicide :
    (∀ (sv : StoreView) (addr : Address),
      (sv.Suicide addr).2.Exist addr = false ∧ (sv.Suicide addr).2.HasSuicided addr = true) ∧
    (viewOf 3000 []).Exist bobAddr = true ∧
    ((viewOf 3000 []).Suicide bobAddr).1 = true ∧
    ((viewOf 3000 []).Suicide bobAddr).2.Exist bobAddr = false := by
  refine ⟨?_, by decide, by decide, by decide⟩
  intro sv addr
  unfold StoreView.Suicide
  cases hacc : sv.GetAccount addr with
  | none => simp [StoreView.Exist, StoreView.HasSuicided, hacc]
  | some account =>
    simp only [StoreView.Exist, StoreView.HasSuicided, StoreView.GetAccount,
      StoreView.DeleteAccount, mapGet_mapDelete_self]
    simp

/-- C26: `AddSlashIntent`, `ClearSlashIntents`, `SetValidatorDiff` and
`GetAndClearValidatorDiff` leave the store and `Hash()` as they are, and none of them
changes the other buffer, the height, the refund counter or the coinbase flag. -/
theorem staging_buffers_frame (env : StateEnv) (sv : StoreView) (slashIntent : SlashIntent)
    (diff : List Validator) :
    ((sv.AddSlashIntent slashIntent).store = sv.store ∧
      (sv.AddSlashIntent slashIntent).Hash env = sv.Hash env ∧
      (sv.AddSlashIntent slashIntent).validatorsDiff = sv.validatorsDiff ∧
      (sv.AddSlashIntent slashIntent).height = sv.height ∧
      (sv.AddSlashIntent slashIntent).refund = sv.refund ∧
      (sv.AddSlashIntent slashIntent).coinbaseTransactinProcessed =
        sv.coinbaseTransactinProcessed) ∧
    (sv.ClearSlashIntents.store = sv.store ∧
      sv.ClearSlashIntents.Hash env = sv.Hash env ∧
      sv.ClearSlashIntents.validatorsDiff = sv.validatorsDiff ∧
      sv.ClearSlashIntents.height = sv.height ∧
      sv.ClearSlashIntents.refund = sv.refund ∧
      sv.ClearSlashIntents.coinbaseTransactinProcessed = sv.coinbaseTransactinProcessed) ∧
    ((sv.SetValidatorDiff diff).store = sv.store ∧
      (sv.SetValidatorDiff diff).Hash env = sv.Hash env ∧
      (sv.SetValidatorDiff diff).slashIntents = sv.slashIntents ∧
      (sv.SetValidatorDiff diff).height = sv.height ∧
      (sv.SetValidatorDiff diff).refund = sv.refund ∧
      (sv.SetValidatorDiff diff).coinbaseTransactinProcessed =
        sv.coinbaseTransactinProcessed) ∧
    (sv.GetAndClearValidatorDiff.2.store = sv.store ∧
      sv.GetAndClearValidatorDiff.2.Hash env = sv.Hash env ∧
      sv.GetAndClearValidatorDiff.2.slashIntents = sv.slashIntents ∧
      sv.GetAndClearValidatorDiff.2.height = sv.height ∧
      sv.GetAndClearValidatorDiff.2.refund = sv.refund ∧
      sv.GetAndClearValidatorDiff.2.coinbaseTransactinProcessed =
        sv.coinbaseTransactinProcessed) :=
  ⟨⟨rfl, rfl, rfl, rfl, rfl, rfl⟩, ⟨rfl, rfl, rfl, rfl, rfl, rfl⟩,
    ⟨rfl, rfl, rfl, rfl, rfl, rfl⟩, ⟨rfl, rfl, rfl, rfl, rfl, rfl⟩⟩

/-- C27: after `SetCode(addr, code)` the stored account is the account of before (a new
one when there was none) with the Keccak-256 hash of the code as its code hash, so
balance and sequence are as before; the code is stored under that hash; `GetCode`
returns the code and `GetCodeSize` its length.  The hash of code that is not empty is
not the hash of no code. -/
theorem set_code_get_code (env : StateEnv) (sv : StoreView) (addr : Address) (code : Bytes)
    (hempty : env.Keccak256Hash code = EmptyCodeHash → code = []) :
    (sv.SetCode env addr code).GetAccount addr =
        some { sv.GetOrCreateAccount addr with CodeHash := env.Keccak256Hash code } ∧
      (sv.SetCode env addr code).GetCodeHash addr = env.Keccak256Hash code ∧
      ((sv.SetCode env addr code).GetOrCreateAccount addr).Balance =
        (sv.GetOrCreateAccount addr).Balance ∧
      ((sv.SetCode env addr code).GetOrCreateAccount addr).Sequence =
        (sv.GetOrCreateAccount addr).Sequence ∧
      (sv.SetCode env addr code).GetCodeByHash (env.Keccak256Hash code) = code ∧
      (sv.SetCode env addr code).GetCode addr = code ∧
      (sv.SetCode env addr code).GetCodeSize addr = code.length := by
  have hacc : (sv.SetCode env addr code).GetAccount addr =
      some { sv.GetOrCreateAccount addr with CodeHash := env.Keccak256Hash code } := by
    simp only [StoreView.SetCode, StoreView.GetAccount, StoreView.SetAccount,
      mapGet_mapSet_self]
  have hby : (sv.SetCode env addr code).GetCodeByHash (env.Keccak256Hash code) = code := by
    simp only [StoreView.SetCode, StoreView.GetCodeByHash, StoreView.SetAccount,
      mapGet_mapSet_self, Option.getD_some]
  have hcode : (sv.SetCode env addr code).GetCode addr = code := by
    unfold StoreView.GetCode
    rw [hacc]
    by_cases hk : env.Keccak256Hash code = EmptyCodeHash
    · simp only [hk, if_true]
      exact (hempty hk).symm
    · simp only [hk, if_false]
      exact hby
  refine ⟨hacc, ?_, ?_, ?_, hby, hcode, ?_⟩
  · simp only [StoreView.GetCodeHash, hacc]
  · simp only [StoreView.GetOrCreateAccount, hacc]
  · simp only [StoreView.GetOrCreateAccount, hacc]
  · simp only [StoreView.GetCodeSize, hcode]

/-- C27 at a concrete input: code `[96, 0]` set for Dave, who has no account. -/
theorem set_code_get_code_witness :
    (sampleStateEnv.Keccak256Hash [96, 0] = EmptyCodeHash → ([96, 0] : Bytes) = []) ∧
    ((viewOf 3000 []).SetCode sampleStateEnv daveAddr [96, 0]).GetCode daveAddr = [96, 0] ∧
    ((viewOf 3000 []).SetCode sampleStateEnv daveAddr [96, 0]).GetCodeSize daveAddr = 2 :=
  ⟨by decide,
    (set_code_get_code sampleStateEnv (viewOf 3000 []) daveAddr [96, 0]
      (by decide)).2.2.2.2.2.1,
    (set_code_get_code sampleStateEnv (viewOf 3000 []) daveAddr [96, 0]
      (by decide)).2.2.2.2.2.2⟩

/-! ## Storage slots -/

theorem foldl_trimLeftZero (b : Bytes) :
    (trimLeftZero b).foldl (fun acc x => acc * 256 + x) 0 =
      b.foldl (fun acc x => acc * 256 + x) 0 := by
  induction b with
  | nil => rfl
  | cons x rest ih =>
    by_cases hx : x = 0
    · subst hx
      simpa [trimLeftZero, List.dropWhile] using ih
    · simp [trimLeftZero, List.dropWhile, hx]

theorem foldl_beBytes (n h : Nat) :
    (beBytes n h).foldl (fun acc x => acc * 256 + x) 0 = h % 256 ^ n := by
  induction n generalizing h with
  | zero => simp [beBytes, Nat.mod_one]
  | succ n ih =>
    simp only [beBytes, List.foldl_append, List.foldl_cons, List.foldl_nil, ih]
    rw [pow_succ', Nat.mod_mul]
    ring

/-- The bytes of a 32-byte value without their leading zeros spell the value again. -/
theorem BytesToHash_trimLeftZero (val : Hash) (hsize : val < 2 ^ 256) :
    BytesToHash (trimLeftZero (hashBytes val)) = val := by
  unfold BytesToHash hashBytes
  rw [foldl_trimLeftZero, foldl_beBytes]
  have h256 : (256 : Nat) ^ 32 = 2 ^ 256 := by norm_num
  rw [h256, Nat.mod_mod, Nat.mod_eq_of_lt hsize]

theorem mapSet_ne_nil {κ ν : Type} [DecidableEq κ] (m : List (κ × ν)) (k : κ) (v : ν) :
    mapSet m k v ≠ [] := by
  cases m with
  | nil => simp [mapSet]
  | cons e rest =>
    obtain ⟨k1, v1⟩ := e
    by_cases h : k1 = k <;> simp [mapSet, h]

theorem NewTreeStore_commitStorage (env : StateEnv) (db : Database) (tree : Storage)
    (h : env.storageRoot tree ≠ 0) :
    NewTreeStore (commitStorage env db tree).2 (commitStorage env db tree).1 = some tree := by
  unfold NewTreeStore commitStorage
  rw [if_neg h]
  exact mapGet_mapSet_self _ _ _

theorem SetState_nonzero (env : StateEnv) (db : Database) (sv : StoreView) (addr : Address)
    (key val : Hash) (tree : Storage) (hval : val ≠ 0)
    (htree : StoreView.getAccountStorage db (sv.GetOrCreateAccount addr) = some tree) :
    sv.SetState env db addr key val =
      Except.ok ((commitStorage env db (StoreView.updateSlot env tree key val)).2,
        sv.SetAccount addr { sv.GetOrCreateAccount addr with
          Root := env.storageRoot (StoreView.updateSlot env tree key val) }) := by
  unfold StoreView.SetState
  unfold StoreView.GetOrCreateAccount at htree ⊢
  cases hacc : sv.GetAccount addr with
  | none =>
    rw [hacc] at htree
    simp only [htree, if_neg hval]
    rfl
  | some account =>
    rw [hacc] at htree
    simp only [htree, if_neg hval]
    rfl

/-- C22: `GetState(addr, key)` after `SetState(addr, key, val)` with a non-zero 32-byte
value returns `val`, whatever its leading bytes; the stored account is the account of
before (a new one when there was none) with the root of the committed sub-tree as its
storage root, and the database opens that root to the sub-tree with the value written.
The encoding of a byte string is not empty and splits to the string; the root of a
sub-tree that is not empty is not the zero hash; the database opens the storage root of
the stored account. -/
theorem set_state_get_state (env : StateEnv) (db : Database) (sv : StoreView)
    (addr : Address) (key val : Hash) (hval : val ≠ 0) (hsize : val < 2 ^ 256)
    (hsplit : ∀ b, env.Split (env.EncodeToBytes b) = some b)
    (hfull : ∀ b, env.EncodeToBytes b ≠ [])
    (hroot : ∀ tree : Storage, tree ≠ [] → env.storageRoot tree ≠ 0)
    (hknown : ∀ account, sv.GetAccount addr = some account →
      (NewTreeStore db account.Root).isSome = true) :
    ∃ tree db1 sv1,
      StoreView.getAccountStorage db (sv.GetOrCreateAccount addr) = some tree ∧
      sv.SetState env db addr key val = Except.ok (db1, sv1) ∧
      sv1.GetState env db1 addr key = Except.ok val ∧
      sv1.GetAccount addr =
        some { sv.GetOrCreateAccount addr with
          Root := env.storageRoot (StoreView.updateSlot env tree key val) } ∧
      NewTreeStore db1 (env.storageRoot (StoreView.updateSlot env tree key val)) =
        some (StoreView.updateSlot env tree key val) := by
  have hopen : ∃ tree,
      StoreView.getAccountStorage db (sv.GetOrCreateAccount addr) = some tree := by
    unfold StoreView.getAccountStorage StoreView.GetOrCreateAccount
    cases hacc : sv.GetAccount addr with
    | none => exact ⟨[], rfl⟩
    | some account =>
      have h := hknown account hacc
      cases ht : NewTreeStore db account.Root with
      | none => rw [ht] at h; cases h
      | some tree => exact ⟨tree, rfl⟩
  obtain ⟨tree, htree⟩ := hopen
  have hne : env.storageRoot (StoreView.updateSlot env tree key val) ≠ 0 :=
    hroot _ (mapSet_ne_nil _ _ _)
  have hnew : NewTreeStore (commitStorage env db (StoreView.updateSlot env tree key val)).2
      (env.storageRoot (StoreView.updateSlot env tree key val)) =
      some (StoreView.updateSlot env tree key val) :=
    NewTreeStore_commitStorage env db _ hne
  refine ⟨tree, (commitStorage env db (StoreView.updateSlot env tree key val)).2,
    sv.SetAccount addr { sv.GetOrCreateAccount addr with
      Root := env.storageRoot (StoreView.updateSlot env tree key val) },
    htree, ?_, ?_, ?_, hnew⟩
  · exact SetState_nonzero env db sv addr key val tree hval htree
  · have hlen : 0 < (env.EncodeToBytes (trimLeftZero (hashBytes val))).length :=
      List.length_pos.2 (hfull _)
    have hslot : mapGet (StoreView.updateSlot env tree key val) key =
        some (env.EncodeToBytes (trimLeftZero (hashBytes val))) := mapGet_mapSet_self _ _ _
    simp only [StoreView.GetState, StoreView.GetAccount, StoreView.SetAccount,
      mapGet_mapSet_self, StoreView.getAccountStorage, hnew, hslot, Option.getD_some,
      if_pos hlen, hsplit, BytesToHash_trimLeftZero val hsize]
  · simp only [StoreView.GetAccount, StoreView.SetAccount, mapGet_mapSet_self]

/-- C22 at a concrete input: the value 258, whose first 30 bytes are zero, written to
slot 5 of Dave, who has no account. -/
theorem set_state_get_state_witness :
    ∃ db1 sv1,
      (viewOf 3000 []).GetAccount daveAddr = none ∧
      (viewOf 3000 []).SetState sampleStateEnv emptyDatabase daveAddr 5 258 =
        Except.ok (db1, sv1) ∧
      sv1.GetState sampleStateEnv db1 daveAddr 5 = Except.ok 258 ∧
      (sv1.GetAccount daveAddr).map (fun a => a.Root) = some 2 := by
  obtain ⟨tree, db1, sv1, _, hset, hget, hacc, _⟩ :=
    set_state_get_state sampleStateEnv emptyDatabase (viewOf 3000 []) daveAddr 5 258
      (by decide) (by norm_num) (fun b => by simp [sampleStateEnv])
      (fun b => by simp [sampleStateEnv]) (fun tree _ => Nat.succ_ne_zero _)
      (fun account h => by cases h)
  refine ⟨db1, sv1, by decide, hset, hget, ?_⟩
  have h2 : (viewOf 3000 []).SetState sampleStateEnv emptyDatabase daveAddr 5 258 =
      Except.ok (({ tries := [(2, [(5, [2, 1, 2])])], roots := [] } : Database),
        (viewOf 3000 []).SetAccount daveAddr { NewAccount with Root := 2 }) := rfl
  rw [h2] at hset
  injection hset with hset
  injection hset with h3 h4
  subst h4
  rfl

/-- C21 at a failing input: slot 5 of Dave is written with 258 and then with the zero
hash.  The second `SetState` returns with the database and the view as they were, and
`GetState` still returns 258. -/
theorem set_state_zero_keeps_slot :
    ∃ db1 sv1,
      (viewOf 3000 []).SetState sampleStateEnv emptyDatabase daveAddr 5 258 =
        Except.ok (db1, sv1) ∧
      sv1.GetState sampleStateEnv db1 daveAddr 5 = Except.ok 258 ∧
      sv1.SetState sampleStateEnv db1 daveAddr 5 0 = Except.ok (db1, sv1) ∧
      sv1.GetState sampleStateEnv db1 daveAddr 5 ≠ Except.ok 0 :=
  ⟨{ tries := [(2, [(5, [2, 1, 2])])], roots := [] },
    (viewOf 3000 []).SetAccount daveAddr { NewAccount with Root := 2 }, rfl, rfl, rfl,
    fun h => by injection h with h; exact absurd h (by decide)⟩

/-! ## Majority of a validator set -/

theorem foldl_stake_mod (l : List Validator) (init : Nat) :
    l.foldl (fun ret v => (ret + v.Stake) % 2 ^ 64) (init % 2 ^ 64) =
      (init + (l.map (fun v => v.Stake)).sum) % 2 ^ 64 := by
  induction l generalizing init with
  | nil => simp
  | cons v rest ih =>
    simp only [List.foldl_cons, List.map_cons, List.sum_cons]
    have h : (init % 2 ^ 64 + v.Stake) % 2 ^ 64 = (init + v.Stake) % 2 ^ 64 := by
      rw [Nat.add_mod, Nat.mod_mod, ← Nat.add_mod]
    rw [h, ih (init + v.Stake), Nat.add_assoc]

theorem TotalStake_eq (s : ValidatorSet) : s.TotalStake = s.stakeSum % 2 ^ 64 := by
  have h := foldl_stake_mod s.validators 0
  simp only [Nat.zero_mod, Nat.zero_add] at h
  exact h

/-- The loop of `HasMajority` sums, modulo 2^64, the stakes of the validators that the
votes find. -/
theorem votedStake_eq (addressOf : PubKey → Address) (s : ValidatorSet) (votes : List Vote) :
    s.votedStake addressOf votes =
      (votes.map (fun vote =>
        match s.GetValidator addressOf vote.ID with
        | some validator => validator.Stake
        | none => 0)).sum % 2 ^ 64 := by
  have h : ∀ (l : List Vote) (init : Nat),
      l.foldl
        (fun acc vote =>
          match s.GetValidator addressOf vote.ID with
          | some validator => (acc + validator.Stake) % 2 ^ 64
          | none => acc) (init % 2 ^ 64) =
        (init + (l.map (fun vote =>
          match s.GetValidator addressOf vote.ID with
          | some validator => validator.Stake
          | none => 0)).sum) % 2 ^ 64 := by
    intro l
    induction l with
    | nil => intro init; simp
    | cons vote rest ih =>
      intro init
      simp only [List.foldl_cons, List.map_cons, List.sum_cons]
      cases hv : s.GetValidator addressOf vote.ID with
      | none =>
        simp only [Nat.zero_add]
        exact ih init
      | some validator =>
        simp only []
        have h : (init % 2 ^ 64 + validator.Stake) % 2 ^ 64 =
            (init + validator.Stake) % 2 ^ 64 := by
          rw [Nat.add_mod, Nat.mod_mod, ← Nat.add_mod]
        rw [h, ih (init + validator.Stake), Nat.add_assoc]
  have h0 := h votes 0
  simp only [Nat.zero_mod, Nat.zero_add] at h0
  exact h0

theorem sum_votes_of_id (votes : List Vote) (a : Address) (x : Nat)
    (hvotes : (votes.map (fun vote => vote.ID)).Nodup) :
    (votes.map (fun vote => if a = vote.ID then x else 0)).sum =
      if votes.any (fun vote => decide (vote.ID = a)) = true then x else 0 := by
  induction votes with
  | nil => simp
  | cons vote rest ih =>
    simp only [List.map_cons, List.nodup_cons, List.mem_map, not_exists, not_and] at hvotes
    simp only [List.map_cons, List.sum_cons, List.any_cons, Bool.or_eq_true, decide_eq_true_eq]
    rw [ih hvotes.2]
    by_cases ha : a = vote.ID
    · subst ha
      have hno : ¬ (rest.any (fun w => decide (w.ID = vote.ID)) = true) := by
        simp only [List.any_eq_true, decide_eq_true_eq, not_exists, not_and]
        intro w hw hwa
        exact hvotes.1 w hw hwa
      simp [hno]
    · have ha2 : ¬ vote.ID = a := fun h => ha h.symm
      simp [ha, ha2]

theorem find_eq_none_of_not_mem (addressOf : PubKey → Address) (vs : List Validator)
    (a : Address) (h : a ∉ vs.map (Validator.ID addressOf)) :
    vs.find? (fun v => decide (v.ID addressOf = a)) = none := by
  simp only [List.find?_eq_none, decide_eq_true_eq]
  intro v hv hva
  exact h (List.mem_map.2 ⟨v, hv, hva⟩)

/-- With one validator per ID and one vote per voter, the stakes that the votes find add
up to the stake of the validators that voted. -/
theorem sum_found_stakes (addressOf : PubKey → Address) (vs : List Validator)
    (votes : List Vote) (hids : (vs.map (Validator.ID addressOf)).Nodup)
    (hvotes : (votes.map (fun vote => vote.ID)).Nodup) :
    (votes.map (fun vote =>
        match vs.find? (fun v => decide (v.ID addressOf = vote.ID)) with
        | some validator => validator.Stake
        | none => 0)).sum =
      ((vs.filter (fun v => votes.any (fun vote => decide (vote.ID = v.ID addressOf)))).map
        (fun v => v.Stake)).sum := by
  induction vs with
  | nil => simp
  | cons v rest ih =>
    simp only [List.map_cons, List.nodup_cons] at hids
    have hpoint : ∀ vote : Vote,
        (match (v :: rest).find? (fun w => decide (w.ID addressOf = vote.ID)) with
          | some validator => validator.Stake
          | none => 0) =
        (if v.ID addressOf = vote.ID then v.Stake else 0) +
          (match rest.find? (fun w => decide (w.ID addressOf = vote.ID)) with
            | some validator => validator.Stake
            | none => 0) := by
      intro vote
      by_cases hv : v.ID addressOf = vote.ID
      · have hnone := find_eq_none_of_not_mem addressOf rest (v.ID addressOf) hids.1
        rw [hv] at hnone
        simp [List.find?_cons, hv, hnone]
      · simp [List.find?_cons, hv]
    have hsum : (votes.map (fun vote =>
        match (v :: rest).find? (fun w => decide (w.ID addressOf = vote.ID)) with
        | some validator => validator.Stake
        | none => 0)).sum =
        (votes.map (fun vote => if v.ID addressOf = vote.ID then v.Stake else 0)).sum +
          (votes.map (fun vote =>
            match rest.find? (fun w => decide (w.ID addressOf = vote.ID)) with
            | some validator => validator.Stake
            | none => 0)).sum := by
      rw [← List.sum_map_add]
      exact congrArg List.sum (List.map_congr_left (fun vote _ => hpoint vote))
    rw [hsum, ih hids.2, sum_votes_of_id votes (v.ID addressOf) v.Stake hvotes]
    by_cases hany : votes.any (fun vote => decide (vote.ID = v.ID addressOf)) = true
    · simp [List.filter_cons, hany]
    · simp [List.filter_cons, hany]

theorem stakeOfVoters_le (addressOf : PubKey → Address) (s : ValidatorSet) (votes : List Vote) :
    s.stakeOfVoters addressOf votes ≤ s.stakeSum := by
  unfold ValidatorSet.stakeOfVoters ValidatorSet.stakeSum
  exact List.Sublist.sum_le_sum
    ((List.filter_sublist _).map _) (fun _ _ => Nat.zero_le _)

/-- C29, as stated, fails: two validators with stake 2^63 each and distinct IDs both
vote, once each.  `TotalStake()` is 0, so twice it does not overflow, and three times the
stake of the voters, 2^64, is greater; `HasMajority` returns false. -/
theorem has_majority_wraps :
    (heavyValidators.validators.map (Validator.ID id)).Nodup ∧
    (([⟨1⟩, ⟨2⟩] : List Vote).map (fun vote => vote.ID)).Nodup ∧
    heavyValidators.TotalStake = 0 ∧
    2 * heavyValidators.TotalStake < 2 ^ 64 ∧
    2 * heavyValidators.TotalStake < 3 * heavyValidators.stakeOfVoters id [⟨1⟩, ⟨2⟩] ∧
    heavyValidators.HasMajority id [⟨1⟩, ⟨2⟩] = false := by
  refine ⟨by decide, by decide, by decide, by decide, by decide, by decide⟩

/-- C29, amended: for a set with distinct validator IDs and votes with one vote per
voter, when twice `TotalStake()` fits in 64 bits, `HasMajority` returns true exactly when
three times the stake of the set's validators that voted, taken modulo 2^64 as the loop
sums it, is greater than twice `TotalStake()`; when the stakes of the set also sum to less
than 2^64, `TotalStake()` is that sum and the stake of the voters counts in full.  An empty
vote set never has majority. -/
theorem has_majority_iff (addressOf : PubKey → Address) (s : ValidatorSet) (votes : List Vote)
    (hids : (s.validators.map (Validator.ID addressOf)).Nodup)
    (hvotes : (votes.map (fun vote => vote.ID)).Nodup)
    (hfit : 2 * s.TotalStake < 2 ^ 64) :
    (s.HasMajority addressOf votes = true ↔
      2 * s.TotalStake < 3 * (s.stakeOfVoters addressOf votes % 2 ^ 64)) ∧
    (s.stakeSum < 2 ^ 64 →
      s.TotalStake = s.stakeSum ∧
      (s.HasMajority addressOf votes = true ↔
        2 * s.TotalStake < 3 * s.stakeOfVoters addressOf votes)) ∧
    s.HasMajority addressOf [] = false := by
  have hvoted : s.votedStake addressOf votes = s.stakeOfVoters addressOf votes % 2 ^ 64 := by
    rw [votedStake_eq]
    exact congrArg (fun n => n % 2 ^ 64) (sum_found_stakes addressOf s.validators votes hids hvotes)
  have hmain : s.HasMajority addressOf votes = true ↔
      2 * s.TotalStake < 3 * (s.stakeOfVoters addressOf votes % 2 ^ 64) := by
    unfold ValidatorSet.HasMajority
    simp only [decide_eq_true_eq, hvoted]
    have h1 : s.TotalStake * 2 % 2 ^ 64 = s.TotalStake * 2 := Nat.mod_eq_of_lt (by omega)
    have h2 : (s.TotalStake * 2 / 3 + 1) % 2 ^ 64 = s.TotalStake * 2 / 3 + 1 :=
      Nat.mod_eq_of_lt (by omega)
    rw [h1, h2]
    omega
  refine ⟨hmain, ?_, ?_⟩
  · intro hsum
    have ht : s.TotalStake = s.stakeSum := by
      rw [TotalStake_eq, Nat.mod_eq_of_lt hsum]
    have hle := stakeOfVoters_le addressOf s votes
    have hv : s.stakeOfVoters addressOf votes % 2 ^ 64 = s.stakeOfVoters addressOf votes :=
      Nat.mod_eq_of_lt (by omega)
    rw [hv] at hmain
    exact ⟨ht, hmain⟩
  · unfold ValidatorSet.HasMajority ValidatorSet.votedStake
    simp only [List.foldl_nil, decide_eq_false_iff_not, not_le]
    have h2 : (s.TotalStake * 2 % 2 ^ 64 / 3 + 1) % 2 ^ 64 =
        s.TotalStake * 2 % 2 ^ 64 / 3 + 1 := Nat.mod_eq_of_lt (by omega)
    rw [h2]
    omega

/-- C29, amended, at a concrete input: of the validators of the executor tests (stakes
999 and 100) the proposer alone votes. -/
theorem has_majority_iff_witness :
    (testValidators.validators.map (Validator.ID id)).Nodup ∧
    2 * testValidators.TotalStake < 2 ^ 64 ∧
    testValidators.stakeSum < 2 ^ 64 ∧
    (testValidators.HasMajority id [⟨1⟩] = true ↔
      2 * testValidators.TotalStake < 3 * testValidators.stakeOfVoters id [⟨1⟩]) ∧
    testValidators.HasMajority id [] = false :=
  ⟨by decide, by decide, by decide,
    ((has_majority_iff id testValidators [⟨1⟩] (by decide) (by decide) (by decide)).2.1
      (by decide)).2,
    (has_majority_iff id testValidators [⟨1⟩] (by decide) (by decide) (by decide)).2.2⟩

/-! ## The order of a validator set -/

theorem Snapshot_consistent (env : StateEnv) (db : Database) (sv : StoreView)
    (hdb : db.Consistent env) : (sv.Snapshot env db).2.Consistent env := by
  intro root store h
  simp only [StoreView.Snapshot] at h
  by_cases hr : sv.Hash env = root
  · subst hr
    rw [mapGet_mapSet_self] at h
    injection h with h
    subst h
    rfl
  · rw [mapGet_mapSet_ne _ _ _ _ hr] at h
    exact hdb root store h

theorem Snapshot_keeps (env : StateEnv) (db : Database) (sv : StoreView) (root : Hash)
    (h : (mapGet db.roots root).isSome = true) :
    (mapGet (sv.Snapshot env db).2.roots root).isSome = true := by
  simp only [StoreView.Snapshot]
  by_cases hr : sv.Hash env = root
  · subst hr
    rw [mapGet_mapSet_self]
    rfl
  · rw [mapGet_mapSet_ne _ _ _ _ hr]
    exact h

theorem Snapshot_holds (env : StateEnv) (db : Database) (sv : StoreView) :
    (mapGet (sv.Snapshot env db).2.roots (sv.Snapshot env db).1).isSome = true := by
  simp only [StoreView.Snapshot, mapGet_mapSet_self]
  rfl

theorem RevertToSnapshot_of_isSome (db : Database) (sv : StoreView) (root : Hash)
    (h : (mapGet db.roots root).isSome = true) :
    ∃ store, mapGet db.roots root = some store ∧
      sv.RevertToSnapshot db root = Except.ok { sv with store := store } := by
  unfold StoreView.RevertToSnapshot
  cases hg : mapGet db.roots root with
  | none => rw [hg] at h; cases h
  | some store => exact ⟨store, rfl, rfl⟩

/-- A script runs to its end from a consistent database: every revert finds its root.
The database stays consistent and keeps the roots it holds. -/
theorem Script.run_ok (env : StateEnv) (script : Script) :
    ∀ (db : Database) (sv : StoreView), db.Consistent env →
      ∃ db1 sv1, script.run env db sv = Except.ok (db1, sv1) ∧ db1.Consistent env ∧
        ∀ root, (mapGet db.roots root).isSome = true →
          (mapGet db1.roots root).isSome = true := by
  induction script with
  | done =>
    intro db sv hdb
    exact ⟨db, sv, rfl, hdb, fun _ h => h⟩
  | write w rest ih =>
    intro db sv hdb
    exact ih db (sv.write w) hdb
  | nested body rest ihb ihr =>
    intro db sv hdb
    obtain ⟨db1, sv1, hrun, hdb1, hkeep1⟩ :=
      ihb (sv.Snapshot env db).2 sv (Snapshot_consistent env db sv hdb)
    obtain ⟨store, _, hrev⟩ := RevertToSnapshot_of_isSome db1 sv1 (sv.Snapshot env db).1
      (hkeep1 _ (Snapshot_holds env db sv))
    obtain ⟨db2, sv2, hrun2, hdb2, hkeep2⟩ := ihr db1 { sv1 with store := store } hdb1
    refine ⟨db2, sv2, ?_, hdb2, ?_⟩
    · simp only [Script.run, hrun, hrev, hrun2]
    · intro root h
      exact hkeep2 root (hkeep1 root (Snapshot_keeps env db sv root h))

/-- C25: for every run `body` of writes and nested snapshot/revert stretches after
`s = Snapshot()`, `RevertToSnapshot(s)` returns, `Hash()` is `s` again, and `GetAccount`,
`GetSplitRule` and the code under a hash are what they were at the snapshot.  The root
hash has no collisions (stores with the same root have the same contents) and the
database holds each committed state under its own root; the database after the snapshot
and after the run is again such a database, so the same holds for every stretch within. -/
theorem snapshot_revert_round_trip (env : StateEnv) (db : Database) (sv : StoreView)
    (body : Script)
    (hroot : ∀ a b : TreeStore, env.treeRoot a = env.treeRoot b → a.SameContents b)
    (hdb : db.Consistent env) :
    (sv.Snapshot env db).1 = sv.Hash env ∧ (sv.Snapshot env db).2.Consistent env ∧
    ∃ db1 sv1 sv2,
      body.run env (sv.Snapshot env db).2 sv = Except.ok (db1, sv1) ∧
      sv1.RevertToSnapshot db1 (sv.Snapshot env db).1 = Except.ok sv2 ∧
      (Script.nested body Script.done).run env db sv = Except.ok (db1, sv2) ∧
      sv2.Hash env = (sv.Snapshot env db).1 ∧
      (∀ addr, sv2.GetAccount addr = sv.GetAccount addr) ∧
      (∀ resourceID, sv2.GetSplitRule resourceID = sv.GetSplitRule resourceID) ∧
      (∀ codeHash, sv2.GetCodeByHash codeHash = sv.GetCodeByHash codeHash) ∧
      db1.Consistent env := by
  refine ⟨rfl, Snapshot_consistent env db sv hdb, ?_⟩
  obtain ⟨db1, sv1, hrun, hdb1, hkeep1⟩ :=
    Script.run_ok env body (sv.Snapshot env db).2 sv (Snapshot_consistent env db sv hdb)
  obtain ⟨store, hstore, hrev⟩ := RevertToSnapshot_of_isSome db1 sv1 (sv.Snapshot env db).1
    (hkeep1 _ (Snapshot_holds env db sv))
  have hhash : env.treeRoot store = env.treeRoot sv.store := hdb1 _ _ hstore
  obtain ⟨hacc, hrules, hcode⟩ := hroot store sv.store hhash
  refine ⟨db1, sv1, { sv1 with store := store }, hrun, hrev, ?_, hhash, ?_, ?_, ?_, hdb1⟩
  · simp only [Script.run, hrun, hrev]
  · intro addr
    exact hacc addr
  · intro resourceID
    exact hrules resourceID
  · intro codeHash
    simp only [StoreView.GetCodeByHash, hcode codeHash]

/-- C25 at a concrete input: the sample run, with a snapshot inside a snapshot, on the
view of the scenarios and an empty database, under a root function without collisions. -/
theorem snapshot_revert_round_trip_witness :
    emptyDatabase.Consistent exactStateEnv ∧
    ∃ db1 sv2,
      (Script.nested sampleScript Script.done).run exactStateEnv emptyDatabase
        (viewOf 3000 []) = Except.ok (db1, sv2) ∧
      sv2.Hash exactStateEnv = (viewOf 3000 []).Hash exactStateEnv ∧
      (∀ addr, sv2.GetAccount addr = (viewOf 3000 []).GetAccount addr) := by
  have hroot : ∀ a b : TreeStore, exactStateEnv.treeRoot a = exactStateEnv.treeRoot b →
      a.SameContents b := by
    intro a b h
    have hab : a = b := Encodable.encode_injective h
    subst hab
    exact ⟨fun _ => rfl, fun _ => rfl, fun _ => rfl⟩
  have hdb : emptyDatabase.Consistent exactStateEnv := by
    intro root store h
    cases h
  obtain ⟨_, _, db1, _, sv2, _, _, hrun, hhash, hacc, _⟩ :=
    snapshot_revert_round_trip exactStateEnv emptyDatabase (viewOf 3000 []) sampleScript
      hroot hdb
  exact ⟨hdb, db1, sv2, hrun, hhash, hacc⟩

/-! ## The two expiry tests -/

/-- The traversal of the sweep on a store with one rule per key: the key of a stored
rule is among the expired keys exactly when the end height of the rule is below the
height. -/
theorem mem_expiredKeys_iff (sv : StoreView) (h : Nat)
    (hnd : (mapKeys sv.store.splitRules).Nodup) (e : String × SplitRule)
    (he : e ∈ sv.store.splitRules) :
    e.1 ∈ sv.expiredKeys h ↔ e.2.EndBlockHeight < h := by
  simp only [StoreView.expiredKeys, List.mem_map, List.mem_filter, decide_eq_true_eq]
  constructor
  · rintro ⟨e2, ⟨he2, hexp⟩, hk⟩
    have h1 := mapGet_of_mem_nodup sv.store.splitRules e2.1 e2.2 hnd he2
    have h2 := mapGet_of_mem_nodup sv.store.splitRules e.1 e.2 hnd he
    rw [hk, h2] at h1
    injection h1 with h1
    rw [h1]
    exact hexp
  · intro hexp
    exact ⟨e, ⟨he, hexp⟩, rfl⟩

/-- The sweep on a store with one rule per key: it returns true, and a rule is found
afterwards exactly when it was stored with an end height that is not below the height. -/
theorem DeleteExpiredSplitRules_get (sv : StoreView) (h : Nat)
    (hnd : (mapKeys sv.store.splitRules).Nodup) :
    (sv.DeleteExpiredSplitRules h).1 = true ∧
    ∀ resourceID, (sv.DeleteExpiredSplitRules h).2.GetSplitRule resourceID
      = (sv.GetSplitRule resourceID).filter (fun r => decide (h ≤ r.EndBlockHeight)) := by
  have hks : (sv.expiredKeys h).Nodup := by
    unfold StoreView.expiredKeys
    exact hnd.sublist (List.Sublist.map Prod.fst (List.filter_sublist _))
  have hsub : ∀ k ∈ sv.expiredKeys h, k ∈ mapKeys sv.store.splitRules := by
    intro k hk
    simp only [StoreView.expiredKeys, List.mem_map, List.mem_filter] at hk
    obtain ⟨e, ⟨he, -⟩, hek⟩ := hk
    exact hek ▸ List.mem_map_of_mem Prod.fst he
  have hkeys : ∀ e ∈ sv.store.splitRules,
      (e.1 ∈ sv.expiredKeys h ↔ e.2.EndBlockHeight < h) :=
    fun e he => mem_expiredKeys_iff sv h hnd e he
  have hfilter : sv.store.splitRules.filter (fun e => decide (e.1 ∉ sv.expiredKeys h))
      = sv.store.splitRules.filter (fun e => decide (h ≤ e.2.EndBlockHeight)) := by
    apply List.filter_congr
    intro e he
    by_cases hexp : e.2.EndBlockHeight < h
    · simp [(hkeys e he).2 hexp, Nat.not_le.2 hexp]
    · simp [mt (hkeys e he).1 hexp, Nat.not_lt.1 hexp]
  have hres : sv.DeleteExpiredSplitRules h
      = (true,
          { sv with
            store :=
              { sv.store with
                splitRules :=
                  sv.store.splitRules.filter (fun e => decide (h ≤ e.2.EndBlockHeight)) } }) := by
    unfold StoreView.DeleteExpiredSplitRules
    rw [deleteKeys_spec _ _ hks hsub, hfilter]
  rw [hres]
  refine ⟨rfl, ?_⟩
  intro resourceID
  exact mapGet_filter_nodup sv.store.splitRules resourceID
    (fun r => decide (h ≤ r.EndBlockHeight)) hnd

/-- C31: for a rule stored under its resource (one rule per key) and the height of the
executor's state as the current height of both, the test of `splitPayment` (line 165)
and the test of the sweep (line 241), which selects the keys to delete, are the test
"endBlockHeight < h" of the specification.  When it holds, `splitPayment` pays the full amount to the target and
the rule is gone from its view, and it is gone after `DeleteExpiredSplitRules(h)`; when
it does not hold, `h = endBlockHeight` included, `splitPayment` leaves the view as it is
and applies the splits of the rule, and the sweep keeps the rule. -/
theorem expiry_decisions_agree (env : Env) (view : StoreView) (heap : Heap) (rule : SplitRule)
    (resourceID : String) (targetAddress : Address) (targetAccount : Ptr) (fullAmount : Coins)
    (hnd : (mapKeys view.store.splitRules).Nodup)
    (hrule : view.GetSplitRule resourceID = some rule)
    (ht : targetAccount < heap.length) :
    expiredRule env (some rule) = rule.expiredAt env.stateHeight ∧
    (resourceID ∈ view.expiredKeys env.stateHeight ↔
      rule.expiredAt env.stateHeight = true) ∧
    (view.DeleteExpiredSplitRules env.stateHeight).1 = true ∧
    (rule.EndBlockHeight < env.stateHeight →
      (splitPayment env view heap (some rule) resourceID targetAddress targetAccount
        fullAmount).success = true ∧
      (splitPayment env view heap (some rule) resourceID targetAddress targetAccount
        fullAmount).coinsMap = [(targetAccount, fullAmount)] ∧
      (splitPayment env view heap (some rule) resourceID targetAddress targetAccount
        fullAmount).accountAddressMap = [(targetAccount, targetAddress)] ∧
      (splitPayment env view heap (some rule) resourceID targetAddress targetAccount
        fullAmount).view.GetSplitRule resourceID = none ∧
      (view.DeleteExpiredSplitRules env.stateHeight).2.GetSplitRule resourceID = none) ∧
    (env.stateHeight ≤ rule.EndBlockHeight →
      (splitPayment env view heap (some rule) resourceID targetAddress targetAccount
        fullAmount).view = view ∧
      (splitPayment env view heap (some rule) resourceID targetAddress targetAccount
        fullAmount).success = (remainderOf fullAmount rule.Splits).IsNonnegative ∧
      (splitPayment env view heap (some rule) resourceID targetAddress targetAccount
        fullAmount).distribution
        = (validSplits rule.Splits).map (splitShare view fullAmount)
          ++ (if (remainderOf fullAmount rule.Splits).IsNonnegative
              then [(some targetAddress, readAccount heap targetAccount,
                      remainderOf fullAmount rule.Splits)]
              else []) ∧
      (view.DeleteExpiredSplitRules env.stateHeight).2.GetSplitRule resourceID = some rule) ∧
    ((splitPayment env view heap (some rule) resourceID targetAddress targetAccount
        fullAmount).view.GetSplitRule resourceID = none ↔
      rule.EndBlockHeight < env.stateHeight) ∧
    ((view.DeleteExpiredSplitRules env.stateHeight).2.GetSplitRule resourceID = none ↔
      rule.EndBlockHeight < env.stateHeight) := by
  obtain ⟨hswept, hget⟩ := DeleteExpiredSplitRules_get view env.stateHeight hnd
  have hsweep_exp : rule.EndBlockHeight < env.stateHeight →
      (view.DeleteExpiredSplitRules env.stateHeight).2.GetSplitRule resourceID = none := by
    intro hexp
    rw [hget resourceID, hrule]
    simp [Option.filter, Nat.not_le.2 hexp]
  have hsweep_keep : env.stateHeight ≤ rule.EndBlockHeight →
      (view.DeleteExpiredSplitRules env.stateHeight).2.GetSplitRule resourceID = some rule := by
    intro hle
    rw [hget resourceID, hrule]
    simp [Option.filter, hle]
  have hpay_exp : rule.EndBlockHeight < env.stateHeight →
      (splitPayment env view heap (some rule) resourceID targetAddress targetAccount
        fullAmount).view.GetSplitRule resourceID = none := by
    intro hexp
    rw [splitPayment_expired env view heap rule resourceID targetAddress targetAccount
      fullAmount hexp]
    exact mapGet_mapDelete_self _ _
  have hpay_keep : env.stateHeight ≤ rule.EndBlockHeight →
      (splitPayment env view heap (some rule) resourceID targetAddress targetAccount
        fullAmount).view = view := by
    intro hle
    exact (splitPayment_valid env view heap rule resourceID targetAddress targetAccount
      fullAmount (Nat.not_lt.2 hle) ht).1
  refine ⟨?_, ?_, hswept, ?_, ?_, ?_, ?_⟩
  · simp only [expiredRule, SplitRule.expiredAt, gt_iff_lt]
  · have hmem := mem_expiredKeys_iff view env.stateHeight hnd (resourceID, rule)
      (mem_of_mapGet _ _ _ hrule)
    simp only [SplitRule.expiredAt, decide_eq_true_eq]
    exact hmem
  · intro hexp
    have hout := splitPayment_expired env view heap rule resourceID targetAddress
      targetAccount fullAmount hexp
    refine ⟨?_, ?_, ?_, hpay_exp hexp, hsweep_exp hexp⟩
    · rw [hout]
    · rw [hout]
    · rw [hout]
  · intro hle
    have hvalid := splitPayment_valid env view heap rule resourceID targetAddress
      targetAccount fullAmount (Nat.not_lt.2 hle) ht
    exact ⟨hvalid.1, hvalid.2.2.1, hvalid.2.2.2.1, hsweep_keep hle⟩
  · constructor
    · intro hnone
      by_contra hexp
      rw [hpay_keep (Nat.not_lt.1 hexp), hrule] at hnone
      cases hnone
    · exact hpay_exp
  · constructor
    · intro hnone
      by_contra hexp
      rw [hsweep_keep (Nat.not_lt.1 hexp)] at hnone
      cases hnone
    · exact hsweep_exp

/-- C31 at concrete inputs: the rule of "rid001" ends at height 200.  At height 200 the
payment of 100 is split (60 to Carol, 40 to Bob), the rule stays in the view of
`splitPayment`, and the sweep keeps it; at height 201 the rule is gone from both. -/
theorem expiry_decisions_agree_witness :
    (mapKeys (viewOf 3000 [("rid001", ruleOf [⟨carolAddr, 60⟩])]).store.splitRules).Nodup ∧
    (viewOf 3000 [("rid001", ruleOf [⟨carolAddr, 60⟩])]).GetSplitRule "rid001" =
      some (ruleOf [⟨carolAddr, 60⟩]) ∧
    (splitPayment (envAt 200) (viewOf 3000 [("rid001", ruleOf [⟨carolAddr, 60⟩])])
      (heapOf 3000) (some (ruleOf [⟨carolAddr, 60⟩])) "rid001" bobAddr 1
      (Coins.NewCoins 0 100)).view = viewOf 3000 [("rid001", ruleOf [⟨carolAddr, 60⟩])] ∧
    ((viewOf 3000 [("rid001", ruleOf [⟨carolAddr, 60⟩])]).DeleteExpiredSplitRules
      200).2.GetSplitRule "rid001" = some (ruleOf [⟨carolAddr, 60⟩]) ∧
    (splitPayment (envAt 201) (viewOf 3000 [("rid001", ruleOf [⟨carolAddr, 60⟩])])
      (heapOf 3000) (some (ruleOf [⟨carolAddr, 60⟩])) "rid001" bobAddr 1
      (Coins.NewCoins 0 100)).view.GetSplitRule "rid001" = none ∧
    ((viewOf 3000 [("rid001", ruleOf [⟨carolAddr, 60⟩])]).DeleteExpiredSplitRules
      201).2.GetSplitRule "rid001" = none :=
  ⟨by decide, by decide,
    ((expiry_decisions_agree (envAt 200) (viewOf 3000 [("rid001", ruleOf [⟨carolAddr, 60⟩])])
      (heapOf 3000) (ruleOf [⟨carolAddr, 60⟩]) "rid001" bobAddr 1 (Coins.NewCoins 0 100)
      (by decide) (by decide) (by decide)).2.2.2.2.1 (by decide)).1,
    ((expiry_decisions_agree (envAt 200) (viewOf 3000 [("rid001", ruleOf [⟨carolAddr, 60⟩])])
      (heapOf 3000) (ruleOf [⟨carolAddr, 60⟩]) "rid001" bobAddr 1 (Coins.NewCoins 0 100)
      (by decide) (by decide) (by decide)).2.2.2.2.1 (by decide)).2.2.2,
    ((expiry_decisions_agree (envAt 201) (viewOf 3000 [("rid001", ruleOf [⟨carolAddr, 60⟩])])
      (heapOf 3000) (ruleOf [⟨carolAddr, 60⟩]) "rid001" bobAddr 1 (Coins.NewCoins 0 100)
      (by decide) (by decide) (by decide)).2.2.2.1 (by decide)).2.2.2.1,
    ((expiry_decisions_agree (envAt 201) (viewOf 3000 [("rid001", ruleOf [⟨carolAddr, 60⟩])])
      (heapOf 3000) (ruleOf [⟨carolAddr, 60⟩]) "rid001" bobAddr 1 (Coins.NewCoins 0 100)
      (by decide) (by decide) (by decide)).2.2.2.1 (by decide)).2.2.2.2⟩

/-! ## The canonical encoding is a round trip -/

theorem natOfBytes_append_singleton (b : Bytes) (x : Nat) :
    natOfBytes (b ++ [x]) = natOfBytes b * 256 + x := by
  simp [natOfBytes, List.foldl_append]

theorem natOfBytes_natBytesAux (fuel n : Nat) (h : n ≤ fuel) :
    natOfBytes (natBytesAux fuel n) = n := by
  induction fuel generalizing n with
  | zero =>
    have h0 : n = 0 := by omega
    subst h0
    rfl
  | succ fuel ih =>
    unfold natBytesAux
    by_cases hn : n = 0
    · subst hn
      rfl
    · rw [if_neg hn, natOfBytes_append_singleton, ih (n / 256) (by omega)]
      omega

theorem natOfBytes_natBytes (n : Nat) : natOfBytes (natBytes n) = n :=
  natOfBytes_natBytesAux n n (Nat.le_refl n)

theorem natBytes_length_pos (n : Nat) (hn : n ≠ 0) : 0 < (natBytes n).length := by
  unfold natBytes
  cases n with
  | zero => exact absurd rfl hn
  | succ k =>
    unfold natBytesAux
    rw [if_neg hn]
    simp

theorem takeExact_append (b rest : Bytes) :
    takeExact b.length (b ++ rest) = some (b, rest) := by
  unfold takeExact
  rw [if_pos (by simp)]
  simp

theorem takeLong_append (len b rest : Bytes) (hlen : natOfBytes len = b.length) :
    takeLong len.length (len ++ (b ++ rest)) = some (b, rest) := by
  unfold takeLong
  rw [takeExact_append]
  simp only [hlen]
  exact takeExact_append b rest

/-- The length prefix of a byte string splits off the string. -/
theorem rlpSplit_string_header (b header rest : Bytes)
    (h : rlpHeader 128 b.length = some header) :
    header ≠ [] ∧ rlpSplit (header ++ b ++ rest) = some (false, b, rest) := by
  unfold rlpHeader at h
  by_cases hshort : b.length ≤ 55
  · rw [if_pos hshort] at h
    injection h with h
    subst h
    refine ⟨by simp, ?_⟩
    simp only [List.singleton_append, List.cons_append, List.nil_append, rlpSplit]
    rw [if_neg (by omega), if_pos (by omega)]
    have hsub : 128 + b.length - 128 = b.length := by omega
    rw [hsub, takeExact_append]
    rfl
  · rw [if_neg hshort] at h
    by_cases hk : (natBytes b.length).length ≤ 8
    · rw [if_pos hk] at h
      injection h with h
      subst h
      have hpos := natBytes_length_pos b.length (by omega)
      refine ⟨by simp, ?_⟩
      simp only [List.cons_append, List.append_assoc, rlpSplit]
      rw [if_neg (by omega), if_neg (by omega), if_pos (by omega)]
      have hsub : 128 + 55 + (natBytes b.length).length - 183 = (natBytes b.length).length := by
        omega
      rw [hsub, takeLong_append _ _ _ (natOfBytes_natBytes _)]
      rfl
    · rw [if_neg hk] at h
      cases h

/-- The length prefix of a list splits off the payload. -/
theorem rlpSplit_list_header (b header rest : Bytes)
    (h : rlpHeader 192 b.length = some header) :
    header ≠ [] ∧ rlpSplit (header ++ b ++ rest) = some (true, b, rest) := by
  unfold rlpHeader at h
  by_cases hshort : b.length ≤ 55
  · rw [if_pos hshort] at h
    injection h with h
    subst h
    refine ⟨by simp, ?_⟩
    simp only [List.singleton_append, List.cons_append, List.nil_append, rlpSplit]
    rw [if_neg (by omega), if_neg (by omega), if_neg (by omega), if_pos (by omega)]
    have hsub : 192 + b.length - 192 = b.length := by omega
    rw [hsub, takeExact_append]
    rfl
  · rw [if_neg hshort] at h
    by_cases hk : (natBytes b.length).length ≤ 8
    · rw [if_pos hk] at h
      injection h with h
      subst h
      have hpos := natBytes_length_pos b.length (by omega)
      refine ⟨by simp, ?_⟩
      simp only [List.cons_append, List.append_assoc, rlpSplit]
      rw [if_neg (by omega), if_neg (by omega), if_neg (by omega), if_neg (by omega)]
      have hsub : 192 + 55 + (natBytes b.length).length - 247 = (natBytes b.length).length := by
        omega
      rw [hsub, takeLong_append _ _ _ (natOfBytes_natBytes _)]
      rfl
    · rw [if_neg hk] at h
      cases h

/-- An encoded byte string is not empty and splits to the string. -/
theorem rlpSplit_rlpString (b e : Bytes) (h : rlpString b = some e) :
    e ≠ [] ∧ ∀ rest, rlpSplit (e ++ rest) = some (false, b, rest) := by
  have general : ∀ header, rlpHeader 128 b.length = some header → e = header ++ b →
      e ≠ [] ∧ ∀ rest, rlpSplit (e ++ rest) = some (false, b, rest) := by
    intro header hh he
    subst he
    refine ⟨?_, fun rest => (rlpSplit_string_header b header rest hh).2⟩
    intro hnil
    exact (rlpSplit_string_header b header [] hh).1 (List.append_eq_nil.1 hnil).1
  unfold rlpString at h
  split at h
  · rename_i x
    by_cases hx : x < 128
    · rw [if_pos hx] at h
      injection h with h
      subst h
      refine ⟨by simp, fun rest => ?_⟩
      simp only [List.singleton_append, rlpSplit, if_pos hx]
    · rw [if_neg hx] at h
      cases hh : rlpHeader 128 1 with
      | none => rw [hh] at h; cases h
      | some header =>
        rw [hh] at h
        injection h with h
        exact general header hh h.symm
  · cases hh : rlpHeader 128 b.length with
    | none => rw [hh] at h; cases h
    | some header =>
      rw [hh] at h
      injection h with h
      exact general header hh h.symm

/-- An encoded list is not empty and splits to its payload. -/
theorem rlpSplit_rlpList (payload e : Bytes) (h : rlpList payload = some e) :
    e ≠ [] ∧ ∀ rest, rlpSplit (e ++ rest) = some (true, payload, rest) := by
  unfold rlpList at h
  cases hh : rlpHeader 192 payload.length with
  | none => rw [hh] at h; cases h
  | some header =>
    rw [hh] at h
    injection h with h
    subst h
    refine ⟨?_, fun rest => (rlpSplit_list_header payload header rest hh).2⟩
    intro hnil
    exact (rlpSplit_list_header payload header [] hh).1 (List.append_eq_nil.1 hnil).1

theorem Codec.Sound.nat : Codec.nat.Sound := by
  intro n e h
  obtain ⟨hne, hsplit⟩ := rlpSplit_rlpString _ _ h
  refine ⟨hne, fun rest => ?_⟩
  simp only [Codec.nat, hsplit rest, natOfBytes_natBytes]

theorem Codec.Sound.int : Codec.int.Sound := by
  intro z e h
  simp only [Codec.int] at h
  by_cases hz : z < 0
  · rw [if_pos hz] at h
    cases h
  · rw [if_neg hz] at h
    obtain ⟨hne, hdec⟩ := Codec.Sound.nat _ _ h
    refine ⟨hne, fun rest => ?_⟩
    simp only [Codec.int, hdec rest]
    rw [Int.toNat_of_nonneg (by omega)]

theorem Codec.Sound.string : Codec.string.Sound := by
  intro s e h
  obtain ⟨hne, hsplit⟩ := rlpSplit_rlpString _ _ h
  refine ⟨hne, fun rest => ?_⟩
  simp [Codec.string, hsplit rest, Function.comp_def]

theorem Codec.Sound.key : Codec.key.Sound := by
  intro k e h
  cases k with
  | none =>
    have h1 : rlpString [] = some e := h
    obtain ⟨hne, hsplit⟩ := rlpSplit_rlpString _ _ h1
    refine ⟨hne, fun rest => ?_⟩
    simp only [Codec.key, hsplit rest]
  | some n =>
    have h1 : rlpString (4 :: natBytes n) = some e := h
    obtain ⟨hne, hsplit⟩ := rlpSplit_rlpString _ _ h1
    refine ⟨hne, fun rest => ?_⟩
    simp only [Codec.key, hsplit rest, natOfBytes_natBytes]

theorem Codec.Sound.seq {α β : Type} {a : Codec α} {b : Codec β} (ha : a.Sound)
    (hb : b.Sound) : (Codec.seq a b).Sound := by
  intro p e h
  simp only [Codec.seq] at h
  cases h1 : a.enc p.1 with
  | none => rw [h1] at h; cases h
  | some e1 =>
    cases h2 : b.enc p.2 with
    | none => rw [h1, h2] at h; cases h
    | some e2 =>
      rw [h1, h2] at h
      injection h with h
      subst h
      obtain ⟨hne1, hdec1⟩ := ha _ _ h1
      obtain ⟨_, hdec2⟩ := hb _ _ h2
      refine ⟨fun hnil => hne1 (List.append_eq_nil.1 hnil).1, fun rest => ?_⟩
      simp only [Codec.seq, List.append_assoc, hdec1, hdec2]

theorem Codec.Sound.record {α : Type} {fields : Codec α} (hf : fields.Sound) :
    (Codec.record fields).Sound := by
  intro x e h
  simp only [Codec.record] at h
  cases h1 : fields.enc x with
  | none => rw [h1] at h; cases h
  | some payload =>
    rw [h1] at h
    obtain ⟨hne, hsplit⟩ := rlpSplit_rlpList _ _ h
    obtain ⟨_, hdec⟩ := hf _ _ h1
    have hall := hdec []
    rw [List.append_nil] at hall
    refine ⟨hne, fun rest => ?_⟩
    simp only [Codec.record, hsplit rest, hall]

theorem Codec.decodeAll_encodeAll {α : Type} {item : Codec α} (hi : item.Sound)
    (xs : List α) :
    ∀ (payload : Bytes) (fuel : Nat), Codec.encodeAll item xs = some payload →
      payload.length ≤ fuel → Codec.decodeAll item fuel payload = some xs := by
  induction xs with
  | nil =>
    intro payload fuel h _
    simp only [Codec.encodeAll, Option.some.injEq] at h
    subst h
    cases fuel <;> rfl
  | cons x rest ih =>
    intro payload fuel h hfuel
    simp only [Codec.encodeAll] at h
    cases h1 : item.enc x with
    | none => rw [h1] at h; cases h
    | some e =>
      cases h2 : Codec.encodeAll item rest with
      | none => rw [h1, h2] at h; cases h
      | some es =>
        rw [h1, h2] at h
        injection h with h
        subst h
        obtain ⟨hne, hdec⟩ := hi _ _ h1
        have hlen : 0 < e.length := List.length_pos.2 hne
        rw [List.length_append] at hfuel
        cases fuel with
        | zero => omega
        | succ fuel =>
          have hnot : (e ++ es).isEmpty = false := by
            cases e with
            | nil => exact absurd rfl hne
            | cons _ _ => rfl
          simp only [Codec.decodeAll, hnot, Bool.false_eq_true, if_false, hdec es,
            ih es fuel h2 (by omega)]

theorem Codec.Sound.listOf {α : Type} {item : Codec α} (hi : item.Sound) :
    (Codec.listOf item).Sound := by
  intro xs e h
  simp only [Codec.listOf] at h
  cases h1 : Codec.encodeAll item xs with
  | none => rw [h1] at h; cases h
  | some payload =>
    rw [h1] at h
    obtain ⟨hne, hsplit⟩ := rlpSplit_rlpList _ _ h
    refine ⟨hne, fun rest => ?_⟩
    simp only [Codec.listOf, hsplit rest,
      Codec.decodeAll_encodeAll hi xs payload payload.length h1 (Nat.le_refl _)]

theorem Codec.Sound.via {α β : Type} {toFields : α → β} {ofFields : β → α}
    {fields : Codec β} (hf : fields.Sound) (hinv : ∀ x, ofFields (toFields x) = x) :
    (Codec.via toFields ofFields fields).Sound := by
  intro x e h
  obtain ⟨hne, hdec⟩ := hf _ _ h
  refine ⟨hne, fun rest => ?_⟩
  simp only [Codec.via, hdec rest, hinv]

theorem coinsCodec_sound : coinsCodec.Sound :=
  Codec.Sound.record (Codec.Sound.via (Codec.Sound.seq Codec.Sound.int Codec.Sound.int)
    (fun _ => rfl))

theorem splitCodec_sound : splitCodec.Sound :=
  Codec.Sound.record (Codec.Sound.via (Codec.Sound.seq Codec.Sound.nat Codec.Sound.nat)
    (fun _ => rfl))

theorem splitRuleCodec_sound : splitRuleCodec.Sound :=
  Codec.Sound.record (Codec.Sound.via
    (Codec.Sound.seq Codec.Sound.nat (Codec.Sound.seq Codec.Sound.string
      (Codec.Sound.seq (Codec.Sound.listOf splitCodec_sound) Codec.Sound.nat)))
    (fun _ => rfl))

theorem txInputCodec_sound : txInputCodec.Sound :=
  Codec.Sound.record (Codec.Sound.via
    (Codec.Sound.seq Codec.Sound.nat (Codec.Sound.seq coinsCodec_sound
      (Codec.Sound.seq Codec.Sound.nat (Codec.Sound.seq Codec.Sound.nat Codec.Sound.key))))
    (fun _ => rfl))

theorem servicePaymentTxCodec_sound : servicePaymentTxCodec.Sound :=
  Codec.Sound.record (Codec.Sound.via
    (Codec.Sound.seq coinsCodec_sound (Codec.Sound.seq txInputCodec_sound
      (Codec.Sound.seq txInputCodec_sound (Codec.Sound.seq Codec.Sound.nat
        (Codec.Sound.seq Codec.Sound.nat Codec.Sound.string)))))
    (fun _ => rfl))

theorem transferRecordCodec_sound : transferRecordCodec.Sound :=
  Codec.Sound.record (Codec.Sound.via
    (Codec.Sound.seq servicePaymentTxCodec_sound coinsCodec_sound) (fun _ => rfl))

theorem reservedPoolCodec_sound : reservedPoolCodec.Sound :=
  Codec.Sound.record (Codec.Sound.via
    (Codec.Sound.seq coinsCodec_sound (Codec.Sound.seq coinsCodec_sound
      (Codec.Sound.seq (Codec.Sound.listOf Codec.Sound.string)
        (Codec.Sound.seq Codec.Sound.nat (Codec.Sound.seq Codec.Sound.nat
          (Codec.Sound.listOf transferRecordCodec_sound))))))
    (fun _ => rfl))

theorem accountCodec_sound : accountCodec.Sound :=
  Codec.Sound.record (Codec.Sound.via
    (Codec.Sound.seq Codec.Sound.key (Codec.Sound.seq Codec.Sound.nat
      (Codec.Sound.seq coinsCodec_sound
        (Codec.Sound.seq (Codec.Sound.listOf reservedPoolCodec_sound)
          (Codec.Sound.seq Codec.Sound.nat Codec.Sound.nat)))))
    (fun _ => rfl))

/-- Decoding undoes encoding: the bytes of a value that encodes are not empty and decode
to the value. -/
theorem Codec.fromBytes_enc {α : Type} {c : Codec α} (hc : c.Sound) (x : α) (e : Bytes)
    (h : c.enc x = some e) : e ≠ [] ∧ c.fromBytes e = some x := by
  obtain ⟨hne, hdec⟩ := hc _ _ h
  have hall := hdec []
  rw [List.append_nil] at hall
  exact ⟨hne, by simp only [Codec.fromBytes, hall]⟩

/-- An account with a negative balance has no encoding. -/
theorem accountCodec_refuses_negative (acc : Account) (e : Bytes)
    (h : accountCodec.enc acc = some e) : acc.Balance.IsNonnegative = true := by
  by_contra hneg
  have hcoins : coinsCodec.enc acc.Balance = none := by
    simp only [Coins.IsNonnegative, Bool.and_eq_true, decide_eq_true_eq, not_and_or,
      not_le] at hneg
    simp only [coinsCodec, Codec.record, Codec.via, Codec.seq, Codec.int]
    rcases hneg with h1 | h1
    · simp [h1]
    · simp only [if_pos h1]
      split <;> simp_all
  simp only [accountCodec, Codec.record, Codec.via, Codec.seq] at h
  rw [hcoins] at h
  split at h <;> simp_all

/-! ## Accounts and split rules through the canonical encoding -/

/-- C20, as stated, fails: an account with a balance of -5 gamma has no encoding, and
`SetAccount` panics on it; nothing is written, for every store and address. -/
theorem set_account_negative_balance_panics :
    canonicalEncoding.AccountToBytes (plainAccount (-5)) = none ∧
    ByteView.SetAccount canonicalEncoding { store := [] } bobAddr (plainAccount (-5)) =
      Except.error "Error writing account" ∧
    ∀ (sv : ByteView) (a : Address) (sv1 : ByteView),
      ByteView.SetAccount canonicalEncoding sv a (plainAccount (-5)) ≠ Except.ok sv1 := by
  refine ⟨by decide, rfl, ?_⟩
  intro sv a sv1 h
  have henc : canonicalEncoding.AccountToBytes (plainAccount (-5)) = none := by decide
  simp only [ByteView.SetAccount, henc] at h
  cases h

/-- C20, amended: under the canonical encoding, for every store, address and account
that encodes, `SetAccount(a, acc)` returns and `GetAccount(a)` afterwards returns `acc`;
for every resource ID and split rule that encodes, `GetSplitRule(r)` after
`SetSplitRule(r, sr)` returns `sr`; the decoder undoes the encoder on every record that
encodes.  An account with a negative balance does not encode, and `SetAccount` panics
on it. -/
theorem set_get_round_trip (sv : ByteView) :
    (∀ (a : Address) (acc : Account),
      (canonicalEncoding.AccountToBytes acc).isSome = true →
      ∃ sv1, sv.SetAccount canonicalEncoding a acc = Except.ok sv1 ∧
        sv1.GetAccount canonicalEncoding a = Except.ok (some acc)) ∧
    (∀ (resourceID : String) (sr : SplitRule),
      (canonicalEncoding.SplitRuleToBytes sr).isSome = true →
      ∃ sv1, sv.SetSplitRule canonicalEncoding resourceID sr = Except.ok sv1 ∧
        sv1.GetSplitRule canonicalEncoding resourceID = Except.ok (some sr)) ∧
    (∀ (acc : Account) (accBytes : Bytes),
      canonicalEncoding.AccountToBytes acc = some accBytes →
      canonicalEncoding.AccountFromBytes accBytes = some acc) ∧
    (∀ (sr : SplitRule) (srBytes : Bytes),
      canonicalEncoding.SplitRuleToBytes sr = some srBytes →
      canonicalEncoding.SplitRuleFromBytes srBytes = some sr) ∧
    (∀ (a : Address) (acc : Account), acc.Balance.IsNonnegative = false →
      sv.SetAccount canonicalEncoding a acc = Except.error "Error writing account") := by
  refine ⟨?_, ?_, ?_, ?_, ?_⟩
  · intro a acc hsome
    cases henc : canonicalEncoding.AccountToBytes acc with
    | none => rw [henc] at hsome; cases hsome
    | some accBytes =>
      obtain ⟨hne, hdec⟩ := Codec.fromBytes_enc accountCodec_sound acc accBytes henc
      have hdec2 : canonicalEncoding.AccountFromBytes accBytes = some acc := hdec
      refine ⟨sv.Set (canonicalEncoding.AccountKey a) accBytes, ?_, ?_⟩
      · simp only [ByteView.SetAccount, henc]
      · have hlen : ¬ accBytes.length = 0 := fun h => hne (List.length_eq_zero.1 h)
        simp only [ByteView.GetAccount, ByteView.Get_Set_self, hlen, if_false, hdec2]
  · intro resourceID sr hsome
    cases henc : canonicalEncoding.SplitRuleToBytes sr with
    | none => rw [henc] at hsome; cases hsome
    | some srBytes =>
      obtain ⟨hne, hdec⟩ := Codec.fromBytes_enc splitRuleCodec_sound sr srBytes henc
      have hdec2 : canonicalEncoding.SplitRuleFromBytes srBytes = some sr := hdec
      refine ⟨sv.Set (canonicalEncoding.SplitRuleKey resourceID) srBytes, ?_, ?_⟩
      · simp only [ByteView.SetSplitRule, henc]
      · have hlen : ¬ srBytes.length = 0 := fun h => hne (List.length_eq_zero.1 h)
        simp only [ByteView.GetSplitRule, ByteView.Get_Set_self, hlen, if_false, hdec2]
  · intro acc accBytes henc
    exact (Codec.fromBytes_enc accountCodec_sound acc accBytes henc).2
  · intro sr srBytes henc
    exact (Codec.fromBytes_enc splitRuleCodec_sound sr srBytes henc).2
  · intro a acc hneg
    cases henc : canonicalEncoding.AccountToBytes acc with
    | none => simp only [ByteView.SetAccount, henc]
    | some accBytes =>
      have h := accountCodec_refuses_negative acc accBytes henc
      rw [hneg] at h
      cases h

/-- C20, amended, at a concrete input: the account of Alice after scenario S1, with her
pool and its transfer record, and the rule of "rid001", written to an empty store. -/
theorem set_get_round_trip_witness :
    (canonicalEncoding.AccountToBytes aliceAfterS1).isSome = true ∧
    (∃ sv1, ByteView.SetAccount canonicalEncoding { store := [] } aliceAddr aliceAfterS1
        = Except.ok sv1 ∧
      sv1.GetAccount canonicalEncoding aliceAddr = Except.ok (some aliceAfterS1)) ∧
    (canonicalEncoding.SplitRuleToBytes (ruleOf [⟨carolAddr, 60⟩])).isSome = true ∧
    (∃ sv1, ByteView.SetSplitRule canonicalEncoding { store := [] } "rid001"
        (ruleOf [⟨carolAddr, 60⟩]) = Except.ok sv1 ∧
      sv1.GetSplitRule canonicalEncoding "rid001" = Except.ok (some (ruleOf [⟨carolAddr, 60⟩]))) :=
  ⟨by decide,
   (set_get_round_trip { store := [] }).1 aliceAddr aliceAfterS1 (by decide),
   by decide,
   (set_get_round_trip { store := [] }).2.1 "rid001" (ruleOf [⟨carolAddr, 60⟩]) (by decide)⟩

/-! ## Balances of the stored accounts -/

/-- C28: under an encoder that has no encoding for an account with a negative balance,
if every stored account has a non-negative balance before `SubBalance` or `AddBalance`
with any amount, every stored account has one after it.  A call that would take the
gamma balance below zero panics in `SetAccount` and writes nothing; a call on a stored
account whose changed record encodes returns with that record written; a zero amount
changes nothing. -/
theorem balance_ops_keep_nonnegative (enc : Encoding) (sv : StoreView) (addr : Address)
    (amount : Int)
    (hrefuse : ∀ acc, (enc.AccountToBytes acc).isSome = true →
      acc.Balance.IsNonnegative = true)
    (hall : sv.balancesNonnegative) :
    (∀ sv1, sv.SubBalance enc addr amount = Except.ok sv1 → sv1.balancesNonnegative) ∧
    (∀ sv1, sv.AddBalance enc addr amount = Except.ok sv1 → sv1.balancesNonnegative) ∧
    (∀ account, sv.GetAccount addr = some account → account.Balance.GammaWei < amount →
      sv.SubBalance enc addr amount = Except.error "Error writing account") ∧
    (∀ account, sv.GetAccount addr = some account → account.Balance.GammaWei + amount < 0 →
      sv.AddBalance enc addr amount = Except.error "Error writing account") ∧
    (∀ account, sv.GetAccount addr = some account → amount ≠ 0 →
      (enc.AccountToBytes { account with
        Balance := { account.Balance with
          GammaWei := account.Balance.GammaWei - amount } }).isSome = true →
      sv.SubBalance enc addr amount = Except.ok (sv.SetAccount addr { account with
        Balance := { account.Balance with
          GammaWei := account.Balance.GammaWei - amount } })) ∧
    (∀ account, sv.GetAccount addr = some account → amount ≠ 0 →
      (enc.AccountToBytes { account with
        Balance := { account.Balance with
          GammaWei := account.Balance.GammaWei + amount } }).isSome = true →
      sv.AddBalance enc addr amount = Except.ok (sv.SetAccount addr { account with
        Balance := { account.Balance with
          GammaWei := account.Balance.GammaWei + amount } })) ∧
    sv.SubBalance enc addr 0 = Except.ok sv ∧ sv.AddBalance enc addr 0 = Except.ok sv := by
  have hset : ∀ (acc : Account) (sv1 : StoreView),
      sv.SetAccountOrPanic enc addr acc = Except.ok sv1 → sv1.balancesNonnegative := by
    intro acc sv1 h
    unfold StoreView.SetAccountOrPanic at h
    cases henc : enc.AccountToBytes acc with
    | none => rw [henc] at h; cases h
    | some accBytes =>
      rw [henc] at h
      injection h with h
      subst h
      have hacc : acc.Balance.IsNonnegative = true := hrefuse acc (by rw [henc]; rfl)
      intro e he
      rcases mem_mapSet _ _ _ e he with h1 | h1
      · exact hall e h1
      · subst h1
        exact hacc
  have hpanic : ∀ acc : Account, acc.Balance.IsNonnegative = false →
      sv.SetAccountOrPanic enc addr acc = Except.error "Error writing account" := by
    intro acc hneg
    unfold StoreView.SetAccountOrPanic
    cases henc : enc.AccountToBytes acc with
    | none => rfl
    | some accBytes =>
      have h := hrefuse acc (by rw [henc]; rfl)
      rw [hneg] at h
      cases h
  have hok : ∀ acc : Account, (enc.AccountToBytes acc).isSome = true →
      sv.SetAccountOrPanic enc addr acc = Except.ok (sv.SetAccount addr acc) := by
    intro acc hsome
    unfold StoreView.SetAccountOrPanic
    cases henc : enc.AccountToBytes acc with
    | none => rw [henc] at hsome; cases hsome
    | some accBytes => rfl
  refine ⟨?_, ?_, ?_, ?_, ?_, ?_, ?_, ?_⟩
  · intro sv1 h
    unfold StoreView.SubBalance at h
    by_cases h0 : amount = 0
    · rw [if_pos h0] at h
      injection h with h
      subst h
      exact hall
    · rw [if_neg h0] at h
      cases hacc : sv.GetAccount addr with
      | none => rw [hacc] at h; cases h
      | some account =>
        rw [hacc] at h
        exact hset _ sv1 h
  · intro sv1 h
    unfold StoreView.AddBalance at h
    by_cases h0 : amount = 0
    · rw [if_pos h0] at h
      injection h with h
      subst h
      exact hall
    · rw [if_neg h0] at h
      cases hacc : sv.GetAccount addr with
      | none => rw [hacc] at h; cases h
      | some account =>
        rw [hacc] at h
        exact hset _ sv1 h
  · intro account hacc hlt
    have hold : account.Balance.IsNonnegative = true :=
      hall (addr, account) (mem_of_mapGet _ _ _ hacc)
    simp only [Coins.IsNonnegative, Bool.and_eq_true, decide_eq_true_eq] at hold
    have h0 : amount ≠ 0 := by omega
    unfold StoreView.SubBalance
    rw [if_neg h0, hacc]
    apply hpanic
    simp only [Coins.IsNonnegative, Bool.and_eq_false_iff, decide_eq_false_iff_not, not_le]
    exact Or.inr (by omega)
  · intro account hacc hlt
    have hold : account.Balance.IsNonnegative = true :=
      hall (addr, account) (mem_of_mapGet _ _ _ hacc)
    simp only [Coins.IsNonnegative, Bool.and_eq_true, decide_eq_true_eq] at hold
    have h0 : amount ≠ 0 := by omega
    unfold StoreView.AddBalance
    rw [if_neg h0, hacc]
    apply hpanic
    simp only [Coins.IsNonnegative, Bool.and_eq_false_iff, decide_eq_false_iff_not, not_le]
    exact Or.inr hlt
  · intro account hacc h0 hsome
    unfold StoreView.SubBalance
    rw [if_neg h0, hacc]
    exact hok _ hsome
  · intro account hacc h0 hsome
    unfold StoreView.AddBalance
    rw [if_neg h0, hacc]
    exact hok _ hsome
  · simp only [StoreView.SubBalance, if_true]
  · simp only [StoreView.AddBalance, if_true]

/-- C28 at a concrete input, under the canonical encoding: Bob has 5 gamma; taking 5
returns and leaves every balance non-negative, taking 10 panics. -/
theorem balance_ops_keep_nonnegative_witness :
    (∀ acc, (canonicalEncoding.AccountToBytes acc).isSome = true →
      acc.Balance.IsNonnegative = true) ∧
    poorBobView.balancesNonnegative ∧
    poorBobView.SubBalance canonicalEncoding bobAddr 5 =
      Except.ok (poorBobView.SetAccount bobAddr (plainAccount 0)) ∧
    (poorBobView.SetAccount bobAddr (plainAccount 0)).balancesNonnegative ∧
    poorBobView.SubBalance canonicalEncoding bobAddr 10 =
      Except.error "Error writing account" := by
  have hrefuse : ∀ acc, (canonicalEncoding.AccountToBytes acc).isSome = true →
      acc.Balance.IsNonnegative = true := by
    intro acc hsome
    cases henc : canonicalEncoding.AccountToBytes acc with
    | none => rw [henc] at hsome; cases hsome
    | some accBytes => exact accountCodec_refuses_negative acc accBytes henc
  have hall : poorBobView.balancesNonnegative := by
    unfold StoreView.balancesNonnegative
    decide
  have h := balance_ops_keep_nonnegative canonicalEncoding poorBobView bobAddr 5 hrefuse hall
  have h10 := balance_ops_keep_nonnegative canonicalEncoding poorBobView bobAddr 10 hrefuse hall
  have hret : poorBobView.SubBalance canonicalEncoding bobAddr 5 =
      Except.ok (poorBobView.SetAccount bobAddr (plainAccount 0)) :=
    h.2.2.2.2.1 (plainAccount 5) rfl (by decide) (by decide)
  exact ⟨hrefuse, hall, hret, h.1 _ hret, h10.2.2.1 (plainAccount 5) rfl (by decide)⟩

end Theta
